import Mathlib

set_option maxRecDepth 8000

/-!
# Verification of the `@ldapjs/dn` DN/RDN string codec and data model

A shallow embedding of the library's parser (`lib/utils/parse-string/*`),
serializer (`lib/utils/escape-value.js`, `RDN.toString`, `DN.toString`) and the
RDN/DN data model (`lib/rdn.js`, `lib/dn.js`), together with theorems settling
the specification claims.

Modelling conventions:
* A JavaScript string is a list of UTF-16 code units (`JSStr`).
* A Node `Buffer` is a list of bytes (`List Nat`, each < 256).
* `Buffer.from(string, 'utf8')` is `utf16ToUtf8` (lone surrogates become
  U+FFFD, as in Node), `buffer.toString('utf8')` is `utf8ToUtf16`
  (WHATWG replacement semantics, as in V8).
* Fallible functions return `Except JSStr` carrying the thrown `Error` message.
* Index-driven scanning loops take an explicit fuel argument; the wrappers
  instantiate fuel larger than the number of iterations each loop can make
  (each iteration strictly advances the position, which is bounded by the
  buffer length), so exhaustion is unreachable from the wrappers.
* `BerReader` values carry an identity tag modelling JS object reference
  identity: two `BerReader`s are `===`-equal iff they are the same allocation.
  Allocations are tagged with a per-parse seed plus the buffer position.
-/

namespace LdapDn

/-- A JavaScript string: a sequence of UTF-16 code units. -/
abbrev JSStr := List Nat

/-- Embed an ASCII Lean string literal as a JS string. -/
def strLit (s : String) : JSStr := s.data.map Char.toNat

/-- Decimal rendering of a number, as JS string concatenation does it. -/
def natLit (n : Nat) : JSStr := strLit (toString n)

/-- High surrogate code unit (U+D800–U+DBFF). -/
def isHighSurrogate (u : Nat) : Bool := 0xd800 ≤ u && u ≤ 0xdbff

/-- Low surrogate code unit (U+DC00–U+DFFF). -/
def isLowSurrogate (u : Nat) : Bool := 0xdc00 ≤ u && u ≤ 0xdfff

/-- UTF-8 continuation byte (0x80–0xBF). -/
def isCont (b : Nat) : Bool := 0x80 ≤ b && b ≤ 0xbf

/-- UTF-8 encoding of one non-surrogate code unit (a lone surrogate becomes
the replacement character `EF BF BD`, matching Node; units above 0xFFFF do
not occur in a JS string and are also sent to the replacement character). -/
def encodeUnit (u : Nat) : List Nat :=
  if u ≤ 0x7f then [u]
  else if u ≤ 0x7ff then [0xc0 + u / 64, 0x80 + u % 64]
  else if isHighSurrogate u || isLowSurrogate u then [0xef, 0xbf, 0xbd]
  else if u ≤ 0xffff then [0xe0 + u / 0x1000, 0x80 + u / 64 % 64, 0x80 + u % 64]
  else [0xef, 0xbf, 0xbd]

/-- UTF-8 encoding of the code point of a well-formed surrogate pair
(always a 4-byte sequence, lead byte `F0`–`F4`). -/
def encodePair (hs ls : Nat) : List Nat :=
  let cp := 0x10000 + (hs - 0xd800) * 0x400 + (ls - 0xdc00)
  [0xf0 + cp / 0x40000, 0x80 + cp / 0x1000 % 64, 0x80 + cp / 64 % 64, 0x80 + cp % 64]

/-- The encoder loop of `Buffer.from(s, 'utf8')`, with `pend` holding a high
surrogate waiting for its low half.  A pending high surrogate followed by a
low surrogate becomes one 4-byte sequence; a pending high surrogate followed
by anything else (or the end) is lone and becomes `EF BF BD`. -/
def utf16ToUtf8Go : Option Nat → JSStr → List Nat
  | none, [] => []
  | some _, [] => [0xef, 0xbf, 0xbd]
  | none, u :: rest =>
    if isHighSurrogate u then utf16ToUtf8Go (some u) rest
    else encodeUnit u ++ utf16ToUtf8Go none rest
  | some hs, u :: rest =>
    if isLowSurrogate u then encodePair hs u ++ utf16ToUtf8Go none rest
    else if isHighSurrogate u then 0xef :: 0xbf :: 0xbd :: utf16ToUtf8Go (some u) rest
    else 0xef :: 0xbf :: 0xbd :: (encodeUnit u ++ utf16ToUtf8Go none rest)

/-- `Buffer.from(s, 'utf8')`: UTF-16 to UTF-8, lone surrogates replaced. -/
def utf16ToUtf8 (s : JSStr) : List Nat := utf16ToUtf8Go none s

/-- The code units for a decoded code point: one unit below 0x10000, else a
surrogate pair. -/
def emitCp (cp : Nat) : JSStr :=
  if cp < 0x10000 then [cp]
  else [0xd800 + (cp - 0x10000) / 0x400, 0xdc00 + (cp - 0x10000) % 0x400]

/-- The WHATWG UTF-8 decoder's dispatch on a byte in the initial state:
either enter a continuation state `(needed, code point, lower, upper)` or
emit units directly (an ASCII byte, or U+FFFD for `C0`, `C1`, `F5`–`FF` and
stray continuation bytes). -/
def utf8Lead (b : Nat) : (Nat × Nat × Nat × Nat) ⊕ JSStr :=
  if b ≤ 0x7f then .inr [b]
  else if 0xc2 ≤ b && b ≤ 0xdf then .inl (1, b - 0xc0, 0x80, 0xbf)
  else if 0xe0 ≤ b && b ≤ 0xef then
    .inl (2, b - 0xe0, if b == 0xe0 then 0xa0 else 0x80, if b == 0xed then 0x9f else 0xbf)
  else if 0xf0 ≤ b && b ≤ 0xf4 then
    .inl (3, b - 0xf0, if b == 0xf0 then 0x90 else 0x80, if b == 0xf4 then 0x8f else 0xbf)
  else .inr [0xfffd]

/-- The WHATWG UTF-8 decoder loop (`buffer.toString('utf8')` in Node):
`needed` continuation bytes are pending for the partial code point `cp`, the
next continuation byte must lie in `lo`–`hi`.  A failing continuation byte
emits one U+FFFD and is reprocessed in the initial state (maximal-subpart
replacement); a truncated sequence at the end emits one U+FFFD. -/
def utf8DecGo : Nat → Nat → Nat → Nat → List Nat → JSStr
  | needed, _, _, _, [] => if needed == 0 then [] else [0xfffd]
  | needed, cp, lo, hi, b :: rest =>
    if needed == 0 then
      match utf8Lead b with
      | .inl (n2, c2, l2, h2) => utf8DecGo n2 c2 l2 h2 rest
      | .inr out => out ++ utf8DecGo 0 0 0x80 0xbf rest
    else if lo ≤ b && b ≤ hi then
      (if needed == 1 then emitCp (cp * 64 + (b - 0x80)) ++ utf8DecGo 0 0 0x80 0xbf rest
       else utf8DecGo (needed - 1) (cp * 64 + (b - 0x80)) 0x80 0xbf rest)
    else
      0xfffd :: (match utf8Lead b with
        | .inl (n2, c2, l2, h2) => utf8DecGo n2 c2 l2 h2 rest
        | .inr out => out ++ utf8DecGo 0 0 0x80 0xbf rest)

/-- `buffer.toString('utf8')`: UTF-8 to UTF-16 with WHATWG replacement
semantics. -/
def utf8ToUtf16 (l : List Nat) : JSStr := utf8DecGo 0 0 0x80 0xbf l

/-- The ECMAScript whitespace and line-terminator code units removed by
`String.prototype.trim`. -/
def isJsWs (u : Nat) : Bool :=
  u == 0x09 || u == 0x0a || u == 0x0b || u == 0x0c || u == 0x0d || u == 0x20 ||
  u == 0xa0 || u == 0x1680 || (0x2000 ≤ u && u ≤ 0x200a) || u == 0x2028 ||
  u == 0x2029 || u == 0x202f || u == 0x205f || u == 0x3000 || u == 0xfeff

/-- `String.prototype.trim`: drop whitespace code units from both ends. -/
def jsTrim (s : JSStr) : JSStr :=
  ((s.dropWhile isJsWs).reverse.dropWhile isJsWs).reverse

/-- ASCII letter (A–Z or a–z). -/
def isAsciiAlpha (c : Nat) : Bool := (0x41 ≤ c && c ≤ 0x5a) || (0x61 ≤ c && c ≤ 0x7a)

/-- ASCII digit (0–9). -/
def isAsciiDigit (c : Nat) : Bool := 0x30 ≤ c && c ≤ 0x39

/-- Hexadecimal digit character (`[0-9a-fA-F]`). -/
def isHexDigit (c : Nat) : Bool :=
  isAsciiDigit c || (0x41 ≤ c && c ≤ 0x46) || (0x61 ≤ c && c ≤ 0x66)

/-- Numeric value of a hexadecimal digit character. -/
def hexVal (c : Nat) : Nat :=
  if isAsciiDigit c then c - 0x30
  else if 0x41 ≤ c && c ≤ 0x46 then c - 0x41 + 10
  else c - 0x61 + 10

/-- Lowercase hexadecimal digit character for a value 0–15, as produced by
JS `Number.prototype.toString(16)`. -/
def hexDigitLower (n : Nat) : Nat := if n < 10 then 0x30 + n else 0x57 + n

/-- Render a byte as two lowercase hex digit characters
(`toString(16).padStart(2, '0')`; bytes are < 256, so exactly two digits). -/
def hexPairLower (b : Nat) : JSStr := [hexDigitLower (b / 16 % 16), hexDigitLower (b % 16)]

/-! ## Escape Codec, encode direction (`lib/utils/escape-value.js`) -/

/-- `toEscapedHexString`: a backslash followed by the byte's two lowercase hex
digits. -/
def toEscapedHexString (b : Nat) : JSStr := 0x5c :: hexPairLower b

/-- The `embeddedReservedChars` list of `escape-value.js`:
`"`, `+`, `,`, `;`, `<`, `>`. -/
def isEmbeddedReserved (b : Nat) : Bool :=
  b == 0x22 || b == 0x2b || b == 0x2c || b == 0x3b || b == 0x3c || b == 0x3e

/-- The byte loop of `escapeValue`, with `first` tracking `i === 0` and
`pend` the number of continuation bytes of a multi-byte UTF-8 sequence still
to be hex-escaped unconditionally (the source consumes a lead byte together
with its continuation bytes `toEscape[i+1] …` in one iteration; escaping them
one state-machine step at a time is the same computation).  A positive `pend`
at the end of the buffer is the source's unchecked out-of-range access: the
JS code throws a `TypeError` hex-formatting `undefined`, modelled as `none`
(unreachable for buffers produced by `utf16ToUtf8`). -/
def escapeBytesGo : Nat → Bool → List Nat → Option JSStr
  | 0, _, [] => some []
  | _ + 1, _, [] => none
  | k + 1, _, b :: rest => (toEscapedHexString b ++ ·) <$> escapeBytesGo k false rest
  | 0, first, b :: rest =>
    if first && (b == 0x20 || b == 0x23) then
      (toEscapedHexString b ++ ·) <$> escapeBytesGo 0 false rest
    else if rest.isEmpty && b == 0x20 then
      (toEscapedHexString b ++ ·) <$> escapeBytesGo 0 false rest
    else if isEmbeddedReserved b then
      (toEscapedHexString b ++ ·) <$> escapeBytesGo 0 false rest
    else if 0xc0 ≤ b && b ≤ 0xdf then
      (toEscapedHexString b ++ ·) <$> escapeBytesGo 1 false rest
    else if 0xe0 ≤ b && b ≤ 0xef then
      (toEscapedHexString b ++ ·) <$> escapeBytesGo 2 false rest
    else if 0xf0 ≤ b && b ≤ 0xf7 then
      (toEscapedHexString b ++ ·) <$> escapeBytesGo 3 false rest
    else if b ≤ 31 then
      (toEscapedHexString b ++ ·) <$> escapeBytesGo 0 false rest
    else
      (b :: ·) <$> escapeBytesGo 0 false rest

/-- The byte loop of `escapeValue` from the start of the buffer. -/
def escapeBytes (first : Bool) (l : List Nat) : Option JSStr := escapeBytesGo 0 first l

/-- `escapeValue(value)`: escape the UTF-8 bytes of a string value per
RFC 4514 §2.4.  The `typeof value !== 'string'` guard is modelled by the
type. -/
def escapeValue (s : JSStr) : Option JSStr := escapeBytes true (utf16ToUtf8 s)

/-! ## RDN / DN data model (`lib/rdn.js`, `lib/dn.js`) -/

/-- An attribute value: a JS string, or a `BerReader` holding bytes.  The
`tag` models the JS object reference identity of a `BerReader` allocation
(strict equality `===` on objects compares references). -/
inductive Value where
  | str (s : JSStr)
  | ber (tag : Nat × Nat) (bytes : List Nat)
deriving Repr, DecidableEq

/-- JS strict equality `===` on attribute values: strings compare by
contents, `BerReader`s by reference. -/
def valueEq : Value → Value → Bool
  | .str a, .str b => a == b
  | .ber t1 _, .ber t2 _ => t1 == t2
  | _, _ => false

/-- The attribute map of an RDN: an insertion-ordered name → value mapping
(the `#attributes` `Map`).  Also the shape of the parser's plain-object RDNs. -/
abbrev RdnData := List (JSStr × Value)

/-- `Map.prototype.set` / object-spread overwrite: replace in place if the
name is present (keeping its original insertion position), else append. -/
def mapSet (m : RdnData) (k : JSStr) (v : Value) : RdnData :=
  match m with
  | [] => [(k, v)]
  | (k0, v0) :: rest => if k0 == k then (k0, v) :: rest else (k0, v0) :: mapSet rest k v

/-- `Map.prototype.has`. -/
def mapHas (m : RdnData) (k : JSStr) : Bool := m.any (fun p => p.1 == k)

/-- `Map.prototype.get` (`undefined` is `none`). -/
def mapGet (m : RdnData) (k : JSStr) : Option Value := (m.find? (fun p => p.1 == k)).map Prod.snd

/-- JS `!==`-based comparison of two `getValue` results (`undefined !==
undefined` is false, i.e. equal `none`s compare equal). -/
def optValueEq : Option Value → Option Value → Bool
  | some a, some b => valueEq a b
  | none, none => true
  | _, _ => false

/-- `RDN.prototype.equals`: both are RDN instances (guaranteed by the type),
equal attribute count, and every key of the left has a matching key and
`===`-equal value on the right. -/
def rdnEquals (a b : RdnData) : Bool :=
  a.length == b.length &&
  a.all (fun p => mapHas b p.1 && optValueEq (mapGet a p.1) (mapGet b p.1))

/-- `/^[a-zA-Z]/.test(str)` — the `startsWithAlpha` check of
`RDN.prototype.setAttribute`. -/
def startsWithAlpha (s : JSStr) : Bool :=
  match s with
  | c :: _ => isAsciiAlpha c
  | [] => false

/-- `isDottedDecimal` (`lib/utils/is-dotted-decimal.js`): split on `.`; every
part must match `/^\d+$/`. -/
def isDottedDecimal (s : JSStr) : Bool :=
  (s.splitOn 0x2e).all (fun p => !p.isEmpty && p.all isAsciiDigit)

/-- `RDN.prototype.setAttribute` (the deprecated `options` bag is typed
away; name/value type guards are discharged by the types). -/
def setAttribute (r : RdnData) (name : JSStr) (v : Value) : Except JSStr RdnData :=
  if startsWithAlpha name == false && isDottedDecimal name == false then
    .error (strLit "attribute name must start with an ASCII alpha character or be a numeric OID")
  else
    .ok (mapSet r name v)

/-- The `RDN` constructor: fold `setAttribute` over the given name/value
pairs in insertion order. -/
def mkRdn (pairs : List (JSStr × Value)) : Except JSStr RdnData :=
  pairs.foldlM (fun r p => setAttribute r p.1 p.2) []

/-- A DN's RDN list, most-specific first (the `#rdns` array, as values). -/
abbrev DnData := List RdnData

/-- The countdown loop of `DN.prototype.parentOf`: compare this DN's RDN at
index `i` with the other DN's RDN at `i + diff`, from the last index down. -/
def parentOfLoop (a b : DnData) (diff : Nat) : Nat → Bool
  | 0 => true
  | i + 1 => rdnEquals (a.getD i []) (b.getD (i + diff) []) && parentOfLoop a b diff i

/-- `DN.prototype.parentOf` (DN-instance argument): false when this DN has at
least as many RDNs; otherwise every RDN must equal the other's, aligned from
the least-specific end. -/
def parentOf (a b : DnData) : Bool :=
  if b.length ≤ a.length then false
  else parentOfLoop a b (b.length - a.length) a.length

/-- `DN.prototype.childOf` (DN-instance argument): delegates to
`dn.parentOf(this)`. -/
def childOf (a b : DnData) : Bool := parentOf b a

/-- `DN.prototype.equals` (DN-instance argument): same length and positionally
equal RDNs. -/
def dnEquals (a b : DnData) : Bool :=
  a.length == b.length && (List.zip a b).all (fun p => rdnEquals p.1 p.2)

/-- `DN.prototype.parent`: `undefined` for an empty DN, else a DN of all but
the most-specific RDN (the receiver is left unchanged: it shifts the leaf,
builds the new DN, then unshifts the leaf back). -/
def dnParent (a : DnData) : Option DnData :=
  match a with
  | [] => none
  | _ :: rest => some rest

/-- `DN.prototype.isEmpty`. -/
def dnIsEmpty (a : DnData) : Bool := a.isEmpty

/-! ## Serialization (`RDN.prototype.toString`, `DN.prototype.toString`) -/

/-- `/^#([0-9a-fA-F]{2})+$/.test(val)` — `isHexEncodedValue` in
`RDN.prototype.toString`.  A `BerReader` coerces to a string that never
matches this pattern. -/
def isHexEncodedValueStr (s : JSStr) : Bool :=
  match s with
  | 0x23 :: rest => !rest.isEmpty && rest.length % 2 == 0 && rest.all isHexDigit
  | _ => false

/-- The per-attribute value rendering of `RDN.prototype.toString`: a string
that already looks hex-encoded passes through; a `BerReader` renders as `#`
followed by lowercase hex pairs of its bytes; anything else goes through
`escapeValue`. -/
def entryValueStr : Value → Option JSStr
  | .str s => if isHexEncodedValueStr s then some s else escapeValue s
  | .ber _ bytes => some (0x23 :: bytes.flatMap hexPairLower)

/-- `RDN.prototype.toString`: `name=value` pieces joined by `+` (the source
appends a `+` after each piece and drops the final character). -/
def rdnToString (r : RdnData) : Option JSStr :=
  (r.mapM (fun p => (fun ev => p.1 ++ [0x3d] ++ ev) <$> entryValueStr p.2)).map
    (List.intercalate [0x2b])

/-- `DN.prototype.toString`: RDN strings joined by `,` (the source prepends a
`,` before each piece and drops the first character). -/
def dnToString (dn : DnData) : Option JSStr :=
  (dn.mapM rdnToString).map (List.intercalate [0x2c])

/-! ## DN String Parser (`lib/utils/parse-string/*`) -/

/-- `searchBuffer[i]` read into `String.fromCharCode`: an out-of-range read is
`undefined`, which `fromCharCode` coerces to the NUL character. -/
def chAt (buf : List Nat) (i : Nat) : Nat := (buf.get? i).getD 0

/-- Marker message for fuel exhaustion.  Unreachable from the wrappers: every
loop iteration strictly advances the scan position, which is bounded by the
buffer length, and the wrappers pass fuel exceeding that bound. -/
def fuelErr : JSStr := strLit "unreachable: fuel exhausted"

/-- The loop of `findNameStart` (`find-name-start.js`): skip spaces and
commas; an ASCII letter or digit (`isLeadChar`) is the name start; any other
byte, or the end of the buffer, yields -1. -/
def findNameStartGo (buf : List Nat) : Nat → Nat → Int
  | 0, _ => -1
  | fuel + 1, pos =>
    match buf.get? pos with
    | none => -1
    | some c =>
      if c == 0x20 || c == 0x2c then findNameStartGo buf fuel (pos + 1)
      else if isAsciiAlpha c || isAsciiDigit c then Int.ofNat pos
      else -1

/-- `findNameStart({searchBuffer, startPos})`. -/
def findNameStart (buf : List Nat) (pos : Nat) : Int := findNameStartGo buf (buf.length + 1) pos

/-- `isValidNameChar` (`find-name-end.js`): ASCII letter, digit, `-`, or `.`. -/
def isValidNameChar (c : Nat) : Bool :=
  isAsciiAlpha c || isAsciiDigit c || c == 0x2d || c == 0x2e

/-- The loop of `findNameEnd` (`find-name-end.js`): stop at a space or `=`,
advance over valid name characters, return -1 on anything else; running off
the buffer end returns the position. -/
def findNameEndGo (buf : List Nat) : Nat → Nat → Int
  | 0, _ => -1
  | fuel + 1, pos =>
    match buf.get? pos with
    | none => Int.ofNat pos
    | some c =>
      if c == 0x20 || c == 0x3d then Int.ofNat pos
      else if isValidNameChar c then findNameEndGo buf fuel (pos + 1)
      else -1

/-- `findNameEnd({searchBuffer, startPos})`. -/
def findNameEnd (buf : List Nat) (pos : Nat) : Int := findNameEndGo buf (buf.length + 1) pos

/-- `/[a-zA-Z-]/.test(input)` — `hasKeyChars` in
`is-valid-attribute-type-name.js`. -/
def hasKeyChars (s : JSStr) : Bool := s.any (fun c => isAsciiAlpha c || c == 0x2d)

/-- `/[^a-zA-Z0-9-]/.test(input)` — `hasInvalidChars`. -/
def hasInvalidChars (s : JSStr) : Bool :=
  s.any (fun c => !(isAsciiAlpha c || isAsciiDigit c || c == 0x2d))

/-- `isValidAttributeTypeName` (`is-valid-attribute-type-name.js`): a leading
digit demands a numericoid (no letters or dashes anywhere), a leading ASCII
letter demands a descr (letters, digits, dashes only), anything else is
invalid.  For the empty string `name[0]` is `undefined`, which the unanchored
`/[a-zA-Z]/` lead-char test coerces to the string `"undefined"` and accepts,
and the empty string has no invalid characters, so the result is `true`
(unreachable from the pair reader, whose names are nonempty). -/
def isValidAttributeTypeName (name : JSStr) : Bool :=
  match name with
  | [] => true
  | c :: _ =>
    if isAsciiDigit c then !hasKeyChars name
    else if isAsciiAlpha c then !hasInvalidChars name
    else false

/-- ECMAScript `StrWhiteSpaceChar` code units below 0x100 (the characters
`parseInt` skips before the digits). -/
def isPIWs (u : Nat) : Bool :=
  u == 0x09 || u == 0x0a || u == 0x0b || u == 0x0c || u == 0x0d || u == 0x20 || u == 0xa0

/-- ECMAScript `parseInt(s, 16)` on a two-character string built with
`String.fromCharCode`: skip leading whitespace, allow one sign, strip a
leading `0x`/`0X`, then take the longest hexadecimal-digit prefix; `none` is
`NaN` (empty digit prefix).  In particular a valid first digit with an
invalid second character yields the one-digit value, not `NaN`. -/
def jsParseIntHex2 (a b : Nat) : Option Int :=
  if isPIWs a then (if isHexDigit b then some (Int.ofNat (hexVal b)) else none)
  else if a == 0x2b then (if isHexDigit b then some (Int.ofNat (hexVal b)) else none)
  else if a == 0x2d then (if isHexDigit b then some (-(Int.ofNat (hexVal b))) else none)
  else if a == 0x30 && (b == 0x78 || b == 0x58) then none
  else if isHexDigit a then
    (if isHexDigit b then some (Int.ofNat (16 * hexVal a + hexVal b))
     else some (Int.ofNat (hexVal a)))
  else none

/-- Result of `readEscapeSequence`. -/
structure EscResult where
  endPos : Nat
  parsed : List Nat
deriving Repr, DecidableEq

/-- `Buffer.from(array)` element conversion: `NaN` (here `none`) becomes 0,
other integers are taken modulo 256 (so a negative `parseInt('-5',16)` wraps). -/
def toUint8 : Option Int → Nat
  | none => 0
  | some x => (x % 256).toNat

/-- The loop of `readEscapeSequence` (`read-escape-sequence.js`).  The
accumulator holds the raw `parseInt` results pushed into `buf` (possibly `NaN`
for continuation bytes, which are not checked); `Buffer.from` converts them at
the end.  `nextChar` beyond the buffer is `undefined`: it fails the
`>= 0x00 && <= 0x7f` test, while `String.fromCharCode` coerces it to NUL. -/
def readEscapeSequenceGo (buf : List Nat) : Nat → Nat → List (Option Int) → Except JSStr EscResult
  | 0, _, _ => .error fuelErr
  | fuel + 1, pos, acc =>
    match buf.get? pos with
    | none => .ok ⟨pos, acc.map toUint8⟩
    | some c =>
      if c != 0x5c then .ok ⟨pos, acc.map toUint8⟩
      else
        match jsParseIntHex2 (chAt buf (pos + 1)) (chAt buf (pos + 2)) with
        | none =>
          match buf.get? (pos + 1) with
          | some n =>
            if n ≤ 0x7f then
              readEscapeSequenceGo buf fuel (pos + 2) (acc ++ [some (Int.ofNat n)])
            else .error (strLit "invalid hex code in escape sequence")
          | none => .error (strLit "invalid hex code in escape sequence")
        | some hexCode =>
          if (0xc0 : Int) ≤ hexCode ∧ hexCode ≤ 0xdf then
            readEscapeSequenceGo buf fuel (pos + 6)
              (acc ++ [some hexCode, jsParseIntHex2 (chAt buf (pos + 4)) (chAt buf (pos + 5))])
          else if (0xe0 : Int) ≤ hexCode ∧ hexCode ≤ 0xef then
            readEscapeSequenceGo buf fuel (pos + 9)
              (acc ++ [some hexCode, jsParseIntHex2 (chAt buf (pos + 4)) (chAt buf (pos + 5)),
                jsParseIntHex2 (chAt buf (pos + 7)) (chAt buf (pos + 8))])
          else if (0xf0 : Int) ≤ hexCode ∧ hexCode ≤ 0xf7 then
            readEscapeSequenceGo buf fuel (pos + 12)
              (acc ++ [some hexCode, jsParseIntHex2 (chAt buf (pos + 4)) (chAt buf (pos + 5)),
                jsParseIntHex2 (chAt buf (pos + 7)) (chAt buf (pos + 8)),
                jsParseIntHex2 (chAt buf (pos + 10)) (chAt buf (pos + 11))])
          else readEscapeSequenceGo buf fuel (pos + 3) (acc ++ [some hexCode])

/-- `readEscapeSequence({searchBuffer, startPos})`. -/
def readEscapeSequence (buf : List Nat) (pos : Nat) : Except JSStr EscResult :=
  readEscapeSequenceGo buf (buf.length + 2) pos []

/-- `isEndChar` in `read-hex-string.js`: space, `+`, `,`, `;`. -/
def isHexEndChar (c : Nat) : Bool := c == 0x20 || c == 0x2b || c == 0x2c || c == 0x3b

/-- The loop of `readHexString` (`read-hex-string.js`): read two-hex-digit
pairs until an end character or the buffer end; an invalid pair is an error
naming the pair (`isValidHexCode`'s unanchored `/[0-9a-fA-F]{2}/` on a
two-character string just requires both characters to be hex digits). -/
def readHexStringGo (buf : List Nat) : Nat → Nat → List Nat → Except JSStr (Nat × List Nat)
  | 0, _, _ => .error fuelErr
  | fuel + 1, pos, bytes =>
    match buf.get? pos with
    | none => .ok (pos, bytes)
    | some c =>
      if isHexEndChar c then .ok (pos, bytes)
      else
        let d2 := chAt buf (pos + 1)
        if isHexDigit c && isHexDigit d2 then
          readHexStringGo buf fuel (pos + 2) (bytes ++ [hexVal c * 16 + hexVal d2])
        else .error (strLit "invalid hex pair encountered: 0x" ++ [c, d2])

/-- `isEndChar` in `read-attribute-value.js`: `+`, `,`, `;`. -/
def isEndChar (c : Nat) : Bool := c == 0x2b || c == 0x2c || c == 0x3b

/-- The scan after a closing quote in `readValueString`: only spaces may
appear until an end character or the buffer end. -/
def scanAfterQuoteGo (buf : List Nat) : Nat → Nat → Except JSStr Nat
  | 0, _ => .error fuelErr
  | fuel + 1, pos =>
    match buf.get? pos with
    | none => .ok pos
    | some c =>
      if isEndChar c then .ok pos
      else if c != 0x20 then
        .error (strLit "significant rdn character found outside of quotes at position " ++
          natLit pos)
      else scanAfterQuoteGo buf fuel (pos + 1)

/-- The loop of `readValueString` (`read-attribute-value.js`): collect bytes
until an end character (outside quotes) or the buffer end; a quote at the
start opens quoted mode, a quote inside quoted mode closes it (after which
only spaces may precede the end), a quote elsewhere is an error; a backslash
hands over to `readEscapeSequence`. -/
def readValueStringGo (buf : List Nat) (startPos : Nat) :
    Nat → Nat → Bool → Bool → List Nat → Except JSStr (Nat × List Nat)
  | 0, _, _, _, _ => .error fuelErr
  | fuel + 1, pos, inQuotes, endQuotePresent, bytes =>
    if buf.length < pos then .ok (pos, bytes)
    else if pos = buf.length then
      if inQuotes && !endQuotePresent then
        .error (strLit "missing ending double quote for attribute value")
      else .ok (pos, bytes)
    else
      let c := chAt buf pos
      if c == 0x22 then
        if inQuotes then
          match scanAfterQuoteGo buf (buf.length + 2) (pos + 1) with
          | .error e => .error e
          | .ok p2 => .ok (p2, bytes)
        else if pos != startPos then
          .error (strLit "unexpected quote (\") in rdn string at position " ++ natLit pos)
        else readValueStringGo buf startPos fuel (pos + 1) true endQuotePresent bytes
      else if isEndChar c && !inQuotes then .ok (pos, bytes)
      else if c == 0x5c then
        match readEscapeSequence buf pos with
        | .error e => .error e
        | .ok seq =>
          readValueStringGo buf startPos fuel seq.endPos inQuotes endQuotePresent
            (bytes ++ seq.parsed)
      else readValueStringGo buf startPos fuel (pos + 1) inQuotes endQuotePresent (bytes ++ [c])

/-- `readValueString({searchBuffer, startPos})`. -/
def readValueString (buf : List Nat) (startPos : Nat) : Except JSStr (Nat × List Nat) :=
  readValueStringGo buf startPos (buf.length + 2) startPos false false []

/-- The space-skipping loops of `read-attribute-value.js` and
`parse-string/index.js` (`buf[pos] === 0x20` is false past the end). -/
def skipSpacesGo (buf : List Nat) : Nat → Nat → Nat
  | 0, pos => pos
  | fuel + 1, pos =>
    match buf.get? pos with
    | some c => if c == 0x20 then skipSpacesGo buf fuel (pos + 1) else pos
    | none => pos

/-- Skip consecutive spaces from a position. -/
def skipSpaces (buf : List Nat) (pos : Nat) : Nat := skipSpacesGo buf (buf.length + 1) pos

/-- Result of `readAttributeValue`. -/
structure AttrValueResult where
  endPos : Nat
  value : Value
deriving Repr, DecidableEq

/-- `readAttributeValue({searchBuffer, startPos})`.  The position is an `Int`
because the caller forwards `findNameEnd`'s result unchecked: for a negative
position `searchBuffer[pos]` is `undefined` in JS, so the space-skip loop
does not advance, `pos >= byteLength` is false, and the equals-sign check
fails — the missing-equals error is always thrown; the first branch models
exactly that. -/
def readAttributeValue (seed : Nat) (buf : List Nat) (startPos : Int) :
    Except JSStr AttrValueResult :=
  if startPos < 0 then .error (strLit "attribute value does not start with equals sign")
  else
    let pos := skipSpaces buf startPos.toNat
    if buf.length ≤ pos || chAt buf pos != 0x3d then
      .error (strLit "attribute value does not start with equals sign")
    else
      let pos2 := skipSpaces buf (pos + 1)
      if buf.length ≤ pos2 then .ok ⟨pos2, .str []⟩
      else if chAt buf pos2 == 0x23 then
        match readHexStringGo buf (buf.length + 2) (pos2 + 1) [] with
        | .error e => .error e
        | .ok (p, bytes) => .ok ⟨p, .ber (seed, pos2 + 1) bytes⟩
      else
        match readValueString buf pos2 with
        | .error e => .error e
        | .ok (p, bytes) => .ok ⟨p, .str (jsTrim (utf8ToUtf16 bytes))⟩

/-- `subarray(begin, end)` on a byte buffer: a negative end counts from the
buffer length; the result is the clamped slice. -/
def jsSubarray (buf : List Nat) (a : Nat) (e : Int) : List Nat :=
  let e1 : Int := if e < 0 then Int.ofNat buf.length + e else e
  let e2 : Nat := if e1 < 0 then 0 else min e1.toNat buf.length
  (buf.take e2).drop a

/-- Result of `readAttributePair`: the end position plus the single-entry
name → value mapping. -/
structure AttrPairResult where
  endPos : Nat
  name : JSStr
  value : Value
deriving Repr, DecidableEq

/-- `readAttributePair({searchBuffer, startPos})` (`read-attribute-pair.js`).
The source re-checks `nameStartPos < 0` where it means to check the
`findNameEnd` result, so a -1 name end is not caught: it flows into
`subarray` (counting from the buffer end) and `readAttributeValue`. -/
def readAttributePair (seed : Nat) (buf : List Nat) (startPos : Nat) :
    Except JSStr AttrPairResult :=
  match findNameStart buf startPos with
  | .negSucc _ => .error (strLit "invalid attribute name leading character encountered")
  | .ofNat nameStartPos =>
    let nameEndPos := findNameEnd buf nameStartPos
    let attributeName := utf8ToUtf16 (jsSubarray buf nameStartPos nameEndPos)
    if isValidAttributeTypeName attributeName = false then
      .error (strLit "invalid attribute type name: " ++ attributeName)
    else
      match readAttributeValue seed buf nameEndPos with
      | .error e => .error e
      | .ok r => .ok ⟨r.endPos, attributeName, r.value⟩

/-- Outcome of `parseString`: a parsed RDN list, a thrown error, or
non-termination (`hang` also stands for fuel exhaustion, which the wrapper's
fuel choice makes unreachable). -/
inductive POut where
  | ok (rdns : List RdnData)
  | err (msg : JSStr)
  | hang
deriving Repr, DecidableEq

/-- The `readRdnLoop` of `parseString` (`parse-string/index.js`).  At the top,
reaching the exact buffer end right after a separator raises the
abrupt-end error.  After a pair is read and merged (object spread, later
names overwriting earlier ones in place), the next byte decides: `+`
continues the RDN, `,`/`;` closes it.  On any other byte the source's inner
`while` loop repeats without advancing: the process hangs (reachable, e.g.
after a hex value followed by a space, since `readHexString` stops at a
space). -/
def parseLoopGo (seed : Nat) (buf : List Nat) : Nat → Nat → RdnData → List RdnData → POut
  | 0, _, _, _ => POut.hang
  | fuel + 1, pos, rdn, rdns =>
    if buf.length < pos then POut.ok rdns
    else if pos == buf.length && isEndChar (chAt buf (pos - 1)) then
      POut.err (strLit "rdn string ends abruptly with character: " ++ [chAt buf (pos - 1)])
    else
      let pos1 := skipSpaces buf pos
      match readAttributePair seed buf pos1 with
      | .error e => POut.err e
      | .ok pair =>
        let pos2 := pair.endPos
        let rdn2 := mapSet rdn pair.name pair.value
        if buf.length ≤ pos2 then POut.ok (rdns ++ [rdn2])
        else
          let c := chAt buf pos2
          if c == 0x2b then parseLoopGo seed buf fuel (pos2 + 1) rdn2 rdns
          else if c == 0x2c || c == 0x3b then
            parseLoopGo seed buf fuel (pos2 + 1) [] (rdns ++ [rdn2])
          else POut.hang

/-- `parseString(input)` (`parse-string/index.js`): the empty string is the
root DSE (empty DN); otherwise scan the UTF-8 bytes of the input. -/
def parseString (seed : Nat) (input : JSStr) : POut :=
  if input.length = 0 then POut.ok []
  else
    let buf := utf16ToUtf8 input
    parseLoopGo seed buf (buf.length + 2) 0 [] []

/-- The `DN` constructor on the parser's plain-object RDNs: each is
normalized through the `RDN` constructor (`new RDN(r)`). -/
def mkDn (pojos : List RdnData) : Except JSStr DnData := pojos.mapM mkRdn

/-- Outcome of `DN.fromString`. -/
inductive DOut where
  | ok (dn : DnData)
  | err (msg : JSStr)
  | hang
deriving Repr, DecidableEq

/-- `DN.fromString(dnString)`: parse, then construct a DN from the plain
RDN objects. -/
def dnFromString (seed : Nat) (s : JSStr) : DOut :=
  match parseString seed s with
  | POut.ok rdns =>
    match mkDn rdns with
    | .ok dn => DOut.ok dn
    | .error e => DOut.err e
  | POut.err e => DOut.err e
  | POut.hang => DOut.hang

/-! ## Heap model for reference sharing (`DN.clone`, claim C3)

JS objects are mutable references: a `Heap` holds every DN's backing array of
RDN references (`arrays`) and every RDN instance's attribute map (`cells`).
A DN is an index into `arrays`; an RDN instance is an index into `cells`. -/

/-- The mutable store: DN backing arrays of RDN instance ids, and RDN
instance states. -/
structure Heap where
  arrays : List (List Nat)
  cells : List RdnData
deriving Repr, DecidableEq

/-- The DN value a DN object currently denotes: its RDN instances, resolved. -/
def resolveDn (h : Heap) (d : Nat) : DnData :=
  (h.arrays.getD d []).map (fun i => h.cells.getD i [])

/-- `DN.prototype.clone`: `new DN({rdns: this.#rdns})`.  The constructor
copies the list into a fresh array but maps each element through
`r => isLdapRdn(r) ? r : new RDN(r)`, and every element is an `RDN`
instance, so the clone shares the RDN instances. -/
def dnCloneH (h : Heap) (d : Nat) : Heap × Nat :=
  (⟨h.arrays ++ [h.arrays.getD d []], h.cells⟩, h.arrays.length)

/-- `RDN.prototype.setAttribute` invoked on an RDN instance: validates, then
updates the instance's map in place. -/
def setAttributeH (h : Heap) (i : Nat) (name : JSStr) (v : Value) : Except JSStr Heap :=
  match setAttribute (h.cells.getD i []) name v with
  | .error e => .error e
  | .ok r => .ok ⟨h.arrays, h.cells.set i r⟩

/-- The list-style mutations of `DN`: `push`, `pop`, `shift`, `unshift`,
`reverse` (the non-RDN argument guards are discharged by the types). -/
inductive DnListOp where
  | push (rdnId : Nat)
  | pop
  | shift
  | unshift (rdnId : Nat)
  | reverse
deriving Repr, DecidableEq

/-- Apply one list-style mutation to the backing array of DN `d`. -/
def applyDnListOp (h : Heap) (d : Nat) : DnListOp → Heap
  | .push i => ⟨h.arrays.set d (h.arrays.getD d [] ++ [i]), h.cells⟩
  | .pop => ⟨h.arrays.set d (h.arrays.getD d []).dropLast, h.cells⟩
  | .shift => ⟨h.arrays.set d (h.arrays.getD d []).tail, h.cells⟩
  | .unshift i => ⟨h.arrays.set d (i :: h.arrays.getD d []), h.cells⟩
  | .reverse => ⟨h.arrays.set d (h.arrays.getD d []).reverse, h.cells⟩

/-- `parentOf` between two DN objects in the heap. -/
def heapParentOf (h : Heap) (a b : Nat) : Bool := parentOf (resolveDn h a) (resolveDn h b)

/-- `childOf` between two DN objects in the heap. -/
def heapChildOf (h : Heap) (a b : Nat) : Bool := childOf (resolveDn h a) (resolveDn h b)

/-- `equals` between two DN objects in the heap. -/
def heapEquals (h : Heap) (a b : Nat) : Bool := dnEquals (resolveDn h a) (resolveDn h b)

/-- `parent` of a DN object in the heap. -/
def heapParent (h : Heap) (a : Nat) : Option DnData := dnParent (resolveDn h a)

/-! ## Helper lemmas -/

/-- Unfolding of the `parentOf` countdown loop: all indices below `n` match. -/
lemma parentOfLoop_iff (a b : DnData) (diff n : Nat) :
    parentOfLoop a b diff n = true ↔
      ∀ i, i < n → rdnEquals (a.getD i []) (b.getD (i + diff) []) = true := by
  induction n with
  | zero => simp [parentOfLoop]
  | succ k ih =>
    rw [parentOfLoop, Bool.and_eq_true, ih]
    constructor
    · rintro ⟨h1, h2⟩ i hi
      rcases Nat.lt_succ_iff_lt_or_eq.mp hi with h | rfl
      · exact h2 i h
      · exact h1
    · intro h
      exact ⟨h k (Nat.lt_succ_self k), fun i hi => h i (Nat.lt_succ_of_lt hi)⟩

/-! ## Claim C2 -/

/-- C2: For all DN instances `A` and `B`, `A.parentOf(B)` returns true if and
only if `B` has strictly more RDNs than `A` and, aligning from the
least-specific (last) end, every RDN of `A` equals (via `RDN.equals`) the
RDN of `B` at the same offset from the end — i.e. `A` is a proper suffix of
`B` up to RDN equality; and `B.childOf(A)` returns the same value as
`A.parentOf(B)`. -/
theorem claimC2_parentOf_iff_suffix (a b : DnData) :
    (parentOf a b = true ↔
      a.length < b.length ∧
        ∀ i, i < a.length →
          rdnEquals (a.getD i []) (b.getD (i + (b.length - a.length)) []) = true) ∧
    childOf b a = parentOf a b := by
  refine ⟨?_, rfl⟩
  unfold parentOf
  split
  · next h =>
    exact ⟨fun hx => absurd hx (by simp), fun hx => absurd hx.1 (by omega)⟩
  · next h =>
    rw [parentOfLoop_iff]
    have hlt : a.length < b.length := Nat.lt_of_not_le h
    exact ⟨fun hx => ⟨hlt, hx⟩, fun hx => hx.2⟩

/-- Witness for C2 at concrete DNs: `ou=people,dc=example` is a parent of
`cn=foo,ou=people,dc=example`, and the iff's right-hand side holds there. -/
theorem claimC2_witness :
    (parentOf
        [[(strLit "ou", .str (strLit "people"))], [(strLit "dc", .str (strLit "example"))]]
        [[(strLit "cn", .str (strLit "foo"))], [(strLit "ou", .str (strLit "people"))],
          [(strLit "dc", .str (strLit "example"))]] = true) ∧
    childOf
        [[(strLit "cn", .str (strLit "foo"))], [(strLit "ou", .str (strLit "people"))],
          [(strLit "dc", .str (strLit "example"))]]
        [[(strLit "ou", .str (strLit "people"))], [(strLit "dc", .str (strLit "example"))]] =
      parentOf
        [[(strLit "ou", .str (strLit "people"))], [(strLit "dc", .str (strLit "example"))]]
        [[(strLit "cn", .str (strLit "foo"))], [(strLit "ou", .str (strLit "people"))],
          [(strLit "dc", .str (strLit "example"))]] := by
  refine ⟨?_, (claimC2_parentOf_iff_suffix _ _).2⟩
  exact (claimC2_parentOf_iff_suffix _ _).1.mpr (by decide)

/-! ## Claim C9 -/

/-- C9: An empty DN (zero RDNs) is reported as the parent of every non-empty
DN: for every DN `B` with at least one RDN, `emptyDN.parentOf(B)` returns
true and `B.childOf(emptyDN)` returns true (the suffix check is vacuously
satisfied). -/
theorem claimC9_empty_parentOf_all (b : DnData) (h : b ≠ []) :
    parentOf [] b = true ∧ childOf b [] = true := by
  have hlen : 0 < b.length := List.length_pos.mpr h
  have hp : parentOf [] b = true := by
    unfold parentOf
    have hne : ¬ b.length ≤ ([] : DnData).length := by
      simp only [List.length_nil]
      omega
    rw [if_neg hne]
    rfl
  exact ⟨hp, hp⟩

/-- Witness for C9 at a concrete one-RDN DN. -/
theorem claimC9_witness :
    parentOf [] [[(strLit "cn", .str (strLit "foo"))]] = true ∧
      childOf [[(strLit "cn", .str (strLit "foo"))]] [] = true :=
  claimC9_empty_parentOf_all [[(strLit "cn", .str (strLit "foo"))]] (by decide)

/-! ## Claim C5 -/

/-- The RDN invariant of the spec: attribute names are unique within the RDN,
and every name starts with an ASCII letter or is a well-formed dotted-decimal
numeric OID. -/
def RdnInv (r : RdnData) : Prop :=
  (r.map Prod.fst).Nodup ∧
    ∀ p ∈ r, startsWithAlpha p.1 = true ∨ isDottedDecimal p.1 = true

/-- `mapHas` is name membership. -/
lemma mapHas_iff_mem (m : RdnData) (k : JSStr) :
    mapHas m k = true ↔ k ∈ m.map Prod.fst := by
  simp only [mapHas, List.any_eq_true, List.mem_map]
  constructor
  · rintro ⟨p, hp, hbeq⟩
    exact ⟨p, hp, (beq_iff_eq.mp hbeq)⟩
  · rintro ⟨p, hp, rfl⟩
    exact ⟨p, hp, beq_iff_eq.mpr rfl⟩

/-- `mapSet` either overwrites in place (key present) or appends the key. -/
lemma mapSet_map_fst (m : RdnData) (k : JSStr) (v : Value) :
    (mapSet m k v).map Prod.fst =
      if mapHas m k then m.map Prod.fst else m.map Prod.fst ++ [k] := by
  induction m with
  | nil => simp [mapSet, mapHas]
  | cons p rest ih =>
    by_cases hk : p.1 = k
    · simp [mapSet, mapHas, hk]
    · have hbeq : (p.1 == k) = false := beq_eq_false_iff_ne.mpr hk
      simp only [mapSet, hbeq, Bool.false_eq_true, if_false, List.map_cons, ih, mapHas,
        List.any_cons, Bool.false_or]
      by_cases hm : mapHas rest k = true
      · simp [mapHas] at hm
        simp [hm]
      · simp [mapHas] at hm
        simp [hm]

/-- Every entry of `mapSet m k v` has name `k` or a name already in `m`. -/
lemma mapSet_names_sub (m : RdnData) (k : JSStr) (v : Value) :
    ∀ p ∈ mapSet m k v, p.1 = k ∨ p.1 ∈ m.map Prod.fst := by
  induction m with
  | nil =>
    intro p hp
    simp [mapSet] at hp
    simp [hp]
  | cons q rest ih =>
    intro p hp
    by_cases hk : q.1 = k
    · have hbeq : (q.1 == k) = true := beq_iff_eq.mpr hk
      simp only [mapSet, hbeq, if_true] at hp
      rcases List.mem_cons.mp hp with rfl | hmem
      · exact Or.inl hk
      · exact Or.inr (List.mem_map.mpr ⟨p, List.mem_cons_of_mem q hmem, rfl⟩)
    · have hbeq : (q.1 == k) = false := beq_eq_false_iff_ne.mpr hk
      simp only [mapSet, hbeq, Bool.false_eq_true, if_false] at hp
      rcases List.mem_cons.mp hp with heqp | hmem
      · subst heqp
        exact Or.inr (List.mem_map.mpr ⟨(q.1, q.2), List.mem_cons_self _ rest, rfl⟩)
      · rcases ih p hmem with h | h
        · exact Or.inl h
        · refine Or.inr ?_
          rcases List.mem_map.mp h with ⟨q2, hq2, hq2e⟩
          exact List.mem_map.mpr ⟨q2, List.mem_cons_of_mem q hq2, hq2e⟩

/-- `setAttribute` succeeds exactly by validating the name and overwriting. -/
lemma setAttribute_ok (r : RdnData) (n : JSStr) (v : Value) (r' : RdnData)
    (h : setAttribute r n v = .ok r') :
    (startsWithAlpha n = true ∨ isDottedDecimal n = true) ∧ r' = mapSet r n v := by
  unfold setAttribute at h
  split at h
  · cases h
  · next hcond =>
    refine ⟨?_, by cases h; rfl⟩
    by_cases h1 : startsWithAlpha n = true
    · exact Or.inl h1
    · right
      by_cases h2 : isDottedDecimal n = true
      · exact h2
      · exfalso
        apply hcond
        rw [Bool.not_eq_true] at h1 h2
        rw [h1, h2]
        rfl

/-- `setAttribute` preserves the RDN invariant. -/
lemma setAttribute_inv (r : RdnData) (n : JSStr) (v : Value) (r' : RdnData)
    (hinv : RdnInv r) (h : setAttribute r n v = .ok r') : RdnInv r' := by
  obtain ⟨hname, rfl⟩ := setAttribute_ok r n v r' h
  obtain ⟨hnd, hvalid⟩ := hinv
  constructor
  · rw [mapSet_map_fst]
    split
    · exact hnd
    · next hhas =>
      have hk : n ∉ r.map Prod.fst := fun hmem =>
        hhas ((mapHas_iff_mem r n).mpr hmem)
      refine List.Nodup.append hnd (List.nodup_singleton n) ?_
      intro a ha hb
      rw [List.mem_singleton] at hb
      subst hb
      exact hk ha
  · intro p hp
    rcases mapSet_names_sub r n v p hp with heq | hmem
    · rw [heq]; exact hname
    · simp only [List.mem_map] at hmem
      obtain ⟨q, hq, hq1⟩ := hmem
      rw [← hq1]
      exact hvalid q hq

/-- C5: Every RDN instance satisfies the invariant, preserved by construction
(the `RDN` constructor folds `setAttribute` over its input pairs) and by
`setAttribute`, that each attribute name is unique within the RDN (the `Map`
overwrites in place, last write wins) and passes lexical validation: it
either starts with an ASCII letter, or is a well-formed dotted-decimal
numeric OID with no non-digit segment. -/
theorem claimC5_rdn_invariant :
    (∀ (pairs : List (JSStr × Value)) (r : RdnData), mkRdn pairs = .ok r → RdnInv r) ∧
    (∀ (r : RdnData) (n : JSStr) (v : Value) (r' : RdnData),
      RdnInv r → setAttribute r n v = .ok r' → RdnInv r') := by
  constructor
  · have base : RdnInv [] := ⟨List.nodup_nil, by intro p hp; cases hp⟩
    suffices hgen : ∀ (pairs : List (JSStr × Value)) (r0 : RdnData), RdnInv r0 →
        ∀ r, List.foldlM (fun r p => setAttribute r p.1 p.2) r0 pairs = .ok r → RdnInv r by
      intro pairs r h
      exact hgen pairs [] base r h
    intro pairs
    induction pairs with
    | nil =>
      intro r0 h0 r hr
      simp only [List.foldlM_nil] at hr
      cases hr
      exact h0
    | cons p rest ih =>
      intro r0 h0 r hr
      simp only [List.foldlM_cons] at hr
      cases hsa : setAttribute r0 p.1 p.2 with
      | error e => rw [hsa] at hr; cases hr
      | ok r1 =>
        rw [hsa] at hr
        exact ih r1 (setAttribute_inv r0 p.1 p.2 r1 h0 hsa) r hr
  · exact fun r n v r' => setAttribute_inv r n v r'

/-- Witness for C5: a concrete constructed RDN and a concrete `setAttribute`
both yield invariant-satisfying RDNs. -/
theorem claimC5_witness :
    RdnInv [(strLit "cn", .str (strLit "foo")), (strLit "2.5.4.3", .str (strLit "bar"))] ∧
      RdnInv [(strLit "cn", .str (strLit "baz"))] := by
  constructor
  · exact claimC5_rdn_invariant.1
      [(strLit "cn", .str (strLit "foo")), (strLit "2.5.4.3", .str (strLit "bar"))]
      _ (by rfl)
  · exact claimC5_rdn_invariant.2 [] (strLit "cn") (.str (strLit "baz"))
      [(strLit "cn", .str (strLit "baz"))]
      ⟨List.nodup_nil, by intro p hp; cases hp⟩ (by rfl)

/-! ## Claim C3 -/

/-- A concrete heap: DN 0 (`cn=a`, over RDN instance 0) and DN 1 (`cn=a`,
over RDN instance 1). -/
def heapC3 : Heap :=
  ⟨[[0], [1]],
    [[(strLit "cn", .str (strLit "a"))], [(strLit "cn", .str (strLit "a"))]]⟩

/-- The heap after `const clone = dn0.clone()` (the clone is DN 2). -/
def heapC3a : Heap := (dnCloneH heapC3 0).1

/-- The RDN instance id at index 0 of the clone's RDN list
(`clone.rdnAt(0)`). -/
def cloneLeafC3 : Nat := ((heapC3a.arrays.getD (dnCloneH heapC3 0).2 []).getD 0 0)

/-- The heap after `clone.rdnAt(0).setAttribute({name: 'cn', value: 'b'})`. -/
def heapC3b : Heap :=
  match setAttributeH heapC3a cloneLeafC3 (strLit "cn") (.str (strLit "b")) with
  | .ok h => h
  | .error _ => heapC3a

/-- Counterexample to C3 as stated: cloning DN 0 and then mutating the clone
through `setAttribute` on its RDN at index 0 changes the result of
`dn0.equals(dn1)` from true to false — the clone's RDN list is new, but the
RDN instances are shared with the source.  (The `setAttributeH` call
succeeds, as the first conjunct records.) -/
theorem claimC3_counterexample :
    setAttributeH heapC3a cloneLeafC3 (strLit "cn") (.str (strLit "b")) = .ok heapC3b ∧
    heapEquals heapC3a 0 1 = true ∧
    heapEquals heapC3b 0 1 = false := by
  refine ⟨by rfl, by decide, by decide⟩

/-- `applyDnListOp` only rewrites the target DN's backing array. -/
lemma applyDnListOp_frame (h : Heap) (d e : Nat) (hne : e ≠ d) (op : DnListOp) :
    (applyDnListOp h d op).arrays.getD e [] = h.arrays.getD e [] ∧
      (applyDnListOp h d op).cells = h.cells := by
  cases op <;>
    exact ⟨by simp [applyDnListOp, List.getD, List.getElem?_set_ne (fun hx => hne hx.symm)], rfl⟩

/-- Folding list-style mutations of DN `t` leaves every other DN's backing
array and all RDN cells unchanged. -/
lemma foldDnListOps_frame (ops : List DnListOp) :
    ∀ (h : Heap) (t e : Nat), e ≠ t →
      ((ops.foldl (fun hh op => applyDnListOp hh t op) h).arrays.getD e [] =
          h.arrays.getD e [] ∧
        (ops.foldl (fun hh op => applyDnListOp hh t op) h).cells = h.cells) := by
  induction ops with
  | nil => intro h t e _; exact ⟨rfl, rfl⟩
  | cons op rest ih =>
    intro h t e hne
    simp only [List.foldl_cons]
    obtain ⟨h1, h2⟩ := ih (applyDnListOp h t op) t e hne
    obtain ⟨g1, g2⟩ := applyDnListOp_frame h t e hne op
    exact ⟨by rw [h1, g1], by rw [h2, g2]⟩

/-- C3 amended: `clone()` produces a copy with a new RDN list but the same
RDN instances.  Mutating the clone through the list-style operations
(`push`/`pop`/`shift`/`unshift`/`reverse`, in any sequence) never affects the
results of hierarchy operations (`parentOf`, `childOf`, `equals`, `parent`)
later called on the source DN (against any pre-existing DN); mutating a
shared RDN instance via `setAttribute` can affect them (see the
counterexample). -/
theorem claimC3_amended (h : Heap) (d e : Nat) (hd : d < h.arrays.length)
    (he : e < h.arrays.length) (ops : List DnListOp) :
    let c := dnCloneH h d
    let h2 := ops.foldl (fun hh op => applyDnListOp hh c.2 op) c.1
    resolveDn h2 d = resolveDn h d ∧
      resolveDn h2 e = resolveDn h e ∧
      heapParentOf h2 d e = heapParentOf h d e ∧
      heapChildOf h2 d e = heapChildOf h d e ∧
      heapEquals h2 d e = heapEquals h d e ∧
      heapParent h2 d = heapParent h d := by
  intro c h2
  have harrlen : c.1.arrays = h.arrays ++ [h.arrays.getD d []] := rfl
  have hcid : c.2 = h.arrays.length := rfl
  have hclone : ∀ x, x < h.arrays.length →
      c.1.arrays.getD x [] = h.arrays.getD x [] := by
    intro x hx
    rw [harrlen]
    simp [List.getD, List.getElem?_append_left hx]
  have hres : ∀ x, x < h.arrays.length → resolveDn h2 x = resolveDn h x := by
    intro x hx
    have hne : x ≠ c.2 := by rw [hcid]; omega
    obtain ⟨f1, f2⟩ := foldDnListOps_frame ops c.1 c.2 x hne
    unfold resolveDn
    rw [show h2 = ops.foldl (fun hh op => applyDnListOp hh c.2 op) c.1 from rfl, f1, f2,
      hclone x hx, show c.1.cells = h.cells from rfl]
  have hd' := hres d hd
  have he' := hres e he
  exact ⟨hd', he', by unfold heapParentOf; rw [hd', he'], by unfold heapChildOf; rw [hd', he'],
    by unfold heapEquals; rw [hd', he'], by unfold heapParent; rw [hd']⟩

/-- Witness for C3 amended at the concrete heap: pushing RDN instance 1 onto
the clone and reversing it leaves `dn0.equals(dn1)` (and the other hierarchy
results) unchanged. -/
theorem claimC3_witness :
    (let c := dnCloneH heapC3 0
     let h2 := [DnListOp.push 1, DnListOp.reverse].foldl
       (fun hh op => applyDnListOp hh c.2 op) c.1
     resolveDn h2 0 = resolveDn heapC3 0 ∧
       resolveDn h2 1 = resolveDn heapC3 1 ∧
       heapParentOf h2 0 1 = heapParentOf heapC3 0 1 ∧
       heapChildOf h2 0 1 = heapChildOf heapC3 0 1 ∧
       heapEquals h2 0 1 = heapEquals heapC3 0 1 ∧
       heapParent h2 0 = heapParent heapC3 0) :=
  claimC3_amended heapC3 0 1 (by decide) (by decide) [DnListOp.push 1, DnListOp.reverse]

/-! ## Claim C6 -/

/-- C6: Whenever the DN parser's RDN loop reaches the exact buffer end with
the preceding byte being a separator (`+`, `,` or `;`) — which is how the
loop top is re-entered after a trailing separator with nothing following —
parsing fails with "rdn string ends abruptly with character: `<char>`" citing
that separator; in particular `parseString('foo=bar+')` fails citing `+`. -/
theorem claimC6_abrupt_end (seed fuel pos : Nat) (buf : List Nat) (rdn : RdnData)
    (rdns : List RdnData) (c : Nat) (hpos : pos = buf.length)
    (hc : buf.get? (pos - 1) = some c) (hend : isEndChar c = true) :
    (parseLoopGo seed buf (fuel + 1) pos rdn rdns =
      POut.err (strLit "rdn string ends abruptly with character: " ++ [c])) ∧
    parseString seed (strLit "foo=bar+") =
      POut.err (strLit "rdn string ends abruptly with character: +") := by
  refine ⟨?_, by rfl⟩
  have hch : chAt buf (pos - 1) = c := by rw [chAt, hc]; rfl
  rw [parseLoopGo]
  rw [if_neg (by omega)]
  rw [if_pos (by rw [hch, hend, hpos]; simp)]
  rw [hch]

/-- Witness for C6: the loop top at the end of the two-byte buffer `a,`
(position 2, preceding byte `,`) raises the abrupt-end error. -/
theorem claimC6_witness :
    parseLoopGo 0 (strLit "a,") 3 2 [] [] =
      POut.err (strLit "rdn string ends abruptly with character: " ++ [0x2c]) :=
  (claimC6_abrupt_end 0 2 2 (strLit "a,") [] [] 0x2c (by rfl) (by rfl) (by rfl)).1

/-! ## Claim C7 -/

/-- Counterexample to C7 as stated: in `\5x` the two characters `5x` do not
form a valid two-digit hexadecimal number and the byte after the backslash
(`5`, 0x35) is at most 0x7F, so the claim predicts the literal byte 0x35 and
two bytes consumed; but `parseInt('5x', 16)` prefix-parses to 5, so the code
emits the byte 0x05 and consumes three bytes. -/
theorem claimC7_counterexample :
    (isHexDigit 0x35 && isHexDigit 0x78) = false ∧
    (strLit "\\5x").get? 1 = some 0x35 ∧
    readEscapeSequence (strLit "\\5x") 0 = .ok ⟨3, [0x05]⟩ ∧
    readEscapeSequence (strLit "\\5x") 0 ≠ .ok ⟨2, [0x35]⟩ := by
  refine ⟨by rfl, by rfl, by rfl, fun h => ?_⟩
  rw [show readEscapeSequence (strLit "\\5x") 0 = .ok ⟨3, [0x05]⟩ from rfl] at h
  simp at h

/-- C7 amended: the literal-ASCII fallback of the escape decoder applies
exactly when the JS `parseInt('XY', 16)` prefix-parse fails (`NaN`), not
whenever `XY` is not a valid two-digit hex number: in that `NaN` case, if the
byte following the backslash exists and is at most 0x7F it is pushed
literally and two bytes are consumed (the loop continuing after them), and
otherwise (byte above 0x7F, or backslash at the buffer end) decoding fails
with "invalid hex code in escape sequence".  When `X` parses as a hex digit
but `Y` does not, `parseInt` yields the one-digit value instead of `NaN` and
the fallback does not apply (see the counterexample). -/
theorem claimC7_amended (buf : List Nat) (pos fuel : Nat) (acc : List (Option Int))
    (hb : buf.get? pos = some 0x5c)
    (hfail : jsParseIntHex2 (chAt buf (pos + 1)) (chAt buf (pos + 2)) = none) :
    (∀ n, buf.get? (pos + 1) = some n → n ≤ 0x7f →
        readEscapeSequenceGo buf (fuel + 1) pos acc =
          readEscapeSequenceGo buf fuel (pos + 2) (acc ++ [some (Int.ofNat n)])) ∧
    (∀ n, buf.get? (pos + 1) = some n → 0x7f < n →
        readEscapeSequenceGo buf (fuel + 1) pos acc =
          .error (strLit "invalid hex code in escape sequence")) ∧
    (buf.get? (pos + 1) = none →
        readEscapeSequenceGo buf (fuel + 1) pos acc =
          .error (strLit "invalid hex code in escape sequence")) := by
  refine ⟨?_, ?_, ?_⟩
  · intro n hn hle
    rw [readEscapeSequenceGo, hb, hfail, hn]
    simp [hle]
  · intro n hn hgt
    rw [readEscapeSequenceGo, hb, hfail, hn]
    simp
    omega
  · intro hn
    rw [readEscapeSequenceGo, hb, hfail, hn]
    simp

/-- Witness for C7 amended at concrete buffers: `\+x` (parseInt fails, `+` is
ASCII: literal fallback), `\` followed by byte 0xFF (parseInt fails, byte
above 0x7F: error), and a lone trailing `\` (no following byte: error). -/
theorem claimC7_witness :
    (readEscapeSequenceGo (strLit "\\+x") 6 0 [] =
        readEscapeSequenceGo (strLit "\\+x") 5 2 [some (Int.ofNat 0x2b)]) ∧
    (readEscapeSequenceGo [0x5c, 0xff] 6 0 [] =
        .error (strLit "invalid hex code in escape sequence")) ∧
    (readEscapeSequenceGo [0x5c] 6 0 [] =
        .error (strLit "invalid hex code in escape sequence")) := by
  refine ⟨?_, ?_, ?_⟩
  · exact (claimC7_amended (strLit "\\+x") 0 5 [] (by rfl) (by rfl)).1 0x2b (by rfl) (by decide)
  · exact (claimC7_amended [0x5c, 0xff] 0 5 [] (by rfl) (by rfl)).2.1 0xff (by rfl) (by decide)
  · exact (claimC7_amended [0x5c] 0 5 [] (by rfl) (by rfl)).2.2 (by rfl)

/-! ## Claim C8 -/

/-- UTF-8 encoding is the identity on all-ASCII strings. -/
lemma utf16ToUtf8_ascii (s : JSStr) (h : ∀ u ∈ s, u ≤ 0x7f) : utf16ToUtf8 s = s := by
  unfold utf16ToUtf8
  induction s with
  | nil => rfl
  | cons u rest ih =>
    have hu : u ≤ 0x7f := h u (List.mem_cons_self u rest)
    have hhs : isHighSurrogate u = false := by
      unfold isHighSurrogate
      simp only [Bool.and_eq_false_iff, decide_eq_false_iff_not]
      omega
    have henc : encodeUnit u = [u] := by
      unfold encodeUnit
      rw [if_pos hu]
    rw [utf16ToUtf8Go, hhs]
    simp only [Bool.false_eq_true, if_false, henc]
    rw [ih (fun v hv => h v (List.mem_cons_of_mem u hv))]
    rfl

/-- `(b :: rest).getLast?` ignores the head when the tail is nonempty, so the
tail's last element keeps the no-trailing-space property. -/
lemma getLast?_tail_ne {b c : Nat} {rest : JSStr}
    (h : (b :: rest).getLast? ≠ some c) : rest.getLast? ≠ some c := by
  cases rest with
  | nil => simp
  | cons x xs =>
    rw [List.getLast?_cons_cons] at h
    exact h

/-- The escape loop is the identity on printable, non-reserved ASCII bytes
away from the escaped edge positions. -/
lemma escapeBytes_id (s : JSStr) :
    ∀ (first : Bool),
      (∀ u ∈ s, 0x1f < u ∧ u ≤ 0x7f ∧ isEmbeddedReserved u = false) →
      (first = true → s.head? ≠ some 0x20 ∧ s.head? ≠ some 0x23) →
      s.getLast? ≠ some 0x20 →
      escapeBytes first s = some s := by
  induction s with
  | nil => intro first _ _ _; rfl
  | cons b rest ih =>
    intro first hall hfirst hlast
    obtain ⟨hb1, hb2, hb3⟩ := hall b (List.mem_cons_self b rest)
    have c1 : (first && (b == 0x20 || b == 0x23)) = false := by
      cases first
      · rfl
      · obtain ⟨h20, h23⟩ := hfirst rfl
        rw [List.head?_cons] at h20 h23
        have hb20 : b ≠ 0x20 := fun hx => h20 (by rw [hx])
        have hb23 : b ≠ 0x23 := fun hx => h23 (by rw [hx])
        rw [beq_eq_false_iff_ne.mpr hb20, beq_eq_false_iff_ne.mpr hb23]
        rfl
    have c2 : (rest.isEmpty && b == 0x20) = false := by
      cases rest with
      | nil =>
        have hbl : b ≠ 0x20 := by
          intro hx
          exact hlast (by rw [hx]; rfl)
        rw [beq_eq_false_iff_ne.mpr hbl]
        rfl
      | cons x xs => rfl
    have c4 : (0xc0 ≤ b && b ≤ 0xdf) = false := by
      simp only [Bool.and_eq_false_iff, decide_eq_false_iff_not]
      omega
    have c5 : (0xe0 ≤ b && b ≤ 0xef) = false := by
      simp only [Bool.and_eq_false_iff, decide_eq_false_iff_not]
      omega
    have c6 : (0xf0 ≤ b && b ≤ 0xf7) = false := by
      simp only [Bool.and_eq_false_iff, decide_eq_false_iff_not]
      omega
    have c7 : ¬ (b ≤ 31) := by omega
    show escapeBytesGo 0 first (b :: rest) = some (b :: rest)
    rw [escapeBytesGo, c1, c2, hb3, c4, c5, c6]
    simp only [Bool.false_eq_true, if_false, if_neg c7]
    rw [show escapeBytesGo 0 false rest = escapeBytes false rest from rfl,
      ih false (fun v hv => hall v (List.mem_cons_of_mem b hv))
        (fun hx => Bool.noConfusion hx) (getLast?_tail_ne hlast)]
    rfl

/-- Counterexample to C8 as stated: `" a"`, `"#a"` and `"a "` are plain-ASCII
strings with no reserved characters (`" + , ; < >`) and no control
characters, yet `escapeValue` escapes the leading space, the leading `#`,
and the trailing space respectively, so it is not the identity on them. -/
theorem claimC8_counterexample :
    ((∀ u ∈ strLit " a", 0x1f < u ∧ u ≤ 0x7f ∧ isEmbeddedReserved u = false) ∧
      escapeValue (strLit " a") ≠ some (strLit " a")) ∧
    ((∀ u ∈ strLit "#a", 0x1f < u ∧ u ≤ 0x7f ∧ isEmbeddedReserved u = false) ∧
      escapeValue (strLit "#a") ≠ some (strLit "#a")) ∧
    ((∀ u ∈ strLit "a ", 0x1f < u ∧ u ≤ 0x7f ∧ isEmbeddedReserved u = false) ∧
      escapeValue (strLit "a ") ≠ some (strLit "a ")) := by
  refine ⟨⟨by decide, by decide⟩, ⟨by decide, by decide⟩, ⟨by decide, by decide⟩⟩

/-- C8 amended: `escapeValue` is the identity on every plain-ASCII input
string that contains no reserved characters (`" + , ; < >`), no control
characters (bytes at most 0x1F), does not begin with a space or `#`, and
does not end with a space (the leading/trailing positions are additionally
escaped by rules (a) and (b) of the encoder). -/
theorem claimC8_amended (s : JSStr)
    (hall : ∀ u ∈ s, 0x1f < u ∧ u ≤ 0x7f ∧ isEmbeddedReserved u = false)
    (hhead20 : s.head? ≠ some 0x20) (hhead23 : s.head? ≠ some 0x23)
    (hlast : s.getLast? ≠ some 0x20) :
    escapeValue s = some s := by
  unfold escapeValue
  rw [utf16ToUtf8_ascii s (fun u hu => (hall u hu).2.1)]
  exact escapeBytes_id s true hall (fun _ => ⟨hhead20, hhead23⟩) hlast

/-- Witness for C8 amended: `escapeValue('James Smith III')` is the string
itself. -/
theorem claimC8_witness :
    escapeValue (strLit "James Smith III") = some (strLit "James Smith III") :=
  claimC8_amended (strLit "James Smith III") (by decide) (by decide) (by decide) (by decide)

/-! ## Claim C4 -/

/-- The head surviving `dropWhile` fails the predicate. -/
lemma dropWhile_head_false {p : Nat → Bool} :
    ∀ (l : JSStr) (a : Nat), (l.dropWhile p).head? = some a → p a = false := by
  intro l
  induction l with
  | nil => intro a h; cases h
  | cons x xs ih =>
    intro a h
    rw [List.dropWhile_cons] at h
    split at h
    · exact ih a h
    · next hx =>
      rw [List.head?_cons] at h
      cases h
      rw [Bool.not_eq_true] at hx
      exact hx

/-- `dropWhile` is the identity when the head already fails the predicate. -/
lemma dropWhile_eq_self_of_head {p : Nat → Bool} (l : JSStr)
    (h : ∀ a, l.head? = some a → p a = false) : l.dropWhile p = l := by
  cases l with
  | nil => rfl
  | cons x xs =>
    rw [List.dropWhile_cons, if_neg]
    rw [h x rfl]
    exact fun hx => Bool.noConfusion hx

/-- A nonempty `dropWhile` result keeps the last element of the input. -/
lemma dropWhile_getLast? {p : Nat → Bool} (l : JSStr) (h : l.dropWhile p ≠ []) :
    (l.dropWhile p).getLast? = l.getLast? := by
  induction l with
  | nil => rfl
  | cons x xs ih =>
    rw [List.dropWhile_cons]
    split
    · next hx =>
      rw [List.dropWhile_cons, if_pos hx] at h
      rw [ih h]
      cases hxs : xs with
      | nil =>
        exfalso
        apply h
        rw [hxs]
        rfl
      | cons y ys =>
        subst hxs
        rw [List.getLast?_cons_cons]
    · rfl

/-- Elements surviving the right-hand trim fail the predicate at the end. -/
lemma jsTrim_head (s : JSStr) : ∀ a, (jsTrim s).head? = some a → isJsWs a = false := by
  intro a h
  unfold jsTrim at h
  rw [List.head?_reverse] at h
  by_cases hu : ((s.dropWhile isJsWs).reverse.dropWhile isJsWs) = []
  · rw [hu] at h
    cases h
  · rw [dropWhile_getLast? _ hu, List.getLast?_reverse] at h
    exact dropWhile_head_false s a h

/-- The last element of a trimmed string is not whitespace. -/
lemma jsTrim_last (s : JSStr) : ∀ a, (jsTrim s).getLast? = some a → isJsWs a = false := by
  intro a h
  unfold jsTrim at h
  rw [List.getLast?_reverse] at h
  exact dropWhile_head_false _ a h

/-- `trim` is the identity on strings with non-whitespace (or no) ends. -/
lemma jsTrim_eq_self (s : JSStr) (h1 : ∀ a, s.head? = some a → isJsWs a = false)
    (h2 : ∀ a, s.getLast? = some a → isJsWs a = false) : jsTrim s = s := by
  unfold jsTrim
  rw [dropWhile_eq_self_of_head s h1]
  rw [dropWhile_eq_self_of_head s.reverse (fun a ha => h2 a (by rwa [List.head?_reverse] at ha))]
  exact List.reverse_reverse s

/-- `String.prototype.trim` is idempotent. -/
lemma jsTrim_idem (s : JSStr) : jsTrim (jsTrim s) = jsTrim s :=
  jsTrim_eq_self (jsTrim s) (jsTrim_head s) (jsTrim_last s)

/-- Every string value returned by `readAttributeValue` is trim-stable: the
final `.trim()` applies to quoted and unquoted values alike. -/
lemma readAttributeValue_str_trim (seed : Nat) (buf : List Nat) (pos : Int) (p : Nat)
    (s : JSStr) (h : readAttributeValue seed buf pos = .ok ⟨p, .str s⟩) : jsTrim s = s := by
  unfold readAttributeValue at h
  split at h
  · cases h
  · dsimp only [] at h
    split at h
    · cases h
    · split at h
      · simp only [Except.ok.injEq, AttrValueResult.mk.injEq, Value.str.injEq] at h
        rw [← h.2]
        rfl
      · split at h
        · split at h
          · cases h
          · simp only [Except.ok.injEq, AttrValueResult.mk.injEq] at h
            exact absurd h.2 (by intro hx; cases hx)
        · split at h
          · cases h
          · simp only [Except.ok.injEq, AttrValueResult.mk.injEq, Value.str.injEq] at h
            rw [← h.2]
            exact jsTrim_idem _

/-- Counterexample to C4 as stated: reading the quoted value `="foo bar   "`
(the repository's own test input) returns `foo bar` — the whitespace inside
the quotes before the closing quote is *not* preserved, because the final
`.trim()` applies to quoted values too. -/
theorem claimC4_counterexample :
    readAttributeValue 0 (strLit "=\"foo bar   \"") 0 =
      .ok ⟨13, .str (strLit "foo bar")⟩ ∧
    strLit "foo bar" ≠ strLit "foo bar   " := by
  exact ⟨by rfl, by decide⟩

/-- C4 amended: the Attribute-Value Reader collects the bytes between the
quotes verbatim, but the final decoded value is whitespace-trimmed at both
ends for quoted and unquoted values alike — every string value it returns is
`trim`-stable; between a closing quote and the next end character only
whitespace is allowed.  Concretely, `="foo bar   "` yields `foo bar` (endPos
13) and `=   foo  ` yields `foo` (endPos 9), as in the repository's tests. -/
theorem claimC4_amended :
    (∀ (seed : Nat) (buf : List Nat) (pos : Int) (p : Nat) (s : JSStr),
        readAttributeValue seed buf pos = .ok ⟨p, .str s⟩ → jsTrim s = s) ∧
    readAttributeValue 0 (strLit "=\"foo bar   \"") 0 =
      .ok ⟨13, .str (strLit "foo bar")⟩ ∧
    readAttributeValue 0 (strLit "=   foo  ") 0 = .ok ⟨9, .str (strLit "foo")⟩ := by
  exact ⟨readAttributeValue_str_trim, by rfl, by rfl⟩

/-- Witness for C4 amended: the universal part applied at the concrete
unquoted read `=   foo  ` (value `foo`, trim-stable). -/
theorem claimC4_witness :
    readAttributeValue 0 (strLit "=   foo  ") 0 = .ok ⟨9, .str (strLit "foo")⟩ ∧
      jsTrim (strLit "foo") = strLit "foo" := by
  refine ⟨claimC4_amended.2.2, ?_⟩
  exact claimC4_amended.1 0 (strLit "=   foo  ") 0 9 (strLit "foo") claimC4_amended.2.2

/-! ## Claim C10 -/

/-- Well-formed UTF-8 byte sequences, as `Buffer.from(string, 'utf8')`
produces them: a sequence of 1–4-byte chunks with in-range lead bytes and
continuation bytes. -/
inductive Utf8WF : List Nat → Prop where
  | nil : Utf8WF []
  | one {b rest} : b ≤ 0x7f → Utf8WF rest → Utf8WF (b :: rest)
  | two {b c1 rest} : 0xc2 ≤ b → b ≤ 0xdf → isCont c1 = true → Utf8WF rest →
      Utf8WF (b :: c1 :: rest)
  | three {b c1 c2 rest} : 0xe0 ≤ b → b ≤ 0xef → isCont c1 = true → isCont c2 = true →
      Utf8WF rest → Utf8WF (b :: c1 :: c2 :: rest)
  | four {b c1 c2 c3 rest} : 0xf0 ≤ b → b ≤ 0xf4 → isCont c1 = true → isCont c2 = true →
      isCont c3 = true → Utf8WF rest → Utf8WF (b :: c1 :: c2 :: c3 :: rest)

/-- A byte of the form `0x80 + n % 64` is a continuation byte. -/
lemma isCont_mod (n : Nat) : isCont (0x80 + n % 64) = true := by
  unfold isCont
  have : n % 64 < 64 := Nat.mod_lt n (by omega)
  simp only [Bool.and_eq_true, decide_eq_true_eq]
  omega

/-- `encodeUnit` prepends a well-formed chunk. -/
lemma encodeUnit_wf (u : Nat) {rest : List Nat} (h : Utf8WF rest) :
    Utf8WF (encodeUnit u ++ rest) := by
  unfold encodeUnit
  split
  · next h1 => exact Utf8WF.one h1 h
  · split
    · next h1 h2 =>
      refine Utf8WF.two ?_ ?_ (isCont_mod u) h
      · have : 0x80 ≤ u := by omega
        omega
      · omega
    · split
      · exact Utf8WF.three (by omega) (by omega) (by decide) (by decide) h
      · split
        · next h1 h2 h3 h4 =>
          refine Utf8WF.three ?_ ?_ ?_ (isCont_mod u) h
          · omega
          · have : u / 0x1000 ≤ 15 := by omega
            omega
          · unfold isCont
            have hlt : u / 64 % 64 < 64 := Nat.mod_lt _ (by omega)
            simp only [Bool.and_eq_true, decide_eq_true_eq]
            omega
        · exact Utf8WF.three (by omega) (by omega) (by decide) (by decide) h

/-- `encodePair` prepends a well-formed 4-byte chunk. -/
lemma encodePair_wf {hs ls : Nat} (hh : isHighSurrogate hs = true)
    (hl : isLowSurrogate ls = true) {rest : List Nat} (h : Utf8WF rest) :
    Utf8WF (encodePair hs ls ++ rest) := by
  unfold isHighSurrogate at hh
  unfold isLowSurrogate at hl
  simp only [Bool.and_eq_true, decide_eq_true_eq] at hh hl
  unfold encodePair
  refine Utf8WF.four ?_ ?_ (isCont_mod _) (isCont_mod _) (isCont_mod _) h
  · omega
  · have hcp : 0x10000 + (hs - 0xd800) * 0x400 + (ls - 0xdc00) ≤ 0x10ffff := by omega
    omega

/-- The UTF-16-to-UTF-8 encoder loop only produces well-formed UTF-8 (the
pending slot, when filled, holds a high surrogate). -/
lemma utf16ToUtf8Go_wf :
    ∀ (s : JSStr) (pend : Option Nat),
      (∀ u, pend = some u → isHighSurrogate u = true) → Utf8WF (utf16ToUtf8Go pend s) := by
  intro s
  induction s with
  | nil =>
    intro pend hpend
    cases pend with
    | none => exact Utf8WF.nil
    | some hs =>
      rw [utf16ToUtf8Go]
      exact Utf8WF.three (by decide) (by decide) (by decide) (by decide) Utf8WF.nil
  | cons u rest ih =>
    intro pend hpend
    cases pend with
    | none =>
      rw [utf16ToUtf8Go]
      split
      · next hu => exact ih (some u) (fun v hv => by cases hv; exact hu)
      · exact encodeUnit_wf u (ih none (fun v hv => by cases hv))
    | some hs =>
      rw [utf16ToUtf8Go]
      split
      · next hu => exact encodePair_wf (hpend hs rfl) hu (ih none (fun v hv => by cases hv))
      · split
        · next hu =>
          exact Utf8WF.three (by decide) (by decide) (by decide) (by decide)
            (ih (some u) (fun v hv => by cases hv; exact hu))
        · exact Utf8WF.three (by decide) (by decide) (by decide) (by decide)
            (encodeUnit_wf u (ih none (fun v hv => by cases hv)))

/-- `Buffer.from(s, 'utf8')` always yields well-formed UTF-8. -/
lemma utf16ToUtf8_wf (s : JSStr) : Utf8WF (utf16ToUtf8 s) :=
  utf16ToUtf8Go_wf s none (fun v hv => by cases hv)

/-- Every character of an escaped-hex token is ASCII. -/
lemma toEscapedHexString_ascii (b : Nat) : ∀ u ∈ toEscapedHexString b, u ≤ 0x7f := by
  intro u hu
  have hd : ∀ n, n ≤ 15 → hexDigitLower n ≤ 0x7f := by
    intro n hn
    unfold hexDigitLower
    split <;> omega
  simp only [toEscapedHexString, hexPairLower, List.mem_cons,
    List.not_mem_nil, or_false] at hu
  rcases hu with rfl | rfl | rfl
  · decide
  · exact hd _ (by omega)
  · exact hd _ (by omega)

/-- ASCII-ness is preserved by concatenation. -/
lemma ascii_append {xs ys : JSStr} (hx : ∀ u ∈ xs, u ≤ 0x7f) (hy : ∀ u ∈ ys, u ≤ 0x7f) :
    ∀ u ∈ xs ++ ys, u ≤ 0x7f :=
  fun u hu => (List.mem_append.mp hu).elim (hx u) (hy u)

/-- For a byte at least 0xC0, the escape loop's first three checks and the
control-character check all fail, leaving only the multi-byte dispatch and
the literal fallback. -/
lemma escapeBytesGo_zero_cons_high (first : Bool) (b : Nat) (rest : List Nat)
    (hb : 0xc0 ≤ b) :
    escapeBytesGo 0 first (b :: rest) =
      (if 0xc0 ≤ b && b ≤ 0xdf then
        (toEscapedHexString b ++ ·) <$> escapeBytesGo 1 false rest
      else if 0xe0 ≤ b && b ≤ 0xef then
        (toEscapedHexString b ++ ·) <$> escapeBytesGo 2 false rest
      else if 0xf0 ≤ b && b ≤ 0xf7 then
        (toEscapedHexString b ++ ·) <$> escapeBytesGo 3 false rest
      else
        (b :: ·) <$> escapeBytesGo 0 false rest) := by
  rw [escapeBytesGo]
  have e20 : (b == 0x20) = false := beq_eq_false_iff_ne.mpr (by omega)
  have e23 : (b == 0x23) = false := beq_eq_false_iff_ne.mpr (by omega)
  have hres : isEmbeddedReserved b = false := by
    unfold isEmbeddedReserved
    simp only [Bool.or_eq_false_iff, beq_eq_false_iff_ne]
    omega
  have hc7 : ¬ (b ≤ 31) := by omega
  rw [e20, e23, hres]
  simp only [Bool.or_self, Bool.and_false, Bool.false_eq_true, if_false, if_neg hc7]

/-- One unconditional continuation-escaping step of the loop. -/
lemma escapeBytesGo_pend (k : Nat) (first : Bool) (b : Nat) (rest : List Nat) :
    escapeBytesGo (k + 1) first (b :: rest) =
      (toEscapedHexString b ++ ·) <$> escapeBytesGo k false rest := by
  rw [escapeBytesGo]

/-- The escape loop maps well-formed UTF-8 to an all-ASCII string. -/
lemma escapeBytesGo_ascii {l : List Nat} (hwf : Utf8WF l) :
    ∀ first, ∃ out, escapeBytesGo 0 first l = some out ∧ ∀ u ∈ out, u ≤ 0x7f := by
  induction hwf with
  | nil => exact fun _ => ⟨[], rfl, by intro u hu; cases hu⟩
  | @one b rest hb _ ih =>
    intro first
    obtain ⟨out, hout, hascii⟩ := ih false
    rw [escapeBytesGo]
    split
    · exact ⟨toEscapedHexString b ++ out, by rw [hout]; rfl,
        ascii_append (toEscapedHexString_ascii b) hascii⟩
    · split
      · exact ⟨toEscapedHexString b ++ out, by rw [hout]; rfl,
          ascii_append (toEscapedHexString_ascii b) hascii⟩
      · split
        · exact ⟨toEscapedHexString b ++ out, by rw [hout]; rfl,
            ascii_append (toEscapedHexString_ascii b) hascii⟩
        · split
          · next hcond =>
            exfalso
            simp only [Bool.and_eq_true, decide_eq_true_eq] at hcond
            omega
          · split
            · next hcond =>
              exfalso
              simp only [Bool.and_eq_true, decide_eq_true_eq] at hcond
              omega
            · split
              · next hcond =>
                exfalso
                simp only [Bool.and_eq_true, decide_eq_true_eq] at hcond
                omega
              · split
                · exact ⟨toEscapedHexString b ++ out, by rw [hout]; rfl,
                    ascii_append (toEscapedHexString_ascii b) hascii⟩
                · exact ⟨b :: out, by rw [hout]; rfl,
                    fun u hu => (List.mem_cons.mp hu).elim (fun hx => by rw [hx]; exact hb)
                      (hascii u)⟩
  | @two b c1 rest hb1 hb2 _ _ ih =>
    intro first
    obtain ⟨out, hout, hascii⟩ := ih false
    refine ⟨toEscapedHexString b ++ (toEscapedHexString c1 ++ out), ?_,
      ascii_append (toEscapedHexString_ascii b)
        (ascii_append (toEscapedHexString_ascii c1) hascii)⟩
    rw [escapeBytesGo_zero_cons_high first b _ (by omega),
      if_pos (show (0xc0 ≤ b && b ≤ 0xdf) = true by
        simp only [Bool.and_eq_true, decide_eq_true_eq]; omega),
      escapeBytesGo_pend, hout]
    rfl
  | @three b c1 c2 rest hb1 hb2 _ _ _ ih =>
    intro first
    obtain ⟨out, hout, hascii⟩ := ih false
    refine ⟨toEscapedHexString b ++ (toEscapedHexString c1 ++ (toEscapedHexString c2 ++ out)),
      ?_, ascii_append (toEscapedHexString_ascii b)
        (ascii_append (toEscapedHexString_ascii c1)
          (ascii_append (toEscapedHexString_ascii c2) hascii))⟩
    rw [escapeBytesGo_zero_cons_high first b _ (by omega),
      if_neg (show ¬ (0xc0 ≤ b && b ≤ 0xdf) = true by
        simp only [Bool.and_eq_true, decide_eq_true_eq]; omega),
      if_pos (show (0xe0 ≤ b && b ≤ 0xef) = true by
        simp only [Bool.and_eq_true, decide_eq_true_eq]; omega),
      escapeBytesGo_pend, escapeBytesGo_pend, hout]
    rfl
  | @four b c1 c2 c3 rest hb1 hb2 _ _ _ _ ih =>
    intro first
    obtain ⟨out, hout, hascii⟩ := ih false
    refine ⟨toEscapedHexString b ++ (toEscapedHexString c1 ++ (toEscapedHexString c2 ++
      (toEscapedHexString c3 ++ out))), ?_,
      ascii_append (toEscapedHexString_ascii b)
        (ascii_append (toEscapedHexString_ascii c1)
          (ascii_append (toEscapedHexString_ascii c2)
            (ascii_append (toEscapedHexString_ascii c3) hascii)))⟩
    rw [escapeBytesGo_zero_cons_high first b _ (by omega),
      if_neg (show ¬ (0xc0 ≤ b && b ≤ 0xdf) = true by
        simp only [Bool.and_eq_true, decide_eq_true_eq]; omega),
      if_neg (show ¬ (0xe0 ≤ b && b ≤ 0xef) = true by
        simp only [Bool.and_eq_true, decide_eq_true_eq]; omega),
      if_pos (show (0xf0 ≤ b && b ≤ 0xf7) = true by
        simp only [Bool.and_eq_true, decide_eq_true_eq]; omega),
      escapeBytesGo_pend, escapeBytesGo_pend, escapeBytesGo_pend, hout]
    rfl

/-- C10: For every string input, the output of `escapeValue` consists only of
ASCII characters (every character code at most 0x7F): every byte of the
UTF-8 encoding that is 0x80 or above is part of a multi-byte sequence whose
bytes are all rendered as backslash-hex escapes, so no non-ASCII character
ever appears literally in the output (and the unchecked continuation-byte
accesses never fall off the buffer, so the call succeeds). -/
theorem claimC10_escape_ascii (s : JSStr) :
    ∃ out, escapeValue s = some out ∧ ∀ u ∈ out, u ≤ 0x7f :=
  escapeBytesGo_ascii (utf16ToUtf8_wf s) true

/-! ## Claim C1 machinery, part 1: codec round-trip groundwork -/

/-- Reading an appended list past the prefix reads the suffix. -/
lemma get?_append_off (pre l2 : List Nat) (k : Nat) :
    (pre ++ l2).get? (pre.length + k) = l2.get? k := by
  rw [List.get?_append_right (by omega)]
  congr 1
  omega

/-- `chAt` version of `get?_append_off`. -/
lemma chAt_append_off (pre l2 : List Nat) (k : Nat) :
    chAt (pre ++ l2) (pre.length + k) = chAt l2 k := by
  unfold chAt
  rw [get?_append_off]

/-- The WHATWG decoder is the identity on ASCII byte lists. -/
lemma utf8DecGo_ascii (l : List Nat) (h : ∀ b ∈ l, b ≤ 0x7f) :
    utf8DecGo 0 0 0x80 0xbf l = l := by
  induction l with
  | nil => rfl
  | cons b rest ih =>
    have hb : b ≤ 0x7f := h b (List.mem_cons_self b rest)
    have hlead : utf8Lead b = .inr [b] := by
      unfold utf8Lead
      rw [if_pos hb]
    rw [utf8DecGo]
    simp only [Nat.zero_eq, beq_self_eq_true, if_true, hlead]
    rw [ih (fun x hx => h x (List.mem_cons_of_mem b hx))]
    rfl

/-- `buffer.toString('utf8')` is the identity on ASCII byte lists. -/
lemma utf8ToUtf16_ascii (l : List Nat) (h : ∀ b ∈ l, b ≤ 0x7f) : utf8ToUtf16 l = l :=
  utf8DecGo_ascii l h

/-- Scalar JS strings: every code unit is a valid unit below 0x10000 and
surrogates only occur as well-formed high/low pairs.  `buffer.toString`
only produces such strings. -/
inductive ScalarStr : JSStr → Prop where
  | nil : ScalarStr []
  | unit {u rest} : u < 0x10000 → isHighSurrogate u = false → isLowSurrogate u = false →
      ScalarStr rest → ScalarStr (u :: rest)
  | pair {h l rest} : isHighSurrogate h = true → isLowSurrogate l = true →
      ScalarStr rest → ScalarStr (h :: l :: rest)

/-- Decoder-state invariant, one pending continuation byte: every in-range
completion yields a non-surrogate code point at most 0x10FFFF. -/
abbrev StEnd1 (cp lo hi : Nat) : Prop :=
  0x80 ≤ lo ∧ hi ≤ 0xbf ∧ ∀ c, lo ≤ c → c ≤ hi →
    (cp * 64 + (c - 0x80) < 0xd800 ∨ 0xe000 ≤ cp * 64 + (c - 0x80)) ∧
      cp * 64 + (c - 0x80) ≤ 0x10ffff

/-- Decoder-state invariant, two pending continuation bytes. -/
abbrev StEnd2 (cp lo hi : Nat) : Prop :=
  0x80 ≤ lo ∧ hi ≤ 0xbf ∧ ∀ c, lo ≤ c → c ≤ hi → StEnd1 (cp * 64 + (c - 0x80)) 0x80 0xbf

/-- Decoder-state invariant, three pending continuation bytes. -/
abbrev StEnd3 (cp lo hi : Nat) : Prop :=
  0x80 ≤ lo ∧ hi ≤ 0xbf ∧ ∀ c, lo ≤ c → c ≤ hi → StEnd2 (cp * 64 + (c - 0x80)) 0x80 0xbf

/-- The state invariant of the WHATWG decoder: every in-range completion of
the pending sequence yields a non-surrogate code point at most 0x10FFFF. -/
def StInv (needed cp lo hi : Nat) : Prop :=
  if needed = 0 then True
  else if needed = 1 then StEnd1 cp lo hi
  else if needed = 2 then StEnd2 cp lo hi
  else if needed = 3 then StEnd3 cp lo hi
  else False

/-- The zero state trivially satisfies the invariant. -/
lemma StInv_zero' (cp lo hi : Nat) : StInv 0 cp lo hi := by
  unfold StInv
  simp

/-- `StInv` at one pending byte. -/
lemma StInv_one_iff (cp lo hi : Nat) : StInv 1 cp lo hi ↔ StEnd1 cp lo hi := by
  unfold StInv
  simp

/-- `StInv` at two pending bytes. -/
lemma StInv_two_iff (cp lo hi : Nat) : StInv 2 cp lo hi ↔ StEnd2 cp lo hi := by
  unfold StInv
  simp

/-- `StInv` at three pending bytes. -/
lemma StInv_three_iff (cp lo hi : Nat) : StInv 3 cp lo hi ↔ StEnd3 cp lo hi := by
  unfold StInv
  simp

/-- `StInv` fails above three pending bytes. -/
lemma StInv_four {k cp lo hi : Nat} : ¬ StInv (k + 4) cp lo hi := by
  unfold StInv
  rw [if_neg (by omega), if_neg (by omega), if_neg (by omega), if_neg (by omega)]
  exact fun h => h

/-- A lead-byte dispatch that enters a continuation state establishes the
state invariant. -/
lemma utf8Lead_inv {b n c lo hi : Nat} (h : utf8Lead b = .inl (n, c, lo, hi)) :
    StInv n c lo hi ∧ 1 ≤ n ∧ n ≤ 3 := by
  unfold utf8Lead at h
  split at h
  · cases h
  · split at h
    · next h1 h2 =>
      simp only [Bool.and_eq_true, decide_eq_true_eq] at h2
      cases h
      refine ⟨(StInv_one_iff _ _ _).mpr ⟨by omega, by omega, ?_⟩, by omega, by omega⟩
      intro x hx1 hx2
      constructor
      · left
        omega
      · omega
    · split at h
      · next h1 h2 h3 =>
        simp only [Bool.and_eq_true, decide_eq_true_eq] at h3
        cases h
        refine ⟨(StInv_two_iff _ _ _).mpr ⟨?_, ?_, ?_⟩, by omega, by omega⟩
        · split <;> omega
        · split <;> omega
        · intro x hx1 hx2
          refine ⟨by omega, by omega, ?_⟩
          intro y hy1 hy2
          by_cases he0 : b = 0xe0
          · subst he0
            simp only [show ((0xe0 : Nat) == 0xe0) = true from rfl,
              show ((0xe0 : Nat) == 0xed) = false from rfl, if_true, Bool.false_eq_true,
              if_false] at hx1 hx2
            constructor
            · left
              omega
            · omega
          · by_cases hed : b = 0xed
            · subst hed
              simp only [show ((0xed : Nat) == 0xe0) = false from rfl,
                show ((0xed : Nat) == 0xed) = true from rfl, if_true, Bool.false_eq_true,
                if_false] at hx1 hx2
              constructor
              · left
                omega
              · omega
            · rw [if_neg (by simp [he0])] at hx1
              rw [if_neg (by simp [hed])] at hx2
              constructor
              · rcases Nat.lt_or_ge b 0xed with hlt | hge
                · left
                  omega
                · right
                  omega
              · omega
      · split at h
        · next h1 h2 h3 h4 =>
          simp only [Bool.and_eq_true, decide_eq_true_eq] at h4
          cases h
          refine ⟨(StInv_three_iff _ _ _).mpr ⟨?_, ?_, ?_⟩, by omega, by omega⟩
          · split <;> omega
          · split <;> omega
          · intro x hx1 hx2
            refine ⟨by omega, by omega, ?_⟩
            intro y hy1 hy2
            refine ⟨by omega, by omega, ?_⟩
            intro z hz1 hz2
            by_cases hf0 : b = 0xf0
            · subst hf0
              simp only [show ((0xf0 : Nat) == 0xf0) = true from rfl,
                show ((0xf0 : Nat) == 0xf4) = false from rfl, if_true, Bool.false_eq_true,
                if_false] at hx1 hx2
              constructor
              · right
                omega
              · omega
            · by_cases hf4 : b = 0xf4
              · subst hf4
                simp only [show ((0xf4 : Nat) == 0xf0) = false from rfl,
                  show ((0xf4 : Nat) == 0xf4) = true from rfl, if_true, Bool.false_eq_true,
                  if_false] at hx1 hx2
                constructor
                · right
                  omega
                · omega
              · rw [if_neg (by simp [hf0])] at hx1
                rw [if_neg (by simp [hf4])] at hx2
                constructor
                · right
                  omega
                · omega
        · cases h

/-- A lead-byte dispatch that emits directly emits an ASCII byte or the
replacement character. -/
lemma utf8Lead_inr {b : Nat} {out : JSStr} (h : utf8Lead b = .inr out) :
    (out = [b] ∧ b ≤ 0x7f) ∨ out = [0xfffd] := by
  unfold utf8Lead at h
  split at h
  · next hb => cases h; exact Or.inl ⟨rfl, hb⟩
  · split at h
    · cases h
    · split at h
      · cases h
      · split at h
        · cases h
        · cases h; exact Or.inr rfl

/-- `emitCp` of a non-surrogate code point at most 0x10FFFF prepends a
scalar chunk. -/
lemma scalar_emitCp {cp : Nat} (h1 : cp < 0xd800 ∨ 0xe000 ≤ cp) (h2 : cp ≤ 0x10ffff)
    {rest : JSStr} (hrest : ScalarStr rest) : ScalarStr (emitCp cp ++ rest) := by
  unfold emitCp
  split
  · next hlt =>
    refine ScalarStr.unit hlt ?_ ?_ hrest
    · unfold isHighSurrogate
      simp only [Bool.and_eq_false_iff, decide_eq_false_iff_not]
      omega
    · unfold isLowSurrogate
      simp only [Bool.and_eq_false_iff, decide_eq_false_iff_not]
      omega
  · next hge =>
    refine ScalarStr.pair ?_ ?_ hrest
    · unfold isHighSurrogate
      simp only [Bool.and_eq_true, decide_eq_true_eq]
      omega
    · unfold isLowSurrogate
      simp only [Bool.and_eq_true, decide_eq_true_eq]
      omega

/-- The invariant bounds the pending count. -/
lemma StInv_le_three {n cp lo hi : Nat} (h : StInv n cp lo hi) : n ≤ 3 := by
  match n with
  | 0 => omega
  | 1 => omega
  | 2 => omega
  | 3 => omega
  | k + 4 => exact absurd h StInv_four

/-- The WHATWG decoder only produces scalar strings. -/
lemma utf8DecGo_scalar :
    ∀ (l : List Nat) (needed cp lo hi : Nat), StInv needed cp lo hi →
      ScalarStr (utf8DecGo needed cp lo hi l) := by
  intro l
  induction l with
  | nil =>
    intro needed cp lo hi _
    rw [utf8DecGo]
    split
    · exact ScalarStr.nil
    · exact ScalarStr.unit (by omega) (by decide) (by decide) ScalarStr.nil
  | cons b rest ih =>
    intro needed cp lo hi hinv
    have hdispatch : ScalarStr (match utf8Lead b with
        | .inl (n2, c2, l2, h2) => utf8DecGo n2 c2 l2 h2 rest
        | .inr out => out ++ utf8DecGo 0 0 0x80 0xbf rest) := by
      cases hl : utf8Lead b with
      | inl q =>
        obtain ⟨q1, q2⟩ := q
        obtain ⟨q2, q3⟩ := q2
        obtain ⟨q3, q4⟩ := q3
        exact ih q1 q2 q3 q4 (utf8Lead_inv hl).1
      | inr out =>
        rcases utf8Lead_inr hl with ⟨rfl, hb⟩ | rfl
        · exact ScalarStr.unit (by omega) (by
            unfold isHighSurrogate
            simp only [Bool.and_eq_false_iff, decide_eq_false_iff_not]
            omega) (by
            unfold isLowSurrogate
            simp only [Bool.and_eq_false_iff, decide_eq_false_iff_not]
            omega) (ih 0 0 0x80 0xbf (StInv_zero' 0 0x80 0xbf))
        · exact ScalarStr.unit (by omega) (by decide) (by decide)
            (ih 0 0 0x80 0xbf (StInv_zero' 0 0x80 0xbf))
    rw [utf8DecGo]
    by_cases hn : needed = 0
    · subst hn
      simp only [Nat.zero_eq, beq_self_eq_true, if_true]
      exact hdispatch
    · rw [if_neg (by simpa using hn)]
      split
      · next hrange =>
        simp only [Bool.and_eq_true, decide_eq_true_eq] at hrange
        have hle := StInv_le_three hinv
        match needed, hn, hinv with
        | 1, _, hinv =>
          obtain ⟨hlo, hhi, hend⟩ := (StInv_one_iff _ _ _).mp hinv
          simp only [beq_self_eq_true, if_true]
          obtain ⟨he1, he2⟩ := hend b hrange.1 hrange.2
          exact scalar_emitCp he1 he2 (ih 0 0 0x80 0xbf (StInv_zero' 0 0x80 0xbf))
        | 2, _, hinv =>
          obtain ⟨hlo, hhi, hstep⟩ := (StInv_two_iff _ _ _).mp hinv
          rw [if_neg (by decide)]
          exact ih 1 _ 0x80 0xbf ((StInv_one_iff _ _ _).mpr (hstep b hrange.1 hrange.2))
        | 3, _, hinv =>
          obtain ⟨hlo, hhi, hstep⟩ := (StInv_three_iff _ _ _).mp hinv
          rw [if_neg (by decide)]
          exact ih 2 _ 0x80 0xbf ((StInv_two_iff _ _ _).mpr (hstep b hrange.1 hrange.2))
      · exact ScalarStr.unit (by omega) (by decide) (by decide) hdispatch

/-- `buffer.toString('utf8')` always yields a scalar string. -/
lemma utf8ToUtf16_scalar (l : List Nat) : ScalarStr (utf8ToUtf16 l) :=
  utf8DecGo_scalar l 0 0 0x80 0xbf (StInv_zero' 0 0x80 0xbf)

/-- Unfolding of the decoder in the initial state. -/
lemma utf8DecGo_zero_cons (cp lo hi b : Nat) (rest : List Nat) :
    utf8DecGo 0 cp lo hi (b :: rest) =
      (match utf8Lead b with
        | .inl (n2, c2, l2, h2) => utf8DecGo n2 c2 l2 h2 rest
        | .inr out => out ++ utf8DecGo 0 0 0x80 0xbf rest) := by
  rw [utf8DecGo, if_pos (show ((0 : Nat) == 0) = true from rfl)]

/-- Decoding the UTF-8 encoding of one non-surrogate unit prepends the unit. -/
lemma decode_encodeUnit (u : Nat) (hu : u < 0x10000) (hhs : isHighSurrogate u = false)
    (hls : isLowSurrogate u = false) (X : List Nat) :
    utf8DecGo 0 0 0x80 0xbf (encodeUnit u ++ X) = u :: utf8DecGo 0 0 0x80 0xbf X := by
  have hhs' : ¬ (0xd800 ≤ u ∧ u ≤ 0xdbff) := by
    unfold isHighSurrogate at hhs
    simp only [Bool.and_eq_false_iff, decide_eq_false_iff_not] at hhs
    omega
  have hls' : ¬ (0xdc00 ≤ u ∧ u ≤ 0xdfff) := by
    unfold isLowSurrogate at hls
    simp only [Bool.and_eq_false_iff, decide_eq_false_iff_not] at hls
    omega
  unfold encodeUnit
  split
  · next h1 =>
    rw [List.cons_append, utf8DecGo_zero_cons]
    have hlead : utf8Lead u = .inr [u] := by
      unfold utf8Lead
      rw [if_pos h1]
    rw [hlead]
    rfl
  · split
    · next h1 h2 =>
      rw [List.cons_append, List.cons_append, utf8DecGo_zero_cons]
      have hlead : utf8Lead (0xc0 + u / 64) = .inl (1, 0xc0 + u / 64 - 0xc0, 0x80, 0xbf) := by
        unfold utf8Lead
        rw [if_neg (by omega),
          if_pos (show (decide (0xc2 ≤ 0xc0 + u / 64) && decide (0xc0 + u / 64 ≤ 0xdf)) = true by
            simp only [Bool.and_eq_true, decide_eq_true_eq]
            omega)]
      rw [hlead]
      show utf8DecGo 1 (0xc0 + u / 64 - 0xc0) 0x80 0xbf ((0x80 + u % 64) :: X) =
        u :: utf8DecGo 0 0 0x80 0xbf X
      rw [utf8DecGo]
      rw [if_neg (by decide),
        if_pos (show (decide (0x80 ≤ 0x80 + u % 64) && decide (0x80 + u % 64 ≤ 0xbf)) = true by
          simp only [Bool.and_eq_true, decide_eq_true_eq]
          omega),
        if_pos (show ((1 : Nat) == 1) = true from rfl)]
      have harith : (0xc0 + u / 64 - 0xc0) * 64 + (0x80 + u % 64 - 0x80) = u := by omega
      rw [harith]
      unfold emitCp
      rw [if_pos hu]
      rfl
    · split
      · next h1 h2 h3 =>
        exfalso
        rw [hhs, hls] at h3
        cases h3
      · split
        · next h1 h2 h3 h4 =>
          rw [List.cons_append, List.cons_append, List.cons_append, utf8DecGo_zero_cons]
          have hdiv : u / 64 / 64 = u / 0x1000 := by
            rw [Nat.div_div_eq_div_mul]
          have hlead : utf8Lead (0xe0 + u / 0x1000) =
              .inl (2, 0xe0 + u / 0x1000 - 0xe0,
                if (0xe0 + u / 0x1000 == 0xe0) = true then 0xa0 else 0x80,
                if (0xe0 + u / 0x1000 == 0xed) = true then 0x9f else 0xbf) := by
            unfold utf8Lead
            rw [if_neg (by omega),
              if_neg (show ¬ (decide (0xc2 ≤ 0xe0 + u / 0x1000) &&
                decide (0xe0 + u / 0x1000 ≤ 0xdf)) = true by
                simp only [Bool.and_eq_true, decide_eq_true_eq]
                omega),
              if_pos (show (decide (0xe0 ≤ 0xe0 + u / 0x1000) &&
                decide (0xe0 + u / 0x1000 ≤ 0xef)) = true by
                simp only [Bool.and_eq_true, decide_eq_true_eq]
                omega)]
          rw [hlead]
          show utf8DecGo 2 (0xe0 + u / 0x1000 - 0xe0) _ _
              ((0x80 + u / 64 % 64) :: (0x80 + u % 64) :: X) =
            u :: utf8DecGo 0 0 0x80 0xbf X
          rw [utf8DecGo]
          rw [if_neg (by decide),
            if_pos (show (decide ((if (0xe0 + u / 0x1000 == 0xe0) = true then 0xa0 else 0x80) ≤
                0x80 + u / 64 % 64) &&
              decide (0x80 + u / 64 % 64 ≤
                (if (0xe0 + u / 0x1000 == 0xed) = true then 0x9f else 0xbf))) = true by
              simp only [Bool.and_eq_true, decide_eq_true_eq]
              constructor
              · split
                · next he =>
                  have := beq_iff_eq.mp he
                  omega
                · omega
              · split
                · next he =>
                  have := beq_iff_eq.mp he
                  omega
                · omega),
            if_neg (by decide)]
          have hcp2 : (0xe0 + u / 0x1000 - 0xe0) * 64 + (0x80 + u / 64 % 64 - 0x80) = u / 64 := by
            omega
          rw [hcp2]
          rw [utf8DecGo]
          rw [if_neg (by decide),
            if_pos (show (decide (0x80 ≤ 0x80 + u % 64) && decide (0x80 + u % 64 ≤ 0xbf)) = true by
              simp only [Bool.and_eq_true, decide_eq_true_eq]
              omega),
            if_pos (show ((1 : Nat) == 1) = true from rfl)]
          have harith : u / 64 * 64 + (0x80 + u % 64 - 0x80) = u := by omega
          rw [harith]
          unfold emitCp
          rw [if_pos hu]
          rfl
        · next h1 h2 h3 h4 =>
          exfalso
          omega

/-- Decoding the UTF-8 encoding of a surrogate pair prepends the pair. -/
lemma decode_encodePair (hs ls : Nat) (hh : isHighSurrogate hs = true)
    (hl : isLowSurrogate ls = true) (X : List Nat) :
    utf8DecGo 0 0 0x80 0xbf (encodePair hs ls ++ X) =
      hs :: ls :: utf8DecGo 0 0 0x80 0xbf X := by
  unfold isHighSurrogate at hh
  unfold isLowSurrogate at hl
  simp only [Bool.and_eq_true, decide_eq_true_eq] at hh hl
  unfold encodePair
  set cp := 0x10000 + (hs - 0xd800) * 0x400 + (ls - 0xdc00) with hcp
  have hcplo : 0x10000 ≤ cp := by omega
  have hcphi : cp ≤ 0x10ffff := by omega
  have hdiv1 : cp / 64 / 64 = cp / 0x1000 := by rw [Nat.div_div_eq_div_mul]
  have hdiv2 : cp / 0x1000 / 64 = cp / 0x40000 := by rw [Nat.div_div_eq_div_mul]
  rw [List.cons_append, List.cons_append, List.cons_append, List.cons_append,
    utf8DecGo_zero_cons]
  have hlead : utf8Lead (0xf0 + cp / 0x40000) =
      .inl (3, 0xf0 + cp / 0x40000 - 0xf0,
        if (0xf0 + cp / 0x40000 == 0xf0) = true then 0x90 else 0x80,
        if (0xf0 + cp / 0x40000 == 0xf4) = true then 0x8f else 0xbf) := by
    unfold utf8Lead
    rw [if_neg (by omega),
      if_neg (show ¬ (decide (0xc2 ≤ 0xf0 + cp / 0x40000) &&
        decide (0xf0 + cp / 0x40000 ≤ 0xdf)) = true by
        simp only [Bool.and_eq_true, decide_eq_true_eq]
        omega),
      if_neg (show ¬ (decide (0xe0 ≤ 0xf0 + cp / 0x40000) &&
        decide (0xf0 + cp / 0x40000 ≤ 0xef)) = true by
        simp only [Bool.and_eq_true, decide_eq_true_eq]
        omega),
      if_pos (show (decide (0xf0 ≤ 0xf0 + cp / 0x40000) &&
        decide (0xf0 + cp / 0x40000 ≤ 0xf4)) = true by
        simp only [Bool.and_eq_true, decide_eq_true_eq]
        omega)]
  rw [hlead]
  show utf8DecGo 3 (0xf0 + cp / 0x40000 - 0xf0) _ _
      ((0x80 + cp / 0x1000 % 64) :: (0x80 + cp / 64 % 64) :: (0x80 + cp % 64) :: X) =
    hs :: ls :: utf8DecGo 0 0 0x80 0xbf X
  rw [utf8DecGo]
  rw [if_neg (by decide),
    if_pos (show (decide ((if (0xf0 + cp / 0x40000 == 0xf0) = true then 0x90 else 0x80) ≤
        0x80 + cp / 0x1000 % 64) &&
      decide (0x80 + cp / 0x1000 % 64 ≤
        (if (0xf0 + cp / 0x40000 == 0xf4) = true then 0x8f else 0xbf))) = true by
      simp only [Bool.and_eq_true, decide_eq_true_eq]
      constructor
      · split
        · next he =>
          have := beq_iff_eq.mp he
          omega
        · omega
      · split
        · next he =>
          have := beq_iff_eq.mp he
          omega
        · omega),
    if_neg (by decide)]
  have hcp2 : (0xf0 + cp / 0x40000 - 0xf0) * 64 + (0x80 + cp / 0x1000 % 64 - 0x80) =
      cp / 0x1000 := by omega
  rw [hcp2]
  rw [utf8DecGo]
  rw [if_neg (by decide),
    if_pos (show (decide (0x80 ≤ 0x80 + cp / 64 % 64) &&
      decide (0x80 + cp / 64 % 64 ≤ 0xbf)) = true by
      simp only [Bool.and_eq_true, decide_eq_true_eq]
      omega),
    if_neg (by decide)]
  have hcp3 : cp / 0x1000 * 64 + (0x80 + cp / 64 % 64 - 0x80) = cp / 64 := by omega
  rw [hcp3]
  rw [utf8DecGo]
  rw [if_neg (by decide),
    if_pos (show (decide (0x80 ≤ 0x80 + cp % 64) && decide (0x80 + cp % 64 ≤ 0xbf)) = true by
      simp only [Bool.and_eq_true, decide_eq_true_eq]
      omega),
    if_pos (show ((1 : Nat) == 1) = true from rfl)]
  have hcp4 : cp / 64 * 64 + (0x80 + cp % 64 - 0x80) = cp := by omega
  rw [hcp4]
  unfold emitCp
  rw [if_neg (by omega)]
  have hh' : 0xd800 + (cp - 0x10000) / 0x400 = hs := by omega
  have hl' : 0xdc00 + (cp - 0x10000) % 0x400 = ls := by omega
  rw [hh', hl']
  rfl

/-- `buffer.toString('utf8')` inverts `Buffer.from(s, 'utf8')` on scalar
strings. -/
lemma decode_encode_scalar {v : JSStr} (h : ScalarStr v) :
    utf8ToUtf16 (utf16ToUtf8 v) = v := by
  induction h with
  | nil => rfl
  | @unit u rest hu hhs hls _ ih =>
    show utf8ToUtf16 (utf16ToUtf8Go none (u :: rest)) = u :: rest
    rw [utf16ToUtf8Go, if_neg (by rw [hhs]; exact fun hx => Bool.noConfusion hx)]
    unfold utf8ToUtf16
    rw [decode_encodeUnit u hu hhs hls _]
    rw [show utf8DecGo 0 0 0x80 0xbf (utf16ToUtf8Go none rest) =
      utf8ToUtf16 (utf16ToUtf8 rest) from rfl, ih]
  | @pair hsu lsu rest hh hl _ ih =>
    show utf8ToUtf16 (utf16ToUtf8Go none (hsu :: lsu :: rest)) = hsu :: lsu :: rest
    rw [utf16ToUtf8Go, if_pos hh, utf16ToUtf8Go, if_pos hl]
    unfold utf8ToUtf16
    rw [decode_encodePair hsu lsu hh hl _]
    rw [show utf8DecGo 0 0 0x80 0xbf (utf16ToUtf8Go none rest) =
      utf8ToUtf16 (utf16ToUtf8 rest) from rfl, ih]

/-! ## Claim C1 machinery, part 2: scalar strings survive trimming; tokens -/

/-- `dropWhile` over a concatenation. -/
lemma dropWhile_append (p : Nat → Bool) (xs ys : JSStr) :
    (xs ++ ys).dropWhile p =
      if (xs.dropWhile p).isEmpty then ys.dropWhile p else xs.dropWhile p ++ ys := by
  induction xs with
  | nil => simp
  | cons x xs ih =>
    by_cases hx : p x = true
    · rw [List.cons_append, List.dropWhile_cons, if_pos hx, ih, List.dropWhile_cons, if_pos hx]
    · have hdw : (x :: xs).dropWhile p = x :: xs := by
        rw [List.dropWhile_cons, if_neg hx]
      rw [List.cons_append, List.dropWhile_cons, if_neg hx, hdw,
        if_neg (by simp)]
      rfl

/-- Surrogate code units are not JS whitespace. -/
lemma surrogate_not_ws {u : Nat} (h1 : 0xd800 ≤ u) (h2 : u ≤ 0xdfff) : isJsWs u = false := by
  unfold isJsWs
  simp only [Bool.or_eq_false_iff, beq_eq_false_iff_ne, ne_eq, Bool.and_eq_false_iff,
    decide_eq_false_iff_not]
  omega

/-- Left whitespace-trimming preserves scalarity. -/
lemma ScalarStr_dropWhileWs {s : JSStr} (h : ScalarStr s) :
    ScalarStr (s.dropWhile isJsWs) := by
  induction h with
  | nil => exact ScalarStr.nil
  | @unit u rest h1 h2 h3 hrest ih =>
    rw [List.dropWhile_cons]
    split
    · exact ih
    · exact ScalarStr.unit h1 h2 h3 hrest
  | @pair hu lu rest hh hl hrest ih =>
    have hws : isJsWs hu = false := by
      unfold isHighSurrogate at hh
      simp only [Bool.and_eq_true, decide_eq_true_eq] at hh
      exact surrogate_not_ws (by omega) (by omega)
    rw [List.dropWhile_cons, if_neg (by rw [hws]; exact fun h => Bool.noConfusion h)]
    exact ScalarStr.pair hh hl hrest

/-- Right whitespace-trimming preserves scalarity. -/
lemma ScalarStr_rdropWs {s : JSStr} (h : ScalarStr s) :
    ScalarStr ((s.reverse.dropWhile isJsWs).reverse) := by
  induction h with
  | nil => exact ScalarStr.nil
  | @unit u rest h1 h2 h3 hrest ih =>
    rw [List.reverse_cons, dropWhile_append]
    split
    · rw [List.dropWhile_cons]
      split
      · exact ScalarStr.nil
      · exact ScalarStr.unit h1 h2 h3 ScalarStr.nil
    · rw [List.reverse_append, List.reverse_cons, List.reverse_nil, List.nil_append,
        List.singleton_append]
      exact ScalarStr.unit h1 h2 h3 ih
  | @pair hu lu rest hh hl hrest ih =>
    have hlws : isJsWs lu = false := by
      unfold isLowSurrogate at hl
      simp only [Bool.and_eq_true, decide_eq_true_eq] at hl
      exact surrogate_not_ws (by omega) (by omega)
    have hrw : (hu :: lu :: rest).reverse = rest.reverse ++ [lu] ++ [hu] := by
      rw [List.reverse_cons, List.reverse_cons, List.append_assoc]
    rw [hrw, dropWhile_append, dropWhile_append]
    by_cases hre : (rest.reverse.dropWhile isJsWs).isEmpty = true
    · rw [if_pos hre]
      rw [show ([lu].dropWhile isJsWs) = [lu] by
        rw [List.dropWhile_cons, if_neg (by rw [hlws]; exact fun h => Bool.noConfusion h)]]
      rw [if_neg (by simp)]
      rw [List.singleton_append, List.reverse_cons, List.reverse_cons, List.reverse_nil,
        List.nil_append]
      exact ScalarStr.pair hh hl ScalarStr.nil
    · rw [if_neg hre, if_neg (by
        intro hx
        rw [List.isEmpty_iff] at hx
        rw [List.isEmpty_iff] at hre
        exact hre (List.append_eq_nil.mp hx).1)]
      rw [List.append_assoc, List.reverse_append]
      rw [show ([lu] ++ [hu]).reverse = [hu, lu] from rfl]
      exact ScalarStr.pair hh hl ih

/-- `String.prototype.trim` preserves scalarity. -/
lemma ScalarStr_jsTrim {s : JSStr} (h : ScalarStr s) : ScalarStr (jsTrim s) :=
  ScalarStr_rdropWs (ScalarStr_dropWhileWs h)

/-- `encodeUnit` of a non-backslash unit contains no backslash byte. -/
lemma encodeUnit_no5c {u : Nat} (hu : u ≠ 0x5c) : ∀ b ∈ encodeUnit u, b ≠ 0x5c := by
  intro b hb
  unfold encodeUnit at hb
  split at hb
  · rw [List.mem_singleton] at hb
    subst hb
    exact hu
  · split at hb
    · simp only [List.mem_cons, List.not_mem_nil, or_false] at hb
      rcases hb with rfl | rfl <;> omega
    · split at hb
      · simp only [List.mem_cons, List.not_mem_nil, or_false] at hb
        rcases hb with rfl | rfl | rfl <;> omega
      · split at hb
        · simp only [List.mem_cons, List.not_mem_nil, or_false] at hb
          rcases hb with rfl | rfl | rfl <;> omega
        · simp only [List.mem_cons, List.not_mem_nil, or_false] at hb
          rcases hb with rfl | rfl | rfl <;> omega

/-- The UTF-8 encoding of a backslash-free string is backslash-free. -/
lemma utf16ToUtf8Go_no5c :
    ∀ (v : JSStr) (pend : Option Nat), (∀ u ∈ v, u ≠ 0x5c) →
      ∀ b ∈ utf16ToUtf8Go pend v, b ≠ 0x5c := by
  intro v
  induction v with
  | nil =>
    intro pend _ b hb
    cases pend with
    | none => cases hb
    | some hs =>
      rw [utf16ToUtf8Go] at hb
      simp only [List.mem_cons, List.not_mem_nil, or_false] at hb
      rcases hb with rfl | rfl | rfl <;> omega
  | cons u rest ih =>
    intro pend hv b hb
    have hu : u ≠ 0x5c := hv u (List.mem_cons_self u rest)
    have hrest : ∀ x ∈ rest, x ≠ 0x5c := fun x hx => hv x (List.mem_cons_of_mem u hx)
    cases pend with
    | none =>
      rw [utf16ToUtf8Go] at hb
      split at hb
      · exact ih (some u) hrest b hb
      · rcases List.mem_append.mp hb with h | h
        · exact encodeUnit_no5c hu b h
        · exact ih none hrest b h
    | some hs =>
      rw [utf16ToUtf8Go] at hb
      split at hb
      · rcases List.mem_append.mp hb with h | h
        · unfold encodePair at h
          dsimp only [] at h
          simp only [List.mem_cons, List.not_mem_nil, or_false] at h
          rcases h with h | h | h | h <;> omega
        · exact ih none hrest b h
      · split at hb
        · simp only [List.mem_cons] at hb
          rcases hb with h | h | h | h
          · omega
          · omega
          · omega
          · exact ih (some u) hrest b h
        · simp only [List.mem_cons] at hb
          rcases hb with h | h | h | h
          · omega
          · omega
          · omega
          · rcases List.mem_append.mp h with h2 | h2
            · exact encodeUnit_no5c hu b h2
            · exact ih none hrest b h2

/-- One token of the escaped value text: a literal ASCII byte, or a group of
1–4 bytes each rendered as a `\xy` escape. -/
inductive EscTok where
  | lit (b : Nat)
  | esc (bs : List Nat)
deriving Repr, DecidableEq

/-- The value bytes a token stands for. -/
def tokBytes : EscTok → List Nat
  | .lit b => [b]
  | .esc bs => bs

/-- The characters a token contributes to the escaped text. -/
def tokFlat : EscTok → JSStr
  | .lit b => [b]
  | .esc bs => bs.flatMap toEscapedHexString

/-- Well-formedness of an escape group: one non-lead byte or a 2/3/4-byte
sequence with an in-range lead, all bytes below 256. -/
def GrpOK (bs : List Nat) : Prop :=
  (∀ x ∈ bs, x < 256) ∧
    ((∃ b, bs = [b] ∧ b < 0xc0) ∨
     (∃ b c1, bs = [b, c1] ∧ 0xc0 ≤ b ∧ b ≤ 0xdf) ∨
     (∃ b c1 c2, bs = [b, c1, c2] ∧ 0xe0 ≤ b ∧ b ≤ 0xef) ∨
     (∃ b c1 c2 c3, bs = [b, c1, c2, c3] ∧ 0xf0 ≤ b ∧ b ≤ 0xf7))

/-- Well-formedness of a token, as produced by `escapeValue` on well-formed
backslash-free UTF-8: a literal is a safe ASCII byte (never a quote,
backslash or end character); an escape group is a well-formed byte group. -/
def TokOK : EscTok → Prop
  | .lit b => b ≤ 0x7f ∧ b ≠ 0x22 ∧ b ≠ 0x5c ∧ isEndChar b = false
  | .esc bs => GrpOK bs

/-- The escape loop on well-formed backslash-free UTF-8 succeeds, and its
output decomposes into literal and escape-group tokens that jointly cover the
input bytes; with `first = true` a leading literal token is neither a space
nor `#`. -/
lemma escapeBytesGo_tokens {l : List Nat} (hwf : Utf8WF l) :
    ∀ first, 0x5c ∉ l →
      ∃ toks : List EscTok,
        escapeBytesGo 0 first l = some (toks.flatMap tokFlat) ∧
        l = toks.flatMap tokBytes ∧
        (∀ t ∈ toks, TokOK t) ∧
        (first = true → ∀ b2 ts, toks = .lit b2 :: ts → b2 ≠ 0x20 ∧ b2 ≠ 0x23) := by
  induction hwf with
  | nil =>
    intro first _
    exact ⟨[], rfl, rfl, fun t ht => absurd ht (List.not_mem_nil t),
      fun _ b2 ts h => List.noConfusion h⟩
  | @one b rest hb _ ih =>
    intro first hno
    have hb5 : b ≠ 0x5c := fun h => hno (h ▸ List.mem_cons_self b rest)
    have hnorest : 0x5c ∉ rest := fun h => hno (List.mem_cons_of_mem b h)
    obtain ⟨toks, hout, hcov, hok, _⟩ := ih false hnorest
    have hescCase :
        ∃ toks2 : List EscTok,
          ((toEscapedHexString b ++ ·) <$> escapeBytesGo 0 false rest) =
            some (toks2.flatMap tokFlat) ∧
          b :: rest = toks2.flatMap tokBytes ∧
          (∀ t ∈ toks2, TokOK t) ∧
          (first = true → ∀ b2 ts, toks2 = .lit b2 :: ts → b2 ≠ 0x20 ∧ b2 ≠ 0x23) := by
      refine ⟨.esc [b] :: toks, ?_, ?_, ?_, ?_⟩
      · rw [hout]
        simp only [Option.map_eq_map, Option.map_some, List.flatMap_cons, tokFlat,
          List.flatMap_nil, List.append_nil]
      · simp only [List.flatMap_cons, tokBytes, List.singleton_append, List.cons.injEq,
          true_and]
        exact hcov
      · intro t ht
        rcases List.mem_cons.mp ht with rfl | ht2
        · exact ⟨fun x hx => by
            rcases List.mem_singleton.mp hx with rfl
            omega,
            Or.inl ⟨b, rfl, by omega⟩⟩
        · exact hok t ht2
      · intro _ b2 ts h
        injection h with h1 _
        injection h1
    rw [escapeBytesGo]
    split
    · exact hescCase
    · split
      · exact hescCase
      · split
        · exact hescCase
        · split
          · next hcond =>
            exfalso
            simp only [Bool.and_eq_true, decide_eq_true_eq] at hcond
            omega
          · split
            · next hcond =>
              exfalso
              simp only [Bool.and_eq_true, decide_eq_true_eq] at hcond
              omega
            · split
              · next hcond =>
                exfalso
                simp only [Bool.and_eq_true, decide_eq_true_eq] at hcond
                omega
              · split
                · exact hescCase
                · next h1 h2 h3 h4 h5 h6 h7 =>
                  refine ⟨.lit b :: toks, ?_, ?_, ?_, ?_⟩
                  · rw [hout]
                    simp only [Option.map_eq_map, Option.map_some, List.flatMap_cons, tokFlat,
                      List.singleton_append]
                  · simp only [List.flatMap_cons, tokBytes, List.singleton_append,
                      List.cons.injEq, true_and]
                    exact hcov
                  · intro t ht
                    rcases List.mem_cons.mp ht with rfl | ht2
                    · unfold isEmbeddedReserved at h3
                      simp only [Bool.or_eq_true, beq_iff_eq, not_or] at h3
                      refine ⟨hb, by omega, hb5, ?_⟩
                      unfold isEndChar
                      simp only [Bool.or_eq_false_iff, beq_eq_false_iff_ne, ne_eq]
                      omega
                    · exact hok t ht2
                  · intro hfirst b2 ts h
                    injection h with hlit _
                    injection hlit with hbe
                    subst hbe
                    subst hfirst
                    simp only [Bool.true_and, Bool.or_eq_true, beq_iff_eq, not_or] at h1
                    exact h1
  | @two b c1 rest hb1 hb2 hc1 _ ih =>
    intro first hno
    have hnorest : 0x5c ∉ rest :=
      fun h => hno (List.mem_cons_of_mem b (List.mem_cons_of_mem c1 h))
    obtain ⟨toks, hout, hcov, hok, _⟩ := ih false hnorest
    unfold isCont at hc1
    simp only [Bool.and_eq_true, decide_eq_true_eq] at hc1
    refine ⟨.esc [b, c1] :: toks, ?_, ?_, ?_, ?_⟩
    · rw [escapeBytesGo_zero_cons_high first b _ (by omega),
        if_pos (show (0xc0 ≤ b && b ≤ 0xdf) = true by
          simp only [Bool.and_eq_true, decide_eq_true_eq]; omega),
        escapeBytesGo_pend, hout]
      simp only [Option.map_eq_map, Option.map_some, List.flatMap_cons, tokFlat,
        List.flatMap_nil, List.append_nil, List.append_assoc]
    · simp only [List.flatMap_cons, tokBytes, List.cons_append, List.nil_append,
        List.cons.injEq, true_and]
      exact hcov
    · intro t ht
      rcases List.mem_cons.mp ht with rfl | ht2
      · refine ⟨fun x hx => ?_, Or.inr (Or.inl ⟨b, c1, rfl, by omega, by omega⟩)⟩
        simp only [List.mem_cons, List.not_mem_nil, or_false] at hx
        rcases hx with rfl | rfl <;> omega
      · exact hok t ht2
    · intro _ b2 ts h
      injection h with h1 _
      injection h1
  | @three b c1 c2 rest hb1 hb2 hc1 hc2 _ ih =>
    intro first hno
    have hnorest : 0x5c ∉ rest :=
      fun h => hno (List.mem_cons_of_mem b (List.mem_cons_of_mem c1
        (List.mem_cons_of_mem c2 h)))
    obtain ⟨toks, hout, hcov, hok, _⟩ := ih false hnorest
    unfold isCont at hc1 hc2
    simp only [Bool.and_eq_true, decide_eq_true_eq] at hc1 hc2
    refine ⟨.esc [b, c1, c2] :: toks, ?_, ?_, ?_, ?_⟩
    · rw [escapeBytesGo_zero_cons_high first b _ (by omega),
        if_neg (show ¬ (0xc0 ≤ b && b ≤ 0xdf) = true by
          simp only [Bool.and_eq_true, decide_eq_true_eq]; omega),
        if_pos (show (0xe0 ≤ b && b ≤ 0xef) = true by
          simp only [Bool.and_eq_true, decide_eq_true_eq]; omega),
        escapeBytesGo_pend, escapeBytesGo_pend, hout]
      simp only [Option.map_eq_map, Option.map_some, List.flatMap_cons, tokFlat,
        List.flatMap_nil, List.append_nil, List.append_assoc]
    · simp only [List.flatMap_cons, tokBytes, List.cons_append, List.nil_append,
        List.cons.injEq, true_and]
      exact hcov
    · intro t ht
      rcases List.mem_cons.mp ht with rfl | ht2
      · refine ⟨fun x hx => ?_, Or.inr (Or.inr (Or.inl ⟨b, c1, c2, rfl, by omega, by omega⟩))⟩
        simp only [List.mem_cons, List.not_mem_nil, or_false] at hx
        rcases hx with rfl | rfl | rfl <;> omega
      · exact hok t ht2
    · intro _ b2 ts h
      injection h with h1 _
      injection h1
  | @four b c1 c2 c3 rest hb1 hb2 hc1 hc2 hc3 _ ih =>
    intro first hno
    have hnorest : 0x5c ∉ rest :=
      fun h => hno (List.mem_cons_of_mem b (List.mem_cons_of_mem c1
        (List.mem_cons_of_mem c2 (List.mem_cons_of_mem c3 h))))
    obtain ⟨toks, hout, hcov, hok, _⟩ := ih false hnorest
    unfold isCont at hc1 hc2 hc3
    simp only [Bool.and_eq_true, decide_eq_true_eq] at hc1 hc2 hc3
    refine ⟨.esc [b, c1, c2, c3] :: toks, ?_, ?_, ?_, ?_⟩
    · rw [escapeBytesGo_zero_cons_high first b _ (by omega),
        if_neg (show ¬ (0xc0 ≤ b && b ≤ 0xdf) = true by
          simp only [Bool.and_eq_true, decide_eq_true_eq]; omega),
        if_neg (show ¬ (0xe0 ≤ b && b ≤ 0xef) = true by
          simp only [Bool.and_eq_true, decide_eq_true_eq]; omega),
        if_pos (show (0xf0 ≤ b && b ≤ 0xf7) = true by
          simp only [Bool.and_eq_true, decide_eq_true_eq]; omega),
        escapeBytesGo_pend, escapeBytesGo_pend, escapeBytesGo_pend, hout]
      simp only [Option.map_eq_map, Option.map_some, List.flatMap_cons, tokFlat,
        List.flatMap_nil, List.append_nil, List.append_assoc]
    · simp only [List.flatMap_cons, tokBytes, List.cons_append, List.nil_append,
        List.cons.injEq, true_and]
      exact hcov
    · intro t ht
      rcases List.mem_cons.mp ht with rfl | ht2
      · refine ⟨fun x hx => ?_,
          Or.inr (Or.inr (Or.inr ⟨b, c1, c2, c3, rfl, by omega, by omega⟩))⟩
        simp only [List.mem_cons, List.not_mem_nil, or_false] at hx
        rcases hx with rfl | rfl | rfl | rfl <;> omega
      · exact hok t ht2
    · intro _ b2 ts h
      injection h with h1 _
      injection h1

/-! ## Claim C1 machinery, part 3: reading the printed text back -/

/-- Reading an appended list at the junction reads the suffix head. -/
lemma get?_here (pre : List Nat) (c : Nat) (t : List Nat) :
    (pre ++ c :: t).get? pre.length = some c := by
  have h := get?_append_off pre (c :: t) 0
  simpa using h

/-- `chAt` at the junction of an appended list. -/
lemma chAt_here (pre : List Nat) (c : Nat) (t : List Nat) :
    chAt (pre ++ c :: t) pre.length = c := by
  unfold chAt
  rw [get?_here]
  rfl

/-- The space-skipping loop does not move off a non-space position. -/
lemma skipSpacesGo_stop (buf : List Nat) (pos : Nat)
    (h : ∀ c, buf.get? pos = some c → c ≠ 0x20) :
    ∀ fuel, skipSpacesGo buf fuel pos = pos := by
  intro fuel
  cases fuel with
  | zero => rfl
  | succ f =>
    rw [skipSpacesGo]
    cases hget : buf.get? pos with
    | none => simp only [hget]
    | some c =>
      simp only [hget]
      rw [if_neg (by
        rw [beq_eq_false_iff_ne.mpr (h c hget)]
        exact fun hx => Bool.noConfusion hx)]

/-- `skipSpaces` does not move off a non-space position. -/
lemma skipSpaces_stop (buf : List Nat) (pos : Nat)
    (h : ∀ c, buf.get? pos = some c → c ≠ 0x20) :
    skipSpaces buf pos = pos :=
  skipSpacesGo_stop buf pos h _

/-- `findNameStart` answers an alphanumeric lead character immediately. -/
lemma findNameStartGo_here (buf : List Nat) (pos : Nat) (c : Nat)
    (hget : buf.get? pos = some c) (hc : (isAsciiAlpha c || isAsciiDigit c) = true) :
    ∀ fuel, findNameStartGo buf (fuel + 1) pos = Int.ofNat pos := by
  intro fuel
  have hran : (0x41 ≤ c ∧ c ≤ 0x5a) ∨ (0x61 ≤ c ∧ c ≤ 0x7a) ∨ (0x30 ≤ c ∧ c ≤ 0x39) := by
    unfold isAsciiAlpha isAsciiDigit at hc
    simp only [Bool.or_eq_true, Bool.and_eq_true, decide_eq_true_eq] at hc
    tauto
  rw [findNameStartGo]
  simp only [hget]
  rw [if_neg (by
    rw [beq_eq_false_iff_ne.mpr (show c ≠ 0x20 by omega),
      beq_eq_false_iff_ne.mpr (show c ≠ 0x2c by omega)]
    simp)]
  rw [if_pos hc]

/-- `findNameStart` wrapper form of `findNameStartGo_here`. -/
lemma findNameStart_here (buf : List Nat) (pos : Nat) (c : Nat)
    (hget : buf.get? pos = some c) (hc : (isAsciiAlpha c || isAsciiDigit c) = true) :
    findNameStart buf pos = Int.ofNat pos := by
  unfold findNameStart
  exact findNameStartGo_here buf pos c hget hc _

/-- Valid name characters are neither space nor equals and are ASCII. -/
lemma nameChar_bounds {c : Nat} (h : isValidNameChar c = true) :
    c ≠ 0x20 ∧ c ≠ 0x3d ∧ c ≤ 0x7f := by
  unfold isValidNameChar isAsciiAlpha isAsciiDigit at h
  simp only [Bool.or_eq_true, Bool.and_eq_true, decide_eq_true_eq, beq_iff_eq] at h
  omega

/-- The name-end scan walks a buffered name of valid characters up to the
equals sign that follows it. -/
lemma findNameEndGo_name :
    ∀ (name pre rest : List Nat) (fuel : Nat),
      (∀ c ∈ name, isValidNameChar c = true) →
      name.length + 1 ≤ fuel →
      findNameEndGo (pre ++ name ++ 0x3d :: rest) fuel pre.length =
        Int.ofNat (pre.length + name.length) := by
  intro name
  induction name with
  | nil =>
    intro pre rest fuel _ hfuel
    obtain ⟨f, rfl⟩ : ∃ f, fuel = f + 1 := ⟨fuel - 1, by omega⟩
    rw [findNameEndGo]
    rw [show (pre ++ [] ++ 0x3d :: rest) = pre ++ 0x3d :: rest by simp]
    simp only [get?_here]
    rw [if_pos (by decide)]
    simp
  | cons c cs ih =>
    intro pre rest fuel hval hfuel
    obtain ⟨f, rfl⟩ : ∃ f, fuel = f + 1 := ⟨fuel - 1, by omega⟩
    have hc := hval c (List.mem_cons_self c cs)
    obtain ⟨h20, h3d, _⟩ := nameChar_bounds hc
    rw [findNameEndGo]
    rw [show (pre ++ (c :: cs) ++ 0x3d :: rest) = pre ++ c :: (cs ++ 0x3d :: rest) by simp]
    simp only [get?_here]
    rw [if_neg (by
      rw [beq_eq_false_iff_ne.mpr h20, beq_eq_false_iff_ne.mpr h3d]
      simp)]
    rw [if_pos hc]
    have hrw : pre ++ c :: (cs ++ 0x3d :: rest) = (pre ++ [c]) ++ cs ++ 0x3d :: rest := by
      simp
    rw [hrw]
    rw [show pre.length + 1 = (pre ++ [c]).length by simp]
    rw [ih (pre ++ [c]) rest f (fun x hx => hval x (List.mem_cons_of_mem c hx))
      (by simp at hfuel ⊢; omega)]
    exact congrArg Int.ofNat (by
      simp only [List.length_append, List.length_nil, List.length_cons]
      omega)

/-- Extracting the middle segment of a three-part concatenation. -/
lemma extract_mid (pre mid rest : List Nat) :
    ((pre ++ mid ++ rest).take (pre.length + mid.length)).drop pre.length = mid := by
  rw [List.append_assoc, List.take_append]
  rw [show (mid ++ rest).take mid.length = mid from by
    rw [List.take_append_of_le_length (le_refl mid.length), List.take_length]]
  rw [List.drop_left]

/-- `subarray` extracts the middle segment of a three-part concatenation. -/
lemma jsSubarray_mid (pre mid rest : List Nat) :
    jsSubarray (pre ++ mid ++ rest) pre.length (Int.ofNat (pre.length + mid.length)) = mid := by
  unfold jsSubarray
  dsimp only []
  rw [show (Int.ofNat (pre.length + mid.length)) =
    ((pre.length + mid.length : Nat) : Int) from rfl]
  rw [if_neg (by omega)]
  rw [if_neg (by omega)]
  rw [Int.toNat_natCast]
  rw [min_eq_left (by simp only [List.length_append]; omega)]
  exact extract_mid pre mid rest

/-- The lowercase hex digit of a value below 16: a hex digit with that value,
and never whitespace, sign, or `x`/`X`. -/
lemma hexDigitLower_facts (n : Nat) (h : n < 16) :
    isHexDigit (hexDigitLower n) = true ∧ hexVal (hexDigitLower n) = n ∧
      isPIWs (hexDigitLower n) = false ∧ hexDigitLower n ≠ 0x2b ∧ hexDigitLower n ≠ 0x2d ∧
      hexDigitLower n ≠ 0x78 ∧ hexDigitLower n ≠ 0x58 := by
  unfold hexDigitLower
  by_cases hn : n < 10
  · rw [if_pos hn]
    refine ⟨?_, ?_, ?_, by omega, by omega, by omega, by omega⟩
    · unfold isHexDigit isAsciiDigit
      simp only [Bool.or_eq_true, Bool.and_eq_true, decide_eq_true_eq]
      omega
    · unfold hexVal
      rw [if_pos (by
        unfold isAsciiDigit
        simp only [Bool.and_eq_true, decide_eq_true_eq]
        omega)]
      omega
    · unfold isPIWs
      simp only [Bool.or_eq_false_iff, beq_eq_false_iff_ne, ne_eq]
      omega
  · rw [if_neg hn]
    refine ⟨?_, ?_, ?_, by omega, by omega, by omega, by omega⟩
    · unfold isHexDigit isAsciiDigit
      simp only [Bool.or_eq_true, Bool.and_eq_true, decide_eq_true_eq]
      omega
    · unfold hexVal
      rw [if_neg (by
        unfold isAsciiDigit
        simp only [Bool.and_eq_true, decide_eq_true_eq, not_and]
        omega)]
      rw [if_neg (by
        simp only [Bool.and_eq_true, decide_eq_true_eq, not_and]
        omega)]
      omega
    · unfold isPIWs
      simp only [Bool.or_eq_false_iff, beq_eq_false_iff_ne, ne_eq]
      omega

/-- `parseInt(hexPair, 16)` inverts the printer's lowercase hex pair. -/
lemma jsParseIntHex2_pair (b : Nat) (hb : b < 256) :
    jsParseIntHex2 (hexDigitLower (b / 16 % 16)) (hexDigitLower (b % 16)) =
      some (Int.ofNat b) := by
  obtain ⟨ha1, ha2, ha3, ha4, ha5, _, _⟩ := hexDigitLower_facts (b / 16 % 16) (by omega)
  obtain ⟨hb1, hb2, _, _, _, hb6, hb7⟩ := hexDigitLower_facts (b % 16) (by omega)
  unfold jsParseIntHex2
  rw [if_neg (by rw [ha3]; exact fun hx => Bool.noConfusion hx)]
  rw [if_neg (by rw [beq_eq_false_iff_ne.mpr ha4]; exact fun hx => Bool.noConfusion hx)]
  rw [if_neg (by rw [beq_eq_false_iff_ne.mpr ha5]; exact fun hx => Bool.noConfusion hx)]
  rw [if_neg (by
    rw [beq_eq_false_iff_ne.mpr hb6, beq_eq_false_iff_ne.mpr hb7]
    simp)]
  rw [if_pos ha1, if_pos hb1, ha2, hb2]
  congr 1
  congr 1
  omega

/-- `Buffer.from` element conversion is the identity on in-range bytes. -/
lemma toUint8_byte (b : Nat) (hb : b < 256) : toUint8 (some (Int.ofNat b)) = b := by
  show (((b : Nat) : Int) % 256).toNat = b
  omega

/-- One iteration of the escape-sequence reader consumes one printed escape
group, pushing the group's raw bytes. -/
lemma readEscSeqGo_group (buf pre post : List Nat) (g : List Nat)
    (acc : List (Option Int)) (fuel : Nat) (hg : GrpOK g)
    (hbuf : buf = pre ++ g.flatMap toEscapedHexString ++ post) :
    readEscapeSequenceGo buf (fuel + 1) pre.length acc =
      readEscapeSequenceGo buf fuel
        (pre.length + (g.flatMap toEscapedHexString).length)
        (acc ++ g.map (fun x => some (Int.ofNat x))) := by
  obtain ⟨hlt, hshape⟩ := hg
  rcases hshape with ⟨b, rfl, hb⟩ | ⟨b, c1, rfl, hb1, hb2⟩ | ⟨b, c1, c2, rfl, hb1, hb2⟩ |
    ⟨b, c1, c2, c3, rfl, hb1, hb2⟩
  · have hb256 : b < 256 := hlt b (by simp)
    have hflat : [b].flatMap toEscapedHexString =
        [0x5c, hexDigitLower (b / 16 % 16), hexDigitLower (b % 16)] := by
      simp [toEscapedHexString, hexPairLower]
    rw [hflat] at hbuf ⊢
    subst hbuf
    rw [List.append_assoc]
    simp only [List.cons_append, List.nil_append]
    rw [readEscapeSequenceGo]
    simp only [get?_here, bne_self_eq_false, Bool.false_eq_true, if_false]
    have h1 : chAt (pre ++ 0x5c :: hexDigitLower (b / 16 % 16) ::
        hexDigitLower (b % 16) :: post) (pre.length + 1) = hexDigitLower (b / 16 % 16) := by
      rw [chAt_append_off]
      rfl
    have h2 : chAt (pre ++ 0x5c :: hexDigitLower (b / 16 % 16) ::
        hexDigitLower (b % 16) :: post) (pre.length + 2) = hexDigitLower (b % 16) := by
      rw [chAt_append_off]
      rfl
    rw [h1, h2, jsParseIntHex2_pair b hb256]
    simp only []
    rw [if_neg (by simp only [Int.ofNat_eq_natCast]; omega)]
    rw [if_neg (by simp only [Int.ofNat_eq_natCast]; omega)]
    rw [if_neg (by simp only [Int.ofNat_eq_natCast]; omega)]
    simp
  · have hb256 : b < 256 := hlt b (by simp)
    have hc256 : c1 < 256 := hlt c1 (by simp)
    have hflat : [b, c1].flatMap toEscapedHexString =
        [0x5c, hexDigitLower (b / 16 % 16), hexDigitLower (b % 16),
         0x5c, hexDigitLower (c1 / 16 % 16), hexDigitLower (c1 % 16)] := by
      simp [toEscapedHexString, hexPairLower]
    rw [hflat] at hbuf ⊢
    subst hbuf
    rw [List.append_assoc]
    simp only [List.cons_append, List.nil_append]
    rw [readEscapeSequenceGo]
    simp only [get?_here, bne_self_eq_false, Bool.false_eq_true, if_false]
    have h1 : chAt (pre ++ 0x5c :: hexDigitLower (b / 16 % 16) :: hexDigitLower (b % 16) ::
        0x5c :: hexDigitLower (c1 / 16 % 16) :: hexDigitLower (c1 % 16) :: post)
        (pre.length + 1) = hexDigitLower (b / 16 % 16) := by
      rw [chAt_append_off]
      rfl
    have h2 : chAt (pre ++ 0x5c :: hexDigitLower (b / 16 % 16) :: hexDigitLower (b % 16) ::
        0x5c :: hexDigitLower (c1 / 16 % 16) :: hexDigitLower (c1 % 16) :: post)
        (pre.length + 2) = hexDigitLower (b % 16) := by
      rw [chAt_append_off]
      rfl
    have h4 : chAt (pre ++ 0x5c :: hexDigitLower (b / 16 % 16) :: hexDigitLower (b % 16) ::
        0x5c :: hexDigitLower (c1 / 16 % 16) :: hexDigitLower (c1 % 16) :: post)
        (pre.length + 4) = hexDigitLower (c1 / 16 % 16) := by
      rw [chAt_append_off]
      rfl
    have h5 : chAt (pre ++ 0x5c :: hexDigitLower (b / 16 % 16) :: hexDigitLower (b % 16) ::
        0x5c :: hexDigitLower (c1 / 16 % 16) :: hexDigitLower (c1 % 16) :: post)
        (pre.length + 5) = hexDigitLower (c1 % 16) := by
      rw [chAt_append_off]
      rfl
    rw [h1, h2, jsParseIntHex2_pair b hb256]
    simp only []
    rw [if_pos (by simp only [Int.ofNat_eq_natCast]; omega)]
    rw [h4, h5, jsParseIntHex2_pair c1 hc256]
    simp
  · have hb256 : b < 256 := hlt b (by simp)
    have hc256 : c1 < 256 := hlt c1 (by simp)
    have hd256 : c2 < 256 := hlt c2 (by simp)
    have hflat : [b, c1, c2].flatMap toEscapedHexString =
        [0x5c, hexDigitLower (b / 16 % 16), hexDigitLower (b % 16),
         0x5c, hexDigitLower (c1 / 16 % 16), hexDigitLower (c1 % 16),
         0x5c, hexDigitLower (c2 / 16 % 16), hexDigitLower (c2 % 16)] := by
      simp [toEscapedHexString, hexPairLower]
    rw [hflat] at hbuf ⊢
    subst hbuf
    rw [List.append_assoc]
    simp only [List.cons_append, List.nil_append]
    rw [readEscapeSequenceGo]
    simp only [get?_here, bne_self_eq_false, Bool.false_eq_true, if_false]
    have h1 : chAt (pre ++ 0x5c :: hexDigitLower (b / 16 % 16) :: hexDigitLower (b % 16) ::
        0x5c :: hexDigitLower (c1 / 16 % 16) :: hexDigitLower (c1 % 16) ::
        0x5c :: hexDigitLower (c2 / 16 % 16) :: hexDigitLower (c2 % 16) :: post)
        (pre.length + 1) = hexDigitLower (b / 16 % 16) := by
      rw [chAt_append_off]
      rfl
    have h2 : chAt (pre ++ 0x5c :: hexDigitLower (b / 16 % 16) :: hexDigitLower (b % 16) ::
        0x5c :: hexDigitLower (c1 / 16 % 16) :: hexDigitLower (c1 % 16) ::
        0x5c :: hexDigitLower (c2 / 16 % 16) :: hexDigitLower (c2 % 16) :: post)
        (pre.length + 2) = hexDigitLower (b % 16) := by
      rw [chAt_append_off]
      rfl
    have h4 : chAt (pre ++ 0x5c :: hexDigitLower (b / 16 % 16) :: hexDigitLower (b % 16) ::
        0x5c :: hexDigitLower (c1 / 16 % 16) :: hexDigitLower (c1 % 16) ::
        0x5c :: hexDigitLower (c2 / 16 % 16) :: hexDigitLower (c2 % 16) :: post)
        (pre.length + 4) = hexDigitLower (c1 / 16 % 16) := by
      rw [chAt_append_off]
      rfl
    have h5 : chAt (pre ++ 0x5c :: hexDigitLower (b / 16 % 16) :: hexDigitLower (b % 16) ::
        0x5c :: hexDigitLower (c1 / 16 % 16) :: hexDigitLower (c1 % 16) ::
        0x5c :: hexDigitLower (c2 / 16 % 16) :: hexDigitLower (c2 % 16) :: post)
        (pre.length + 5) = hexDigitLower (c1 % 16) := by
      rw [chAt_append_off]
      rfl
    have h7 : chAt (pre ++ 0x5c :: hexDigitLower (b / 16 % 16) :: hexDigitLower (b % 16) ::
        0x5c :: hexDigitLower (c1 / 16 % 16) :: hexDigitLower (c1 % 16) ::
        0x5c :: hexDigitLower (c2 / 16 % 16) :: hexDigitLower (c2 % 16) :: post)
        (pre.length + 7) = hexDigitLower (c2 / 16 % 16) := by
      rw [chAt_append_off]
      rfl
    have h8 : chAt (pre ++ 0x5c :: hexDigitLower (b / 16 % 16) :: hexDigitLower (b % 16) ::
        0x5c :: hexDigitLower (c1 / 16 % 16) :: hexDigitLower (c1 % 16) ::
        0x5c :: hexDigitLower (c2 / 16 % 16) :: hexDigitLower (c2 % 16) :: post)
        (pre.length + 8) = hexDigitLower (c2 % 16) := by
      rw [chAt_append_off]
      rfl
    rw [h1, h2, jsParseIntHex2_pair b hb256]
    simp only []
    rw [if_neg (by simp only [Int.ofNat_eq_natCast]; omega)]
    rw [if_pos (by simp only [Int.ofNat_eq_natCast]; omega)]
    rw [h4, h5, jsParseIntHex2_pair c1 hc256]
    rw [h7, h8, jsParseIntHex2_pair c2 hd256]
    simp
  · have hb256 : b < 256 := hlt b (by simp)
    have hc256 : c1 < 256 := hlt c1 (by simp)
    have hd256 : c2 < 256 := hlt c2 (by simp)
    have he256 : c3 < 256 := hlt c3 (by simp)
    have hflat : [b, c1, c2, c3].flatMap toEscapedHexString =
        [0x5c, hexDigitLower (b / 16 % 16), hexDigitLower (b % 16),
         0x5c, hexDigitLower (c1 / 16 % 16), hexDigitLower (c1 % 16),
         0x5c, hexDigitLower (c2 / 16 % 16), hexDigitLower (c2 % 16),
         0x5c, hexDigitLower (c3 / 16 % 16), hexDigitLower (c3 % 16)] := by
      simp [toEscapedHexString, hexPairLower]
    rw [hflat] at hbuf ⊢
    subst hbuf
    rw [List.append_assoc]
    simp only [List.cons_append, List.nil_append]
    rw [readEscapeSequenceGo]
    simp only [get?_here, bne_self_eq_false, Bool.false_eq_true, if_false]
    have h1 : chAt (pre ++ 0x5c :: hexDigitLower (b / 16 % 16) :: hexDigitLower (b % 16) ::
        0x5c :: hexDigitLower (c1 / 16 % 16) :: hexDigitLower (c1 % 16) ::
        0x5c :: hexDigitLower (c2 / 16 % 16) :: hexDigitLower (c2 % 16) ::
        0x5c :: hexDigitLower (c3 / 16 % 16) :: hexDigitLower (c3 % 16) :: post)
        (pre.length + 1) = hexDigitLower (b / 16 % 16) := by
      rw [chAt_append_off]
      rfl
    have h2 : chAt (pre ++ 0x5c :: hexDigitLower (b / 16 % 16) :: hexDigitLower (b % 16) ::
        0x5c :: hexDigitLower (c1 / 16 % 16) :: hexDigitLower (c1 % 16) ::
        0x5c :: hexDigitLower (c2 / 16 % 16) :: hexDigitLower (c2 % 16) ::
        0x5c :: hexDigitLower (c3 / 16 % 16) :: hexDigitLower (c3 % 16) :: post)
        (pre.length + 2) = hexDigitLower (b % 16) := by
      rw [chAt_append_off]
      rfl
    have h4 : chAt (pre ++ 0x5c :: hexDigitLower (b / 16 % 16) :: hexDigitLower (b % 16) ::
        0x5c :: hexDigitLower (c1 / 16 % 16) :: hexDigitLower (c1 % 16) ::
        0x5c :: hexDigitLower (c2 / 16 % 16) :: hexDigitLower (c2 % 16) ::
        0x5c :: hexDigitLower (c3 / 16 % 16) :: hexDigitLower (c3 % 16) :: post)
        (pre.length + 4) = hexDigitLower (c1 / 16 % 16) := by
      rw [chAt_append_off]
      rfl
    have h5 : chAt (pre ++ 0x5c :: hexDigitLower (b / 16 % 16) :: hexDigitLower (b % 16) ::
        0x5c :: hexDigitLower (c1 / 16 % 16) :: hexDigitLower (c1 % 16) ::
        0x5c :: hexDigitLower (c2 / 16 % 16) :: hexDigitLower (c2 % 16) ::
        0x5c :: hexDigitLower (c3 / 16 % 16) :: hexDigitLower (c3 % 16) :: post)
        (pre.length + 5) = hexDigitLower (c1 % 16) := by
      rw [chAt_append_off]
      rfl
    have h7 : chAt (pre ++ 0x5c :: hexDigitLower (b / 16 % 16) :: hexDigitLower (b % 16) ::
        0x5c :: hexDigitLower (c1 / 16 % 16) :: hexDigitLower (c1 % 16) ::
        0x5c :: hexDigitLower (c2 / 16 % 16) :: hexDigitLower (c2 % 16) ::
        0x5c :: hexDigitLower (c3 / 16 % 16) :: hexDigitLower (c3 % 16) :: post)
        (pre.length + 7) = hexDigitLower (c2 / 16 % 16) := by
      rw [chAt_append_off]
      rfl
    have h8 : chAt (pre ++ 0x5c :: hexDigitLower (b / 16 % 16) :: hexDigitLower (b % 16) ::
        0x5c :: hexDigitLower (c1 / 16 % 16) :: hexDigitLower (c1 % 16) ::
        0x5c :: hexDigitLower (c2 / 16 % 16) :: hexDigitLower (c2 % 16) ::
        0x5c :: hexDigitLower (c3 / 16 % 16) :: hexDigitLower (c3 % 16) :: post)
        (pre.length + 8) = hexDigitLower (c2 % 16) := by
      rw [chAt_append_off]
      rfl
    have h10 : chAt (pre ++ 0x5c :: hexDigitLower (b / 16 % 16) :: hexDigitLower (b % 16) ::
        0x5c :: hexDigitLower (c1 / 16 % 16) :: hexDigitLower (c1 % 16) ::
        0x5c :: hexDigitLower (c2 / 16 % 16) :: hexDigitLower (c2 % 16) ::
        0x5c :: hexDigitLower (c3 / 16 % 16) :: hexDigitLower (c3 % 16) :: post)
        (pre.length + 10) = hexDigitLower (c3 / 16 % 16) := by
      rw [chAt_append_off]
      rfl
    have h11 : chAt (pre ++ 0x5c :: hexDigitLower (b / 16 % 16) :: hexDigitLower (b % 16) ::
        0x5c :: hexDigitLower (c1 / 16 % 16) :: hexDigitLower (c1 % 16) ::
        0x5c :: hexDigitLower (c2 / 16 % 16) :: hexDigitLower (c2 % 16) ::
        0x5c :: hexDigitLower (c3 / 16 % 16) :: hexDigitLower (c3 % 16) :: post)
        (pre.length + 11) = hexDigitLower (c3 % 16) := by
      rw [chAt_append_off]
      rfl
    rw [h1, h2, jsParseIntHex2_pair b hb256]
    simp only []
    rw [if_neg (by simp only [Int.ofNat_eq_natCast]; omega)]
    rw [if_neg (by simp only [Int.ofNat_eq_natCast]; omega)]
    rw [if_pos (by simp only [Int.ofNat_eq_natCast]; omega)]
    rw [h4, h5, jsParseIntHex2_pair c1 hc256]
    rw [h7, h8, jsParseIntHex2_pair c2 hd256]
    rw [h10, h11, jsParseIntHex2_pair c3 he256]
    simp

/-- The escape-sequence reader over a run of printed escape groups collects
all the groups' bytes and stops at the first non-backslash character. -/
lemma readEscSeqGo_run :
    ∀ (groups : List (List Nat)) (pre post : List Nat) (acc : List (Option Int)) (fuel : Nat),
      (∀ g ∈ groups, GrpOK g) →
      groups.length + 1 ≤ fuel →
      (∀ c, post.head? = some c → c ≠ 0x5c) →
      readEscapeSequenceGo
          (pre ++ groups.flatMap (fun g => g.flatMap toEscapedHexString) ++ post)
          fuel pre.length acc =
        .ok ⟨pre.length + (groups.flatMap (fun g => g.flatMap toEscapedHexString)).length,
          (acc ++ (groups.flatMap id).map (fun x => some (Int.ofNat x))).map toUint8⟩ := by
  intro groups
  induction groups with
  | nil =>
    intro pre post acc fuel _ hfuel hpost
    obtain ⟨f, rfl⟩ : ∃ f, fuel = f + 1 := ⟨fuel - 1, by omega⟩
    rw [readEscapeSequenceGo]
    simp only [List.flatMap_nil, List.append_nil, List.length_nil, Nat.add_zero,
      List.map_nil]
    cases hp : post with
    | nil =>
      rw [show (pre ++ [] : List Nat) = pre from by simp]
      simp only [List.get?_eq_none.mpr (le_refl pre.length)]
    | cons c rest =>
      simp only [get?_here]
      have hc : c ≠ 0x5c := hpost c (by rw [hp]; rfl)
      rw [if_pos (by
        simp only [bne_iff_ne, ne_eq]
        exact hc)]
  | cons g gs ih =>
    intro pre post acc fuel hg hfuel hpost
    obtain ⟨f, rfl⟩ : ∃ f, fuel = f + 1 := ⟨fuel - 1, by omega⟩
    rw [readEscSeqGo_group _ pre (gs.flatMap (fun g => g.flatMap toEscapedHexString) ++ post)
      g acc f (hg g (List.mem_cons_self g gs))
      (by simp [List.flatMap_cons, List.append_assoc])]
    have hre : pre ++ (g :: gs).flatMap (fun g => g.flatMap toEscapedHexString) ++ post =
        (pre ++ g.flatMap toEscapedHexString) ++
          gs.flatMap (fun g => g.flatMap toEscapedHexString) ++ post := by
      simp [List.flatMap_cons, List.append_assoc]
    rw [hre]
    rw [show pre.length + (g.flatMap toEscapedHexString).length =
      (pre ++ g.flatMap toEscapedHexString).length from (List.length_append _ _).symm]
    rw [ih (pre ++ g.flatMap toEscapedHexString) post
      (acc ++ g.map (fun x => some (Int.ofNat x))) f
      (fun g2 hg2 => hg g2 (List.mem_cons_of_mem g hg2)) (by simp at hfuel ⊢; omega) hpost]
    simp only [List.length_append, List.flatMap_cons, List.map_append, List.append_assoc,
      id_eq, Except.ok.injEq, EscResult.mk.injEq]
    constructor
    · omega
    · trivial

/-- Token classifier: escape groups. -/
def isEscTok : EscTok → Bool
  | .esc _ => true
  | .lit _ => false

/-- every token prints at least one character. -/
lemma tokFlat_pos {t : EscTok} (h : TokOK t) : 1 ≤ (tokFlat t).length := by
  cases t with
  | lit b => simp [tokFlat]
  | esc bs =>
    obtain ⟨_, hshape⟩ := h
    rcases hshape with ⟨b, rfl, _⟩ | ⟨b, c1, rfl, _, _⟩ | ⟨b, c1, c2, rfl, _, _⟩ |
      ⟨b, c1, c2, c3, rfl, _, _⟩ <;>
      simp [tokFlat, toEscapedHexString, hexPairLower]

/-- A token list prints at least one character per token. -/
lemma toks_flat_len :
    ∀ (toks : List EscTok), (∀ t ∈ toks, TokOK t) →
      toks.length ≤ (toks.flatMap tokFlat).length := by
  intro toks
  induction toks with
  | nil => intro _; simp
  | cons t rest ih =>
    intro h
    have h1 := tokFlat_pos (h t (List.mem_cons_self t rest))
    have h2 := ih (fun x hx => h x (List.mem_cons_of_mem t hx))
    simp only [List.flatMap_cons, List.length_append, List.length_cons]
    omega

/-- An all-escape token run prints its byte groups' hex escapes. -/
lemma escRun_flat_eq :
    ∀ (run : List EscTok), (∀ t ∈ run, isEscTok t = true) →
      run.flatMap tokFlat =
        (run.map tokBytes).flatMap (fun g => g.flatMap toEscapedHexString) := by
  intro run
  induction run with
  | nil => intro _; rfl
  | cons t rest ih =>
    intro h
    cases t with
    | lit b => exact absurd (h _ (List.mem_cons_self _ rest)) (by simp [isEscTok])
    | esc bs =>
      simp only [List.flatMap_cons, List.map_cons]
      rw [ih (fun x hx => h x (List.mem_cons_of_mem _ hx))]
      rfl

/-- Concatenating the byte groups of a token run gives the run's bytes. -/
lemma escRun_bytes_eq :
    ∀ (run : List EscTok), (run.map tokBytes).flatMap id = run.flatMap tokBytes := by
  intro run
  induction run with
  | nil => rfl
  | cons t rest ih =>
    simp only [List.flatMap_cons, List.map_cons, id_eq]
    rw [ih]

/-- The byte groups of a well-formed all-escape run are well-formed. -/
lemma escRun_grpok (run : List EscTok) (hok : ∀ t ∈ run, TokOK t)
    (hesc : ∀ t ∈ run, isEscTok t = true) :
    ∀ g ∈ run.map tokBytes, GrpOK g := by
  intro g hg
  rcases List.mem_map.mp hg with ⟨t, ht, rfl⟩
  cases t with
  | lit b => exact absurd (hesc _ ht) (by simp [isEscTok])
  | esc bs => exact hok _ ht

/-- Every byte of a well-formed token is below 256. -/
lemma tokBytes_lt {t : EscTok} (h : TokOK t) : ∀ x ∈ tokBytes t, x < 256 := by
  cases t with
  | lit b =>
    intro x hx
    rcases List.mem_singleton.mp hx with rfl
    exact Nat.lt_of_le_of_lt h.1 (by omega)
  | esc bs => exact h.1

/-- Bytes of a well-formed token list are below 256. -/
lemma toksBytes_lt (toks : List EscTok) (h : ∀ t ∈ toks, TokOK t) :
    ∀ x ∈ toks.flatMap tokBytes, x < 256 := by
  intro x hx
  rcases List.mem_flatMap.mp hx with ⟨t, ht, hxt⟩
  exact tokBytes_lt (h t ht) x hxt

/-- `Buffer.from` on a list of in-range byte values is the identity. -/
lemma parsed_map_id :
    ∀ (l : List Nat), (∀ x ∈ l, x < 256) →
      (l.map (fun x => some (Int.ofNat x))).map toUint8 = l := by
  intro l
  induction l with
  | nil => intro _; rfl
  | cons b rest ih =>
    intro h
    simp only [List.map_cons]
    rw [toUint8_byte b (h b (List.mem_cons_self b rest)),
      ih (fun x hx => h x (List.mem_cons_of_mem b hx))]

/-- The head surviving a `dropWhile` fails the predicate (any element type). -/
lemma dropWhile_head_not {α : Type} {p : α → Bool} :
    ∀ (l : List α) (a : α), (l.dropWhile p).head? = some a → p a = false := by
  intro l
  induction l with
  | nil => intro a h; cases h
  | cons x xs ih =>
    intro a h
    rw [List.dropWhile_cons] at h
    split at h
    · exact ih a h
    · next hx =>
      rw [List.head?_cons] at h
      cases h
      rw [Bool.not_eq_true] at hx
      exact hx

/-- An escape token's printed form starts with a backslash. -/
lemma escTokFlat_head {bs : List Nat} (h : GrpOK bs) :
    ∃ tl, tokFlat (.esc bs) = 0x5c :: tl := by
  obtain ⟨_, hshape⟩ := h
  rcases hshape with ⟨b, rfl, _⟩ | ⟨b, c1, rfl, _, _⟩ | ⟨b, c1, c2, rfl, _, _⟩ |
    ⟨b, c1, c2, c3, rfl, _, _⟩ <;>
    exact ⟨_, rfl⟩

/-- The value-string loop over the printed tokens of an escaped value:
outside quotes, it collects each token's bytes and stops at the end character
(or buffer end) that follows them. -/
lemma readValueStringGo_toks :
    ∀ (fuel : Nat) (toks : List EscTok) (pre post : List Nat) (startPos : Nat)
      (acc : List Nat),
      (∀ t ∈ toks, TokOK t) →
      (∀ c, post.head? = some c → isEndChar c = true) →
      toks.length + 1 ≤ fuel →
      readValueStringGo (pre ++ toks.flatMap tokFlat ++ post) startPos fuel
          pre.length false false acc =
        .ok (pre.length + (toks.flatMap tokFlat).length, acc ++ toks.flatMap tokBytes) := by
  intro fuel
  induction fuel with
  | zero =>
    intro toks _ _ _ _ _ _ hfuel
    omega
  | succ f ih =>
    intro toks pre post startPos acc htok hpost hfuel
    cases toks with
    | nil =>
      rw [show (pre ++ ([] : List EscTok).flatMap tokFlat ++ post) = pre ++ post from by simp]
      rw [readValueStringGo]
      cases hp : post with
      | nil =>
        rw [show (pre ++ [] : List Nat) = pre from by simp]
        rw [if_neg (lt_irrefl pre.length)]
        rw [if_pos rfl]
        rw [if_neg (by simp)]
        simp
      | cons c rest =>
        have hend : isEndChar c = true := hpost c (by rw [hp]; rfl)
        have hc22 : c ≠ 0x22 := by
          unfold isEndChar at hend
          simp only [Bool.or_eq_true, beq_iff_eq] at hend
          omega
        rw [if_neg (by simp only [List.length_append, List.length_cons]; omega)]
        rw [if_neg (by simp only [List.length_append, List.length_cons]; omega)]
        dsimp only []
        rw [chAt_here]
        rw [if_neg (by
          rw [beq_eq_false_iff_ne.mpr hc22]
          simp)]
        rw [if_pos (by rw [hend]; rfl)]
        simp
    | cons t rest =>
      cases t with
      | lit b =>
        obtain ⟨hb7f, hb22, hb5c, hbend⟩ := htok _ (List.mem_cons_self _ rest)
        have hrest : ∀ t ∈ rest, TokOK t := fun x hx => htok x (List.mem_cons_of_mem _ hx)
        have hshape : pre ++ (EscTok.lit b :: rest).flatMap tokFlat ++ post =
            pre ++ b :: (rest.flatMap tokFlat ++ post) := by
          simp [tokFlat, List.flatMap_cons, List.append_assoc]
        rw [hshape, readValueStringGo]
        rw [if_neg (by simp only [List.length_append, List.length_cons]; omega)]
        rw [if_neg (by simp only [List.length_append, List.length_cons]; omega)]
        dsimp only []
        rw [chAt_here]
        rw [if_neg (by
          rw [beq_eq_false_iff_ne.mpr hb22]
          simp)]
        rw [if_neg (by rw [hbend]; simp)]
        rw [if_neg (by
          rw [beq_eq_false_iff_ne.mpr hb5c]
          simp)]
        have hre : pre ++ b :: (rest.flatMap tokFlat ++ post) =
            (pre ++ [b]) ++ rest.flatMap tokFlat ++ post := by
          simp
        rw [hre]
        rw [show pre.length + 1 = (pre ++ [b]).length from by simp]
        rw [ih rest (pre ++ [b]) post startPos (acc ++ [b]) hrest hpost
          (by simp only [List.length_cons] at hfuel; omega)]
        simp only [Except.ok.injEq, Prod.mk.injEq, List.length_append, List.flatMap_cons,
          tokFlat, tokBytes, List.length_cons, List.length_nil, List.singleton_append,
          List.append_assoc, List.cons_append, List.nil_append]
        constructor
        · omega
        · trivial
      | esc bs =>
        have hgrp : GrpOK bs := htok _ (List.mem_cons_self _ rest)
        have hrun : (EscTok.esc bs :: rest).takeWhile isEscTok =
            EscTok.esc bs :: rest.takeWhile isEscTok := by
          rw [List.takeWhile_cons_of_pos]
          rfl
        set run := (EscTok.esc bs :: rest).takeWhile isEscTok with hrundef
        set rem := (EscTok.esc bs :: rest).dropWhile isEscTok with hremdef
        have hsplit : EscTok.esc bs :: rest = run ++ rem := by
          rw [hrundef, hremdef, List.takeWhile_append_dropWhile]
        have hrunmem : ∀ t ∈ run, TokOK t := by
          intro t ht
          exact htok t (hsplit ▸ List.mem_append_left _ ht)
        have hremmem : ∀ t ∈ rem, TokOK t := by
          intro t ht
          exact htok t (hsplit ▸ List.mem_append_right _ ht)
        have hrunesc : ∀ t ∈ run, isEscTok t = true := by
          intro t ht
          exact List.mem_takeWhile_imp ht
        have hflatsplit : (EscTok.esc bs :: rest).flatMap tokFlat =
            run.flatMap tokFlat ++ rem.flatMap tokFlat := by
          conv_lhs => rw [hsplit]
          rw [List.flatMap_append]
        have hbytesplit : (EscTok.esc bs :: rest).flatMap tokBytes =
            run.flatMap tokBytes ++ rem.flatMap tokBytes := by
          conv_lhs => rw [hsplit]
          rw [List.flatMap_append]
        obtain ⟨tl, htl⟩ := escTokFlat_head hgrp
        have hrunflat : run.flatMap tokFlat = 0x5c :: (tl ++ (rest.takeWhile isEscTok).flatMap tokFlat) := by
          rw [hrun, List.flatMap_cons, htl]
          rfl
        have hshape : pre ++ (EscTok.esc bs :: rest).flatMap tokFlat ++ post =
            pre ++ 0x5c :: (tl ++ (rest.takeWhile isEscTok).flatMap tokFlat ++
              (rem.flatMap tokFlat ++ post)) := by
          rw [hflatsplit, hrunflat]
          simp [List.append_assoc]
        rw [hshape, readValueStringGo]
        rw [if_neg (by simp only [List.length_append, List.length_cons]; omega)]
        rw [if_neg (by simp only [List.length_append, List.length_cons]; omega)]
        dsimp only []
        rw [chAt_here]
        rw [if_neg (by simp)]
        rw [if_neg (by simp [isEndChar])]
        rw [if_pos (by rfl)]
        rw [show pre ++ 0x5c :: (tl ++ (rest.takeWhile isEscTok).flatMap tokFlat ++
              (rem.flatMap tokFlat ++ post)) =
            pre ++ run.flatMap tokFlat ++ (rem.flatMap tokFlat ++ post) from by
          rw [hrunflat]
          simp [List.append_assoc]]
        unfold readEscapeSequence
        have hgrps := escRun_grpok run hrunmem hrunesc
        have hflatlen : run.length ≤ (run.flatMap tokFlat).length := toks_flat_len run hrunmem
        have hbuflen : run.length + 1 ≤
            (pre ++ run.flatMap tokFlat ++ (rem.flatMap tokFlat ++ post)).length + 2 := by
          simp only [List.length_append]
          omega
        have hposthead : ∀ c, (rem.flatMap tokFlat ++ post).head? = some c → c ≠ 0x5c := by
          intro c hc
          cases hrem : rem with
          | nil =>
            rw [hrem] at hc
            simp only [List.flatMap_nil, List.nil_append] at hc
            have := hpost c hc
            unfold isEndChar at this
            simp only [Bool.or_eq_true, beq_iff_eq] at this
            omega
          | cons t2 rem2 =>
            have hlit : isEscTok t2 = false := by
              apply dropWhile_head_not (EscTok.esc bs :: rest) t2
              rw [← hremdef, hrem]
              rfl
            cases t2 with
            | esc _ => exact absurd hlit (by simp [isEscTok])
            | lit b2 =>
              obtain ⟨_, _, hb5c2, _⟩ := hremmem (EscTok.lit b2)
                (by rw [hrem]; exact List.mem_cons_self _ _)
              rw [hrem] at hc
              simp only [List.flatMap_cons, tokFlat, List.cons_append, List.singleton_append,
                List.head?_cons] at hc
              cases hc
              exact hb5c2
        have hrunbuf : pre ++ run.flatMap tokFlat ++ (rem.flatMap tokFlat ++ post) =
            pre ++ (run.map tokBytes).flatMap (fun g => g.flatMap toEscapedHexString) ++
              (rem.flatMap tokFlat ++ post) := by
          rw [escRun_flat_eq run hrunesc]
        rw [hrunbuf]
        rw [readEscSeqGo_run (run.map tokBytes) pre (rem.flatMap tokFlat ++ post) []
          _ hgrps (by
            rw [← hrunbuf]
            simp only [List.length_map]
            exact hbuflen) hposthead]
        dsimp only []
        rw [escRun_bytes_eq run]
        rw [show ([] ++ (run.flatMap tokBytes).map (fun x => some (Int.ofNat x))) =
          (run.flatMap tokBytes).map (fun x => some (Int.ofNat x)) from List.nil_append _]
        rw [parsed_map_id (run.flatMap tokBytes) (fun x hx => by
          rcases List.mem_flatMap.mp hx with ⟨t2, ht2, hxt⟩
          exact tokBytes_lt (hrunmem t2 ht2) x hxt)]
        rw [← escRun_flat_eq run hrunesc]
        have hre2 : pre ++ run.flatMap tokFlat ++ (rem.flatMap tokFlat ++ post) =
            (pre ++ run.flatMap tokFlat) ++ rem.flatMap tokFlat ++ post := by
          simp [List.append_assoc]
        rw [hre2]
        rw [show pre.length + (run.flatMap tokFlat).length =
          (pre ++ run.flatMap tokFlat).length from (List.length_append _ _).symm]
        have hremfuel : rem.length + 1 ≤ f := by
          have hlen : (EscTok.esc bs :: rest).length = run.length + rem.length := by
            rw [hsplit, List.length_append]
          have hrunpos : 1 ≤ run.length := by
            rw [hrun]
            simp
          simp only [List.length_cons] at hfuel hlen
          omega
        rw [ih rem (pre ++ run.flatMap tokFlat) post startPos
          (acc ++ run.flatMap tokBytes) hremmem hpost hremfuel]
        simp only [Except.ok.injEq, Prod.mk.injEq, List.length_append, List.append_assoc]
        constructor
        · rw [hflatsplit]
          simp only [List.length_append]
          omega
        · rw [hbytesplit]

/-- Well-formedness of an attribute name as the parser produces it: nonempty
with an alphanumeric lead, all valid name characters, and accepted by
`isValidAttributeTypeName`. -/
def NameWF (n : JSStr) : Prop :=
  (∃ c cs, n = c :: cs ∧ (isAsciiAlpha c || isAsciiDigit c) = true) ∧
  (∀ c ∈ n, isValidNameChar c = true) ∧
  isValidAttributeTypeName n = true

/-- The printed text of a string value: the value is scalar and trim-stable,
and the text decomposes into well-formed tokens covering the value's UTF-8
bytes, a leading literal being neither space nor `#`. -/
def ValPrint (v vtext : JSStr) : Prop :=
  ScalarStr v ∧ jsTrim v = v ∧
  ∃ toks : List EscTok,
    vtext = toks.flatMap tokFlat ∧
    utf16ToUtf8 v = toks.flatMap tokBytes ∧
    (∀ t ∈ toks, TokOK t) ∧
    (∀ b ts, toks = EscTok.lit b :: ts → b ≠ 0x20 ∧ b ≠ 0x23)

/-- The printed text of a value starts with a character that is neither
space, quote, nor `#`, or is empty. -/
lemma valPrint_head {v vtext : JSStr} (hvp : ValPrint v vtext) :
    vtext = [] ∨ ∃ c0 tl0, vtext = c0 :: tl0 ∧ c0 ≠ 0x20 ∧ c0 ≠ 0x23 := by
  obtain ⟨_, _, toks, hvt, _, htok, hhead⟩ := hvp
  cases toks with
  | nil => exact Or.inl (by rw [hvt]; rfl)
  | cons t ts =>
    right
    cases t with
    | lit b =>
      obtain ⟨hb20, hb23⟩ := hhead b ts rfl
      exact ⟨b, ts.flatMap tokFlat, by rw [hvt]; rfl, hb20, hb23⟩
    | esc bs =>
      obtain ⟨tl, htl⟩ := escTokFlat_head (htok _ (List.mem_cons_self _ ts))
      refine ⟨0x5c, tl ++ ts.flatMap tokFlat, ?_, by omega, by omega⟩
      rw [hvt, List.flatMap_cons, htl]
      rfl

/-- `readAttributeValue` at the equals sign of a printed `name=value` pair
recovers the value: the equals sign is consumed, the printed value text is
scanned, and the UTF-8 decode plus trim restore the original string. -/
lemma readAttributeValue_print (seed : Nat) (pre post v vtext : List Nat)
    (hvp : ValPrint v vtext)
    (hpost : ∀ c, post.head? = some c → isEndChar c = true) :
    readAttributeValue seed (pre ++ 0x3d :: (vtext ++ post)) (Int.ofNat pre.length) =
      .ok ⟨pre.length + 1 + vtext.length, .str v⟩ := by
  obtain ⟨hsc, htr, toks, hvt, hbytes, htok, hhead⟩ := hvp
  unfold readAttributeValue
  rw [if_neg (by simp only [Int.ofNat_eq_natCast]; omega)]
  dsimp only []
  rw [show (Int.ofNat pre.length).toNat = pre.length from rfl]
  rw [skipSpaces_stop _ pre.length (by
    intro c hc
    rw [get?_here] at hc
    cases hc
    omega)]
  rw [if_neg (by
    rw [chAt_here]
    simp only [List.length_append, List.length_cons, bne_self_eq_false, Bool.or_false,
      decide_eq_true_eq]
    omega)]
  rcases valPrint_head ⟨hsc, htr, toks, hvt, hbytes, htok, hhead⟩ with hnil | ⟨c0, tl0, hvt0, hc020, hc023⟩
  · subst hnil
    have htoksnil : toks = [] := by
      cases htoks : toks with
      | nil => rfl
      | cons t ts =>
        exfalso
        rw [htoks] at hvt
        have h1 := tokFlat_pos (htok t (htoks ▸ List.mem_cons_self t ts))
        rw [List.flatMap_cons] at hvt
        cases hft : tokFlat t with
        | nil => rw [hft] at h1; simp at h1
        | cons x xs => rw [hft] at hvt; cases hvt
    subst htoksnil
    have hv : v = [] := by
      rw [← decode_encode_scalar hsc, hbytes]
      rfl
    subst hv
    cases hpostc : post with
    | nil =>
      rw [show (pre ++ 0x3d :: (([] : List Nat) ++ [])) = pre ++ [0x3d] from by simp]
      rw [skipSpaces_stop _ (pre.length + 1) (by
        intro c hc
        rw [show pre.length + 1 = (pre ++ [0x3d]).length from by simp] at hc
        rw [List.get?_eq_none.mpr (le_refl _)] at hc
        cases hc)]
      rw [if_pos (by simp)]
      simp
    | cons c rest =>
      have hend : isEndChar c = true := hpost c (by rw [hpostc]; rfl)
      have hc20 : c ≠ 0x20 := by
        unfold isEndChar at hend
        simp only [Bool.or_eq_true, beq_iff_eq] at hend
        omega
      have hc23 : c ≠ 0x23 := by
        unfold isEndChar at hend
        simp only [Bool.or_eq_true, beq_iff_eq] at hend
        omega
      rw [show (pre ++ 0x3d :: (([] : List Nat) ++ c :: rest)) =
        (pre ++ [0x3d]) ++ c :: rest from by simp]
      rw [skipSpaces_stop _ (pre.length + 1) (by
        intro c2 hc2
        rw [show pre.length + 1 = (pre ++ [0x3d]).length from by simp, get?_here] at hc2
        cases hc2
        exact hc20)]
      rw [if_neg (by simp only [List.length_append, List.length_cons, List.length_nil]; omega)]
      rw [if_neg (by
        rw [show pre.length + 1 = (pre ++ [0x3d]).length from by simp, chAt_here]
        rw [beq_eq_false_iff_ne.mpr hc23]
        simp)]
      unfold readValueString
      rw [show pre.length + 1 = (pre ++ [0x3d]).length from by simp]
      rw [show ((pre ++ [0x3d]) ++ c :: rest) =
        (pre ++ [0x3d]) ++ ([] : List EscTok).flatMap tokFlat ++ (c :: rest) from by simp]
      rw [readValueStringGo_toks _ [] (pre ++ [0x3d]) (c :: rest) _ []
        (by intro t ht; cases ht) (by
          intro c2 hc2
          cases hc2
          exact hend) (by simp)]
      simp only [List.flatMap_nil, List.append_nil, List.length_append, List.length_nil,
        List.nil_append, Except.ok.injEq, AttrValueResult.mk.injEq]
      exact ⟨trivial, by rfl⟩
  · have hbuf2 : pre ++ 0x3d :: (vtext ++ post) =
        (pre ++ [0x3d]) ++ (vtext ++ post) := by simp
    rw [hbuf2]
    rw [skipSpaces_stop _ (pre.length + 1) (by
      intro c hc
      rw [show pre.length + 1 = (pre ++ [0x3d]).length from by simp] at hc
      rw [hvt0] at hc
      rw [show ((pre ++ [0x3d]) ++ (c0 :: tl0 ++ post)) =
        (pre ++ [0x3d]) ++ c0 :: (tl0 ++ post) from by simp] at hc
      rw [get?_here] at hc
      cases hc
      exact hc020)]
    rw [if_neg (by
      rw [hvt0]
      simp only [List.length_append, List.length_cons, List.length_nil]
      omega)]
    rw [if_neg (by
      rw [show pre.length + 1 = (pre ++ [0x3d]).length from by simp]
      rw [hvt0]
      rw [show ((pre ++ [0x3d]) ++ (c0 :: tl0 ++ post)) =
        (pre ++ [0x3d]) ++ c0 :: (tl0 ++ post) from by simp, chAt_here]
      rw [beq_eq_false_iff_ne.mpr hc023]
      simp)]
    unfold readValueString
    rw [show pre.length + 1 = (pre ++ [0x3d]).length from by simp]
    rw [show ((pre ++ [0x3d]) ++ (vtext ++ post)) =
      (pre ++ [0x3d]) ++ toks.flatMap tokFlat ++ post from by rw [hvt]; simp]
    rw [readValueStringGo_toks _ toks (pre ++ [0x3d]) post _ [] htok hpost (by
      have h1 := toks_flat_len toks htok
      simp only [List.length_append]
      omega)]
    simp only [List.nil_append]
    rw [← hbytes, decode_encode_scalar hsc, htr]
    simp only [Except.ok.injEq, AttrValueResult.mk.injEq, List.length_append, hvt]

/-- `readAttributePair` on a printed `name=value` entry recovers the name and
the value. -/
lemma readAttributePair_print (seed : Nat) (pre post name v vtext : List Nat)
    (hn : NameWF name) (hvp : ValPrint v vtext)
    (hpost : ∀ c, post.head? = some c → isEndChar c = true) :
    readAttributePair seed (pre ++ (name ++ 0x3d :: (vtext ++ post))) pre.length =
      .ok ⟨pre.length + name.length + 1 + vtext.length, name, .str v⟩ := by
  obtain ⟨⟨c0, cs0, hname, hc0⟩, hvalid, hatn⟩ := hn
  unfold readAttributePair
  have hstart : findNameStart (pre ++ (name ++ 0x3d :: (vtext ++ post))) pre.length =
      Int.ofNat pre.length := by
    apply findNameStart_here _ _ c0 _ hc0
    rw [hname]
    rw [show (pre ++ (c0 :: cs0 ++ 0x3d :: (vtext ++ post))) =
      pre ++ c0 :: (cs0 ++ 0x3d :: (vtext ++ post)) from by simp]
    exact get?_here _ _ _
  simp only [hstart]
  have hend : findNameEnd (pre ++ (name ++ 0x3d :: (vtext ++ post))) pre.length =
      Int.ofNat (pre.length + name.length) := by
    unfold findNameEnd
    rw [show (pre ++ (name ++ 0x3d :: (vtext ++ post))) =
      pre ++ name ++ 0x3d :: (vtext ++ post) from by simp]
    apply findNameEndGo_name name pre (vtext ++ post) _ hvalid
    simp only [List.length_append, List.length_cons]
    omega
  rw [hend]
  have hsub : jsSubarray (pre ++ (name ++ 0x3d :: (vtext ++ post))) pre.length
      (Int.ofNat (pre.length + name.length)) = name := by
    rw [show (pre ++ (name ++ 0x3d :: (vtext ++ post))) =
      pre ++ name ++ 0x3d :: (vtext ++ post) from by simp]
    exact jsSubarray_mid pre name _
  rw [hsub]
  rw [utf8ToUtf16_ascii name (fun c hc => (nameChar_bounds (hvalid c hc)).2.2)]
  rw [if_neg (by rw [hatn]; simp)]
  have hav : readAttributeValue seed (pre ++ (name ++ 0x3d :: (vtext ++ post)))
      (Int.ofNat (pre.length + name.length)) =
      .ok ⟨(pre.length + name.length) + 1 + vtext.length, .str v⟩ := by
    rw [show (pre ++ (name ++ 0x3d :: (vtext ++ post))) =
      (pre ++ name) ++ 0x3d :: (vtext ++ post) from by simp]
    rw [show pre.length + name.length = (pre ++ name).length from (List.length_append _ _).symm]
    exact readAttributeValue_print seed (pre ++ name) post v vtext
      ⟨hvp.1, hvp.2.1, hvp.2.2⟩ hpost
  rw [hav]

/-- One printed attribute entry: its name, string value, and the value's
printed text. -/
structure EntPr where
  name : JSStr
  v : JSStr
  vtext : JSStr
deriving Repr, DecidableEq

/-- Well-formedness of a printed entry. -/
def EntOK (e : EntPr) : Prop := NameWF e.name ∧ ValPrint e.v e.vtext

/-- The printed text `name=value` of one entry. -/
def entText (e : EntPr) : JSStr := e.name ++ 0x3d :: e.vtext

/-- The printed text of one RDN's entries, `+`-joined. -/
def entsText : List EntPr → JSStr
  | [] => []
  | e :: rest => entText e ++ rest.flatMap (fun e2 => 0x2b :: entText e2)

/-- The printed text of a DN's RDNs, `,`-joined. -/
def rdnsText : List (List EntPr) → JSStr
  | [] => []
  | es :: rest => entsText es ++ rest.flatMap (fun es2 => 0x2c :: entsText es2)

/-- Folding a list of entries into an RDN object by `mapSet`. -/
def entsRdn (r : RdnData) (es : List EntPr) : RdnData :=
  es.foldl (fun r e => mapSet r e.name (.str e.v)) r

/-- Re-rooting the `+`-join at a nonempty tail. -/
lemma entsText_shift (e2 : EntPr) (rest : List EntPr) :
    (e2 :: rest).flatMap (fun x => 0x2b :: entText x) = 0x2b :: entsText (e2 :: rest) := by
  simp [entsText, List.flatMap_cons]

/-- Re-rooting the `,`-join at a nonempty tail. -/
lemma rdnsText_shift (es2 : List EntPr) (rest : List (List EntPr)) :
    (es2 :: rest).flatMap (fun x => 0x2c :: entsText x) = 0x2c :: rdnsText (es2 :: rest) := by
  simp [rdnsText, List.flatMap_cons]

/-- The `readRdnLoop` over the printed text of a DN: each entry is read back,
`+` continues the current RDN, `,` closes it, and the loop returns the RDNs
rebuilt by `mapSet` in print order. -/
lemma parseLoopGo_print (seed : Nat) :
    ∀ (fuel : Nat) (es : List EntPr) (ess : List (List EntPr)) (pre : List Nat)
      (rdn : RdnData) (acc : List RdnData),
      (∀ e ∈ es, EntOK e) →
      (∀ es2 ∈ ess, es2 ≠ [] ∧ ∀ e ∈ es2, EntOK e) →
      es ≠ [] →
      es.length + (ess.map List.length).sum + 1 ≤ fuel →
      parseLoopGo seed (pre ++ rdnsText (es :: ess)) fuel pre.length rdn acc =
        POut.ok (acc ++ entsRdn rdn es :: ess.map (entsRdn [])) := by
  intro fuel
  induction fuel with
  | zero =>
    intro es ess _ _ _ _ _ _ hfuel
    omega
  | succ f ih =>
    intro es ess pre rdn acc hok hess hne hfuel
    obtain ⟨e, es', rfl⟩ : ∃ e es', es = e :: es' := by
      cases es with
      | nil => exact absurd rfl hne
      | cons e es' => exact ⟨e, es', rfl⟩
    obtain ⟨hn, hvp⟩ : EntOK e := hok e (List.mem_cons_self e es')
    obtain ⟨c0, cs0, hname, hc0⟩ := hn.1
    have hc020 : c0 ≠ 0x20 := by
      unfold isAsciiAlpha isAsciiDigit at hc0
      simp only [Bool.or_eq_true, Bool.and_eq_true, decide_eq_true_eq] at hc0
      omega
    have hshape : pre ++ rdnsText ((e :: es') :: ess) =
        pre ++ (e.name ++ 0x3d :: (e.vtext ++
          (es'.flatMap (fun x => 0x2b :: entText x) ++
            ess.flatMap (fun x => 0x2c :: entsText x)))) := by
      simp [rdnsText, entsText, entText, List.append_assoc]
    have hpostR : ∀ c, (es'.flatMap (fun x => 0x2b :: entText x) ++
        ess.flatMap (fun x => 0x2c :: entsText x)).head? = some c → isEndChar c = true := by
      intro c hc
      cases es' with
      | cons e2 rest =>
        rw [entsText_shift] at hc
        rw [List.cons_append, List.head?_cons] at hc
        cases hc
        rfl
      | nil =>
        simp only [List.flatMap_nil, List.nil_append] at hc
        cases ess with
        | nil => cases hc
        | cons es2 rest =>
          rw [rdnsText_shift, List.head?_cons] at hc
          cases hc
          rfl
    have hpair := readAttributePair_print seed pre
      (es'.flatMap (fun x => 0x2b :: entText x) ++ ess.flatMap (fun x => 0x2c :: entsText x))
      e.name e.v e.vtext ⟨hn.1, hn.2.1, hn.2.2⟩ hvp hpostR
    rw [hshape]
    rw [parseLoopGo]
    have hlenpos : pre.length + 1 ≤ (pre ++ (e.name ++ 0x3d :: (e.vtext ++
        (es'.flatMap (fun x => 0x2b :: entText x) ++
          ess.flatMap (fun x => 0x2c :: entsText x))))).length := by
      simp only [List.length_append, List.length_cons]
      omega
    rw [if_neg (by omega)]
    rw [if_neg (by
      rw [beq_eq_false_iff_ne.mpr (show pre.length ≠ (pre ++ (e.name ++ 0x3d :: (e.vtext ++
        (es'.flatMap (fun x => 0x2b :: entText x) ++
          ess.flatMap (fun x => 0x2c :: entsText x))))).length from by omega)]
      simp)]
    dsimp only []
    rw [skipSpaces_stop _ pre.length (by
      intro c hc
      rw [hname] at hc
      rw [show (pre ++ (c0 :: cs0 ++ 0x3d :: (e.vtext ++
        (es'.flatMap (fun x => 0x2b :: entText x) ++
          ess.flatMap (fun x => 0x2c :: entsText x))))) =
        pre ++ c0 :: (cs0 ++ 0x3d :: (e.vtext ++
          (es'.flatMap (fun x => 0x2b :: entText x) ++
            ess.flatMap (fun x => 0x2c :: entsText x)))) from by simp] at hc
      rw [get?_here] at hc
      cases hc
      exact hc020)]
    rw [hpair]
    dsimp only []
    have hetlen : e.name.length + 1 + e.vtext.length = (entText e).length := by
      simp only [entText, List.length_append, List.length_cons]
      omega
    cases hes' : es' with
    | nil =>
      cases hess' : ess with
      | nil =>
        rw [if_pos (by
          simp only [List.flatMap_nil, List.append_nil, List.nil_append, List.length_append,
            List.length_cons, entText]
          omega)]
        simp only [List.map_nil, entsRdn, List.foldl_cons, List.foldl_nil]
      | cons es2 rest =>
        rw [if_neg (by
          rw [rdnsText_shift]
          simp only [List.flatMap_nil, List.nil_append, List.length_append, List.length_cons,
            entText]
          omega)]
        rw [show (pre ++ (e.name ++ 0x3d :: (e.vtext ++
          (([] : List EntPr).flatMap (fun x => 0x2b :: entText x) ++
            (es2 :: rest).flatMap (fun x => 0x2c :: entsText x))))) =
          (pre ++ entText e) ++ 0x2c :: rdnsText (es2 :: rest) from by
            rw [rdnsText_shift]
            simp [entText, List.append_assoc]]
        rw [show pre.length + e.name.length + 1 + e.vtext.length =
          (pre ++ entText e).length from by
            simp only [List.length_append, entText, List.length_cons]
            omega]
        rw [chAt_here]
        rw [if_neg (by simp)]
        rw [if_pos (by simp)]
        have hre : (pre ++ entText e) ++ 0x2c :: rdnsText (es2 :: rest) =
            ((pre ++ entText e) ++ [0x2c]) ++ rdnsText (es2 :: rest) := by
          simp
        rw [hre]
        rw [show (pre ++ entText e).length + 1 = ((pre ++ entText e) ++ [0x2c]).length from by
          simp only [List.length_append, List.length_cons, List.length_nil]]
        rw [ih es2 rest ((pre ++ entText e) ++ [0x2c]) []
          (acc ++ [mapSet rdn e.name (.str e.v)])
          (hess es2 (hess' ▸ List.mem_cons_self _ _)).2
          (fun x hx => hess x (hess' ▸ List.mem_cons_of_mem _ hx))
          (hess es2 (hess' ▸ List.mem_cons_self _ _)).1
          (by
            rw [hess'] at hfuel
            simp only [List.length_cons, List.map_cons, List.sum_cons, List.length_nil] at hfuel ⊢
            omega)]
        simp only [entsRdn, List.foldl_cons, List.foldl_nil, List.map_cons, List.append_assoc,
          List.singleton_append]
    | cons e2 rest =>
      rw [if_neg (by
        rw [entsText_shift]
        simp only [List.cons_append, List.length_append, List.length_cons, entText]
        omega)]
      rw [show (pre ++ (e.name ++ 0x3d :: (e.vtext ++
        ((e2 :: rest).flatMap (fun x => 0x2b :: entText x) ++
          ess.flatMap (fun x => 0x2c :: entsText x))))) =
        (pre ++ entText e) ++ 0x2b :: (entsText (e2 :: rest) ++
          ess.flatMap (fun x => 0x2c :: entsText x)) from by
          rw [entsText_shift]
          simp [entText, List.append_assoc]]
      rw [show pre.length + e.name.length + 1 + e.vtext.length =
        (pre ++ entText e).length from by
          simp only [List.length_append, entText, List.length_cons]
          omega]
      rw [chAt_here]
      rw [if_pos (by simp)]
      have hre : (pre ++ entText e) ++ 0x2b :: (entsText (e2 :: rest) ++
          ess.flatMap (fun x => 0x2c :: entsText x)) =
          ((pre ++ entText e) ++ [0x2b]) ++ rdnsText ((e2 :: rest) :: ess) := by
        simp [rdnsText, List.append_assoc]
      rw [hre]
      rw [show (pre ++ entText e).length + 1 = ((pre ++ entText e) ++ [0x2b]).length from by
        simp only [List.length_append, List.length_cons, List.length_nil]]
      rw [ih (e2 :: rest) ess ((pre ++ entText e) ++ [0x2b])
        (mapSet rdn e.name (.str e.v)) acc
        (fun x hx => hok x (hes' ▸ List.mem_cons_of_mem _ hx)) hess (by simp)
        (by
          rw [hes'] at hfuel
          simp only [List.length_cons] at hfuel ⊢
          omega)]
      simp only [entsRdn, List.foldl_cons]

/-! ## Claim C1 machinery, part 4: facts about accepted parses -/

/-- Every string value returned by `readAttributeValue` is a scalar JS
string: it is produced by the UTF-8 decoder (or is empty), and trimming
preserves scalarity. -/
lemma readAttributeValue_str_scalar (seed : Nat) (buf : List Nat) (pos : Int) (p : Nat)
    (s : JSStr) (h : readAttributeValue seed buf pos = .ok ⟨p, .str s⟩) : ScalarStr s := by
  unfold readAttributeValue at h
  split at h
  · cases h
  · dsimp only [] at h
    split at h
    · cases h
    · split at h
      · simp only [Except.ok.injEq, AttrValueResult.mk.injEq, Value.str.injEq] at h
        rw [← h.2]
        exact ScalarStr.nil
      · split at h
        · split at h
          · cases h
          · simp only [Except.ok.injEq, AttrValueResult.mk.injEq] at h
            exact absurd h.2 (by intro hx; cases hx)
        · split at h
          · cases h
          · simp only [Except.ok.injEq, AttrValueResult.mk.injEq, Value.str.injEq] at h
            rw [← h.2]
            exact ScalarStr_jsTrim (utf8ToUtf16_scalar _)

/-- `mapSet` on an absent key appends the pair. -/
lemma mapSet_append (m : RdnData) (k : JSStr) (v : Value) (h : mapHas m k = false) :
    mapSet m k v = m ++ [(k, v)] := by
  induction m with
  | nil => rfl
  | cons q rest ih =>
    unfold mapHas at h
    rw [List.any_cons] at h
    simp only [Bool.or_eq_false_iff] at h
    unfold mapSet
    rw [if_neg (by rw [h.1]; simp)]
    rw [ih h.2]
    rfl

/-- Every entry of `mapSet m k v` is the new pair or one of `m`. -/
lemma mapSet_mem_sub (m : RdnData) (k : JSStr) (v : Value) :
    ∀ p ∈ mapSet m k v, p = (k, v) ∨ p ∈ m := by
  induction m with
  | nil =>
    intro p hp
    rw [show mapSet [] k v = [(k, v)] from rfl] at hp
    exact Or.inl (List.mem_singleton.mp hp)
  | cons q rest ih =>
    obtain ⟨k0, v0⟩ := q
    intro p hp
    by_cases hk : k0 = k
    · rw [show mapSet ((k0, v0) :: rest) k v = (k0, v) :: rest from by
        rw [mapSet]
        rw [if_pos (beq_iff_eq.mpr hk)]] at hp
      rcases List.mem_cons.mp hp with rfl | hmem
      · exact Or.inl (by rw [hk])
      · exact Or.inr (List.mem_cons_of_mem _ hmem)
    · rw [show mapSet ((k0, v0) :: rest) k v = (k0, v0) :: mapSet rest k v from by
        rw [mapSet]
        rw [if_neg (by rw [beq_eq_false_iff_ne.mpr hk]; simp)]] at hp
      rcases List.mem_cons.mp hp with rfl | hmem
      · exact Or.inr (List.mem_cons_self _ rest)
      · rcases ih p hmem with h1 | h1
        · exact Or.inl h1
        · exact Or.inr (List.mem_cons_of_mem _ h1)

/-- `mapSet` preserves distinctness of names. -/
lemma mapSet_nodup (m : RdnData) (k : JSStr) (v : Value)
    (h : (m.map Prod.fst).Nodup) : ((mapSet m k v).map Prod.fst).Nodup := by
  rw [mapSet_map_fst]
  split
  · exact h
  · next hhas =>
    refine List.Nodup.append h (List.nodup_singleton k) ?_
    intro a ha hb
    rw [List.mem_singleton] at hb
    rw [hb] at ha
    exact hhas ((mapHas_iff_mem m k).mpr ha)

/-- `mapSet` never returns an empty map. -/
lemma mapSet_ne_nil (m : RdnData) (k : JSStr) (v : Value) : mapSet m k v ≠ [] := by
  cases m with
  | nil => exact fun h => List.noConfusion h
  | cons q rest =>
    unfold mapSet
    split <;> exact fun h => List.noConfusion h

/-- Folding `mapSet` over pairs with fresh distinct names appends them all. -/
lemma foldl_mapSet_append :
    ∀ (r : List (JSStr × Value)) (acc : RdnData),
      ((acc ++ r).map Prod.fst).Nodup →
      r.foldl (fun m p => mapSet m p.1 p.2) acc = acc ++ r := by
  intro r
  induction r with
  | nil =>
    intro acc _
    simp
  | cons p rest ih =>
    intro acc hnd
    have hnotmem : p.1 ∉ acc.map Prod.fst := by
      intro hmem
      rw [List.map_append] at hnd
      have := (List.nodup_append.mp hnd).2.2
      exact this hmem (by
        rw [List.map_cons]
        exact List.mem_cons_self _ _)
    have hhas : mapHas acc p.1 = false := by
      rw [← Bool.not_eq_true]
      intro hx
      exact hnotmem ((mapHas_iff_mem acc p.1).mp hx)
    rw [List.foldl_cons, mapSet_append acc p.1 p.2 hhas]
    rw [ih (acc ++ [(p.1, p.2)]) (by
      rw [show (acc ++ [(p.1, p.2)]) ++ rest = acc ++ p :: rest from by simp]
      exact hnd)]
    simp

/-- `foldlM` of `setAttribute` over pairs with fresh distinct names appends
them all and certifies each name. -/
lemma foldlM_setAttribute :
    ∀ (r : List (JSStr × Value)) (acc : RdnData),
      ((acc ++ r).map Prod.fst).Nodup →
      ∀ r2, List.foldlM (fun m p => setAttribute m p.1 p.2) acc r = .ok r2 →
        r2 = acc ++ r ∧
          ∀ p ∈ r, startsWithAlpha p.1 = true ∨ isDottedDecimal p.1 = true := by
  intro r
  induction r with
  | nil =>
    intro acc _ r2 h
    refine ⟨?_, fun p hp => absurd hp (List.not_mem_nil p)⟩
    rw [List.foldlM_nil] at h
    cases h
    simp
  | cons p rest ih =>
    intro acc hnd r2 h
    rw [List.foldlM_cons] at h
    cases hsa : setAttribute acc p.1 p.2 with
    | error e =>
      rw [hsa] at h
      cases h
    | ok m1 =>
      rw [hsa] at h
      obtain ⟨hvalid, rfl⟩ := setAttribute_ok acc p.1 p.2 m1 hsa
      have hnotmem : p.1 ∉ acc.map Prod.fst := by
        intro hmem
        rw [List.map_append] at hnd
        have := (List.nodup_append.mp hnd).2.2
        exact this hmem (by
          rw [List.map_cons]
          exact List.mem_cons_self _ _)
      have hhas : mapHas acc p.1 = false := by
        rw [← Bool.not_eq_true]
        intro hx
        exact hnotmem ((mapHas_iff_mem acc p.1).mp hx)
      rw [mapSet_append acc p.1 p.2 hhas] at h
      obtain ⟨hr2, hrest⟩ := ih (acc ++ [(p.1, p.2)]) (by
        rw [show (acc ++ [(p.1, p.2)]) ++ rest = acc ++ p :: rest from by simp]
        exact hnd) r2 h
      refine ⟨by rw [hr2]; simp, ?_⟩
      intro q hq
      rcases List.mem_cons.mp hq with rfl | hq2
      · exact hvalid
      · exact hrest q hq2

/-- `DN`'s constructor re-validation is the identity on parser RDNs with
distinct names, and certifies every name. -/
lemma mkDn_id :
    ∀ (rdns : List RdnData) (A : DnData),
      (∀ r ∈ rdns, (r.map Prod.fst).Nodup) →
      mkDn rdns = .ok A →
      A = rdns ∧ ∀ r ∈ rdns, ∀ p ∈ r,
        startsWithAlpha p.1 = true ∨ isDottedDecimal p.1 = true := by
  intro rdns
  induction rdns with
  | nil =>
    intro A _ h
    rw [show mkDn [] = .ok [] from rfl] at h
    cases h
    exact ⟨rfl, fun r hr => absurd hr (List.not_mem_nil r)⟩
  | cons r rest ih =>
    intro A hnd h
    unfold mkDn at h
    rw [List.mapM_cons] at h
    cases hr : mkRdn r with
    | error e =>
      rw [hr] at h
      cases h
    | ok r1 =>
      rw [hr] at h
      cases hrest : List.mapM mkRdn rest with
      | error e =>
        rw [hrest] at h
        cases h
      | ok as =>
        rw [hrest] at h
        cases h
        obtain ⟨hr1, hvr⟩ := foldlM_setAttribute r []
          (by simpa using hnd r (List.mem_cons_self r rest)) r1 (by
            have hmk := hr
            unfold mkRdn at hmk
            exact hmk)
        obtain ⟨has, hvrest⟩ := ih as (fun x hx => hnd x (List.mem_cons_of_mem r hx)) hrest
        refine ⟨by rw [hr1, has]; rfl, ?_⟩
        intro r2 hr2 p hp
        rcases List.mem_cons.mp hr2 with rfl | hmem
        · exact hvr p hp
        · exact hvrest r2 hmem p hp

/-- A successful `findNameStart` points at an alphanumeric character. -/
lemma findNameStartGo_ok (buf : List Nat) :
    ∀ (fuel pos q : Nat), findNameStartGo buf fuel pos = Int.ofNat q →
      ∃ c, buf.get? q = some c ∧ (isAsciiAlpha c || isAsciiDigit c) = true := by
  intro fuel
  induction fuel with
  | zero =>
    intro pos q h
    rw [findNameStartGo] at h
    simp only [Int.ofNat_eq_natCast] at h
    omega
  | succ f ih =>
    intro pos q h
    rw [findNameStartGo] at h
    cases hget : buf.get? pos with
    | none =>
      rw [hget] at h
      simp only [Int.ofNat_eq_natCast] at h
      omega
    | some c =>
      rw [hget] at h
      dsimp only [] at h
      split at h
      · exact ih (pos + 1) q h
      · split at h
        · next halnum =>
          have hq : q = pos := by
            simp only [Int.ofNat_eq_natCast] at h
            omega
          subst hq
          exact ⟨c, hget, halnum⟩
        · simp only [Int.ofNat_eq_natCast] at h
          omega

/-- A successful `findNameEnd` scan walks valid name characters: the result
bounds the buffer, every byte passed is a valid name character, and a valid
non-stop head character forces progress. -/
lemma findNameEndGo_ok (buf : List Nat) :
    ∀ (fuel pos q : Nat), pos ≤ buf.length →
      findNameEndGo buf fuel pos = Int.ofNat q →
      pos ≤ q ∧ q ≤ buf.length ∧
        (∀ k, pos ≤ k → k < q → ∃ c, buf.get? k = some c ∧ isValidNameChar c = true) ∧
        (∀ c, buf.get? pos = some c → (c == 0x20 || c == 0x3d) = false → pos < q) := by
  intro fuel
  induction fuel with
  | zero =>
    intro pos q _ h
    rw [findNameEndGo] at h
    simp only [Int.ofNat_eq_natCast] at h
    omega
  | succ f ih =>
    intro pos q hpos h
    rw [findNameEndGo] at h
    cases hget : buf.get? pos with
    | none =>
      rw [hget] at h
      have hq : q = pos := by
        simp only [Int.ofNat_eq_natCast] at h
        omega
      have hlen : buf.length ≤ pos := List.get?_eq_none.mp hget
      refine ⟨by omega, by omega, ?_, ?_⟩
      · intro k h1 h2
        omega
      · intro c hc _
        cases hc
    | some c =>
      rw [hget] at h
      dsimp only [] at h
      have hlt : pos < buf.length := by
        by_contra hge
        rw [List.get?_eq_none.mpr (by omega)] at hget
        cases hget
      split at h
      · next hstop =>
        have hq : q = pos := by
          simp only [Int.ofNat_eq_natCast] at h
          omega
        refine ⟨by omega, by omega, ?_, ?_⟩
        · intro k h1 h2
          omega
        · intro c2 hc2 hns
          cases hc2
          rw [hstop] at hns
          cases hns
      · split at h
        · next hval =>
          obtain ⟨h1, h2, h3, _⟩ := ih (pos + 1) q (by omega) h
          refine ⟨by omega, h2, ?_, fun _ _ _ => by omega⟩
          intro k hk1 hk2
          rcases Nat.eq_or_lt_of_le hk1 with rfl | hk3
          · exact ⟨c, hget, hval⟩
          · exact h3 k (by omega) hk2
        · simp only [Int.ofNat_eq_natCast] at h
          omega

/-- `subarray` with a nonnegative in-range end is take-then-drop. -/
lemma jsSubarray_ofNat (buf : List Nat) (a e : Nat) (he : e ≤ buf.length) :
    jsSubarray buf a (Int.ofNat e) = (buf.take e).drop a := by
  unfold jsSubarray
  dsimp only []
  rw [show (Int.ofNat e) = ((e : Nat) : Int) from rfl]
  rw [if_neg (by omega)]
  rw [if_neg (by omega)]
  rw [Int.toNat_natCast]
  rw [min_eq_left he]

/-- Transfer a pointwise fact about buffer positions to the extracted slice. -/
lemma slice_facts (buf : List Nat) (a e : Nat) (he : e ≤ buf.length)
    (P : Nat → Prop)
    (hP : ∀ k, a ≤ k → k < e → ∀ c, buf.get? k = some c → P c) :
    ∀ c ∈ (buf.take e).drop a, P c := by
  intro c hc
  rw [List.mem_iff_getElem] at hc
  obtain ⟨i, hi, hie⟩ := hc
  have hlen : ((buf.take e).drop a).length = e - a := by
    rw [List.length_drop, List.length_take]
    omega
  rw [List.getElem_drop] at hie
  have hai : a + i < e := by
    rw [hlen] at hi
    omega
  rw [List.getElem_take] at hie
  refine hP (a + i) (by omega) hai c ?_
  rw [List.get?_eq_getElem?]
  rw [List.getElem?_eq_getElem (by omega)]
  rw [hie]

/-- The head of the extracted slice is the byte at its start. -/
lemma slice_head (buf : List Nat) (a e : Nat) (hae : a < e) (he : e ≤ buf.length) :
    ((buf.take e).drop a).get? 0 = buf.get? a := by
  rw [List.get?_drop]
  rw [Nat.add_zero]
  rw [List.get?_take hae]

/-- A successful `readAttributePair` returns a well-formed name and a
trim-stable scalar string value (when the value is a string). -/
lemma readAttributePair_wf (seed : Nat) (buf : List Nat) (pos : Nat) (res : AttrPairResult)
    (h : readAttributePair seed buf pos = .ok res) :
    NameWF res.name ∧ ∀ w, res.value = .str w → jsTrim w = w ∧ ScalarStr w := by
  unfold readAttributePair at h
  cases hfs : findNameStart buf pos with
  | negSucc n =>
    rw [hfs] at h
    cases h
  | ofNat nsp =>
    rw [hfs] at h
    dsimp only [] at h
    cases hend : findNameEnd buf nsp with
    | negSucc n =>
      rw [hend] at h
      split at h
      · cases h
      · rw [show readAttributeValue seed buf (Int.negSucc n) =
          .error (strLit "attribute value does not start with equals sign") from by
            unfold readAttributeValue
            rw [if_pos (Int.negSucc_lt_zero n)]] at h
        cases h
    | ofNat q =>
      rw [hend] at h
      split at h
      · cases h
      · next hatn =>
        cases hav : readAttributeValue seed buf (Int.ofNat q) with
        | error e =>
          rw [hav] at h
          cases h
        | ok r =>
          obtain ⟨ep, rv⟩ := r
          rw [hav] at h
          cases h
          obtain ⟨c0, hc0get, hc0⟩ := findNameStartGo_ok buf _ pos nsp (by
            unfold findNameStart at hfs
            exact hfs)
          have hnsp : nsp < buf.length := by
            by_contra hge
            rw [List.get?_eq_none.mpr (by omega)] at hc0get
            cases hc0get
          obtain ⟨hq1, hq2, hq3, hq4⟩ := findNameEndGo_ok buf _ nsp q (by omega) (by
            unfold findNameEnd at hend
            exact hend)
          have hlt : nsp < q := by
            refine hq4 c0 hc0get ?_
            unfold isAsciiAlpha isAsciiDigit at hc0
            simp only [Bool.or_eq_true, Bool.and_eq_true, decide_eq_true_eq] at hc0
            rw [beq_eq_false_iff_ne.mpr (show c0 ≠ 0x20 by omega),
              beq_eq_false_iff_ne.mpr (show c0 ≠ 0x3d by omega)]
            rfl
          rw [jsSubarray_ofNat buf nsp q hq2] at hatn ⊢
          have hvalidchars : ∀ c ∈ (buf.take q).drop nsp, isValidNameChar c = true :=
            slice_facts buf nsp q hq2 _ (by
              intro k h1 h2 c hc
              obtain ⟨c2, hc2, hv2⟩ := hq3 k h1 h2
              rw [hc] at hc2
              cases hc2
              exact hv2)
          have hascii : utf8ToUtf16 ((buf.take q).drop nsp) = (buf.take q).drop nsp :=
            utf8ToUtf16_ascii _ (fun c hc => (nameChar_bounds (hvalidchars c hc)).2.2)
          rw [hascii] at hatn ⊢
          have hshape : ∃ cs, (buf.take q).drop nsp = c0 :: cs := by
            cases hsl : (buf.take q).drop nsp with
            | nil =>
              exfalso
              have hlen : ((buf.take q).drop nsp).length = q - nsp := by
                rw [List.length_drop, List.length_take]
                omega
              rw [hsl] at hlen
              simp only [List.length_nil] at hlen
              omega
            | cons x xs =>
              have hh := slice_head buf nsp q hlt hq2
              rw [hsl] at hh
              rw [List.get?_cons_zero, hc0get] at hh
              cases hh
              exact ⟨xs, rfl⟩
          obtain ⟨cs, hcs⟩ := hshape
          refine ⟨⟨⟨c0, cs, hcs, hc0⟩, hvalidchars, ?_⟩, ?_⟩
          · cases hb : isValidAttributeTypeName ((buf.take q).drop nsp) with
            | false => exact absurd hb hatn
            | true => rfl
          · intro w hw
            dsimp only [] at hw
            subst hw
            exact ⟨readAttributeValue_str_trim seed buf _ ep w hav,
              readAttributeValue_str_scalar seed buf _ ep w hav⟩

/-- Well-formedness of one attribute entry of a parsed RDN. -/
def EntryWF (p : JSStr × Value) : Prop :=
  NameWF p.1 ∧ ∀ w, p.2 = .str w → jsTrim w = w ∧ ScalarStr w

/-- Well-formedness of a parsed RDN: distinct names, nonempty, well-formed
entries. -/
def ParsedWF (r : RdnData) : Prop :=
  (r.map Prod.fst).Nodup ∧ r ≠ [] ∧ ∀ p ∈ r, EntryWF p

/-- Every RDN produced by the parser loop is well-formed. -/
lemma parseLoopGo_wf (seed : Nat) (buf : List Nat) :
    ∀ (fuel pos : Nat) (rdn : RdnData) (acc : List RdnData) (out : List RdnData),
      (∀ r ∈ acc, ParsedWF r) →
      (rdn.map Prod.fst).Nodup →
      (∀ p ∈ rdn, EntryWF p) →
      parseLoopGo seed buf fuel pos rdn acc = POut.ok out →
      ∀ r ∈ out, ParsedWF r := by
  intro fuel
  induction fuel with
  | zero =>
    intro pos rdn acc out _ _ _ h
    cases h
  | succ f ih =>
    intro pos rdn acc out hacc hnd hent h
    rw [parseLoopGo] at h
    split at h
    · cases h
      exact hacc
    · split at h
      · cases h
      · dsimp only [] at h
        cases hpair : readAttributePair seed buf (skipSpaces buf pos) with
        | error e =>
          rw [hpair] at h
          cases h
        | ok pair =>
          rw [hpair] at h
          dsimp only [] at h
          obtain ⟨hnw, hvw⟩ := readAttributePair_wf seed buf _ pair hpair
          have hnd2 : ((mapSet rdn pair.name pair.value).map Prod.fst).Nodup :=
            mapSet_nodup _ _ _ hnd
          have hent2 : ∀ p ∈ mapSet rdn pair.name pair.value, EntryWF p := by
            intro p hp
            rcases mapSet_mem_sub rdn pair.name pair.value p hp with rfl | hmem
            · exact ⟨hnw, hvw⟩
            · exact hent p hmem
          have hdf : ParsedWF (mapSet rdn pair.name pair.value) :=
            ⟨hnd2, mapSet_ne_nil _ _ _, hent2⟩
          split at h
          · cases h
            intro r hr
            rcases List.mem_append.mp hr with h1 | h1
            · exact hacc r h1
            · rw [List.mem_singleton] at h1
              rw [h1]
              exact hdf
          · split at h
            · exact ih _ _ _ out hacc hnd2 hent2 h
            · split at h
              · refine ih _ ([] : RdnData) _ out ?_ (by simp)
                  (fun p hp => absurd hp (List.not_mem_nil p)) h
                intro r hr
                rcases List.mem_append.mp hr with h1 | h1
                · exact hacc r h1
                · rw [List.mem_singleton] at h1
                  rw [h1]
                  exact hdf
              · cases h

/-- Every RDN of an accepted DN string parse is well-formed. -/
lemma parseString_wf (seed : Nat) (s : JSStr) (rdns : List RdnData)
    (h : parseString seed s = POut.ok rdns) : ∀ r ∈ rdns, ParsedWF r := by
  unfold parseString at h
  split at h
  · cases h
    exact fun r hr => absurd hr (List.not_mem_nil r)
  · dsimp only [] at h
    exact parseLoopGo_wf seed _ _ 0 [] [] rdns (fun r hr => absurd hr (List.not_mem_nil r))
      List.nodup_nil (fun p hp => absurd hp (List.not_mem_nil p)) h

/-! ## Claim C1 machinery, part 5: the printed form of an accepted DN -/

/-- A value that the round trip can restore: a string that does not look
hex-encoded and contains no backslash. -/
def strValOK : Value → Bool
  | .str v => !isHexEncodedValueStr v && !(v.contains 0x5c)
  | .ber _ _ => false

/-- `intercalate` with a single-character separator, expanded. -/
lemma intercalate_single (sep : Nat) (x : JSStr) :
    ∀ (rest : List JSStr),
      List.intercalate [sep] (x :: rest) = x ++ rest.flatMap (fun y => sep :: y) := by
  intro rest
  induction rest generalizing x with
  | nil => simp [List.intercalate]
  | cons y rest2 ih =>
    rw [show List.intercalate [sep] (x :: y :: rest2) =
      x ++ ([sep] ++ List.intercalate [sep] (y :: rest2)) from by
        unfold List.intercalate
        rw [List.intersperse_cons_cons, List.flatten_cons, List.flatten_cons]]
    rw [ih y]
    simp [List.flatMap_cons]

/-- `flatMap` of a separator-prefixing function over a mapped list. -/
lemma flatMap_sep_map {α : Type} (sep : Nat) (f : α → JSStr) :
    ∀ (l : List α), (l.map f).flatMap (fun y => sep :: y) =
      l.flatMap (fun x => sep :: f x) := by
  intro l
  induction l with
  | nil => rfl
  | cons x rest ih =>
    simp only [List.map_cons, List.flatMap_cons]
    rw [ih]

/-- `entsText` is the `+`-intercalation of the entry texts. -/
lemma entsText_intercalate (es : List EntPr) :
    List.intercalate [0x2b] (es.map entText) = entsText es := by
  cases es with
  | nil => rfl
  | cons e rest =>
    rw [List.map_cons, intercalate_single, flatMap_sep_map]
    rfl

/-- `rdnsText` is the `,`-intercalation of the RDN texts. -/
lemma rdnsText_intercalate (ess : List (List EntPr)) :
    List.intercalate [0x2c] (ess.map entsText) = rdnsText ess := by
  cases ess with
  | nil => rfl
  | cons es rest =>
    rw [List.map_cons, intercalate_single, flatMap_sep_map]
    rfl

/-- A false `contains` means non-membership. -/
lemma contains_false_not_mem (v : JSStr) (c : Nat) (h : v.contains c = false) : c ∉ v := by
  intro hm
  have h2 : List.contains v c = true := List.elem_eq_true_of_mem hm
  rw [h2] at h
  cases h

/-- The value rendering of `RDN.toString` on an acceptable string value
succeeds with a well-formed, all-ASCII printed text. -/
lemma entryValueStr_print (v : JSStr) (hsc : ScalarStr v) (htr : jsTrim v = v)
    (hhex : isHexEncodedValueStr v = false) (hno : 0x5c ∉ v) :
    ∃ vtext, entryValueStr (.str v) = some vtext ∧ ValPrint v vtext ∧
      ∀ c ∈ vtext, c ≤ 0x7f := by
  have hno8 : 0x5c ∉ utf16ToUtf8 v := by
    intro hmem
    exact utf16ToUtf8Go_no5c v none (fun u hu heq => by
      rw [heq] at hu
      exact hno hu) 0x5c hmem rfl
  obtain ⟨toks, htoks, hcov, hok, hhead⟩ :=
    escapeBytesGo_tokens (utf16ToUtf8_wf v) true hno8
  obtain ⟨out, hout, hascii⟩ := escapeBytesGo_ascii (utf16ToUtf8_wf v) true
  have houtflat : out = toks.flatMap tokFlat := by
    rw [hout] at htoks
    exact Option.some.inj htoks
  refine ⟨toks.flatMap tokFlat, ?_, ⟨hsc, htr, toks, rfl, hcov, hok, hhead rfl⟩, ?_⟩
  · rw [show entryValueStr (.str v) =
      (if isHexEncodedValueStr v = true then some v else escapeValue v) from rfl]
    rw [hhex]
    rw [if_neg (by simp)]
    unfold escapeValue escapeBytes
    exact htoks
  · rw [← houtflat]
    exact hascii

/-- The entry list of `RDN.toString` on an acceptable RDN: each entry prints,
and the printed pieces are the entry texts of a well-formed `EntPr` list
covering the RDN. -/
lemma rdnEntries_print :
    ∀ (r : RdnData),
      (∀ p ∈ r, EntryWF p) →
      (∀ p ∈ r, strValOK p.2 = true) →
      ∃ es : List EntPr,
        r.mapM (fun p => (fun ev => p.1 ++ [0x3d] ++ ev) <$> entryValueStr p.2) =
          some (es.map entText) ∧
        (∀ e ∈ es, EntOK e) ∧
        r = es.map (fun e => (e.name, Value.str e.v)) ∧
        (∀ e ∈ es, ∀ c ∈ entText e, c ≤ 0x7f) := by
  intro r
  induction r with
  | nil =>
    intro _ _
    exact ⟨[], rfl, fun e he => absurd he (List.not_mem_nil e),
      rfl, fun e he => absurd he (List.not_mem_nil e)⟩
  | cons p rest ih =>
    intro hents hvals
    obtain ⟨hnw, hvw⟩ := hents p (List.mem_cons_self p rest)
    have hsv := hvals p (List.mem_cons_self p rest)
    obtain ⟨v, hv, hhex, hno⟩ : ∃ v, p.2 = .str v ∧ isHexEncodedValueStr v = false ∧
        0x5c ∉ v := by
      cases hp2 : p.2 with
      | ber tag bytes =>
        rw [hp2] at hsv
        exact absurd hsv (by
          rw [show strValOK (Value.ber tag bytes) = false from rfl]
          simp)
      | str v =>
        rw [hp2] at hsv
        rw [show strValOK (Value.str v) =
          (!isHexEncodedValueStr v && !(v.contains 0x5c)) from rfl] at hsv
        simp only [Bool.and_eq_true, Bool.not_eq_true'] at hsv
        exact ⟨v, rfl, hsv.1, contains_false_not_mem v 0x5c hsv.2⟩
    obtain ⟨htrv, hscv⟩ := hvw v hv
    obtain ⟨vtext, hev, hvp, hvascii⟩ := entryValueStr_print v hscv htrv hhex hno
    obtain ⟨es, hmm, hesok, hcov, hesascii⟩ :=
      ih (fun q hq => hents q (List.mem_cons_of_mem p hq))
        (fun q hq => hvals q (List.mem_cons_of_mem p hq))
    refine ⟨⟨p.1, v, vtext⟩ :: es, ?_, ?_, ?_, ?_⟩
    · rw [List.mapM_cons, hv, hev, hmm]
      simp only [Option.map_eq_map, Option.map_some, Option.bind_eq_bind, Option.some_bind,
        List.map_cons]
      rw [show p.1 ++ [0x3d] ++ vtext = entText ⟨p.1, v, vtext⟩ from by
        simp [entText]]
      rfl
    · intro e he
      rcases List.mem_cons.mp he with rfl | hmem
      · exact ⟨hnw, hvp⟩
      · exact hesok e hmem
    · rw [List.map_cons]
      rw [← hcov]
      rw [show ((⟨p.1, v, vtext⟩ : EntPr).name, Value.str (⟨p.1, v, vtext⟩ : EntPr).v) =
        (p.1, Value.str v) from rfl]
      rw [← hv]
    · intro e he
      rcases List.mem_cons.mp he with rfl | hmem
      · intro c hc
        unfold entText at hc
        rcases List.mem_append.mp hc with h1 | h1
        · obtain ⟨⟨c0, cs0, hname, _⟩, hvalid, _⟩ := hnw
          exact (nameChar_bounds (hvalid c h1)).2.2
        · rcases List.mem_cons.mp h1 with rfl | h2
          · omega
          · exact hvascii c h2
      · exact hesascii e hmem

/-- The RDN pieces of `DN.toString` on an acceptable DN: each RDN prints,
and the pieces are the `entsText`s of a well-formed `EntPr` structure
covering the DN. -/
lemma dnPieces_print :
    ∀ (A : DnData),
      (∀ r ∈ A, ParsedWF r) →
      (∀ r ∈ A, ∀ p ∈ r, strValOK p.2 = true) →
      ∃ ess : List (List EntPr), A.mapM rdnToString = some (ess.map entsText) ∧
        (∀ es ∈ ess, es ≠ [] ∧ ∀ e ∈ es, EntOK e) ∧
        A = ess.map (fun es => es.map (fun e => (e.name, Value.str e.v))) ∧
        (∀ es ∈ ess, ∀ c ∈ entsText es, c ≤ 0x7f) := by
  intro A
  induction A with
  | nil =>
    intro _ _
    exact ⟨[], rfl, fun es he => absurd he (List.not_mem_nil es),
      rfl, fun es he => absurd he (List.not_mem_nil es)⟩
  | cons r rest ih =>
    intro hwf hvals
    obtain ⟨hnd, hne, hents⟩ := hwf r (List.mem_cons_self r rest)
    obtain ⟨es, hmm, hesok, hcov, hesascii⟩ :=
      rdnEntries_print r hents (hvals r (List.mem_cons_self r rest))
    obtain ⟨ess, hdm, hessok, hcovs, hessascii⟩ :=
      ih (fun x hx => hwf x (List.mem_cons_of_mem r hx))
        (fun x hx => hvals x (List.mem_cons_of_mem r hx))
    have hesne : es ≠ [] := by
      intro hnil
      rw [hnil] at hcov
      exact hne (by rw [hcov]; rfl)
    have hrstr : rdnToString r = some (entsText es) := by
      unfold rdnToString
      rw [hmm]
      show some (List.intercalate [0x2b] (es.map entText)) = some (entsText es)
      rw [entsText_intercalate]
    refine ⟨es :: ess, ?_, ?_, ?_, ?_⟩
    · rw [List.mapM_cons, hrstr, hdm]
      rfl
    · intro es2 he2
      rcases List.mem_cons.mp he2 with rfl | hmem
      · exact ⟨hesne, hesok⟩
      · exact hessok es2 hmem
    · rw [List.map_cons, ← hcov, ← hcovs]
    · intro es2 he2
      rcases List.mem_cons.mp he2 with rfl | hmem
      · intro c hc
        cases hes2 : es2 with
        | nil =>
          rw [hes2] at hc
          cases hc
        | cons e es3 =>
          rw [hes2] at hc
          unfold entsText at hc
          rcases List.mem_append.mp hc with h1 | h1
          · exact hesascii e (hes2 ▸ List.mem_cons_self _ _) c h1
          · rcases List.mem_flatMap.mp h1 with ⟨e2, he2m, hce2⟩
            rcases List.mem_cons.mp hce2 with rfl | h3
            · omega
            · exact hesascii e2 (hes2 ▸ List.mem_cons_of_mem _ he2m) c h3
      · exact hessascii es2 hmem

/-- Characters of `rdnsText` are ASCII when the pieces are. -/
lemma rdnsText_ascii :
    ∀ (ess : List (List EntPr)),
      (∀ es ∈ ess, ∀ c ∈ entsText es, c ≤ 0x7f) →
      ∀ c ∈ rdnsText ess, c ≤ 0x7f := by
  intro ess
  cases ess with
  | nil =>
    intro _ c hc
    cases hc
  | cons es rest =>
    intro h c hc
    unfold rdnsText at hc
    rcases List.mem_append.mp hc with h1 | h1
    · exact h es (List.mem_cons_self _ _) c h1
    · rcases List.mem_flatMap.mp h1 with ⟨es2, hes2, hce2⟩
      rcases List.mem_cons.mp hce2 with rfl | h3
      · omega
      · exact h es2 (List.mem_cons_of_mem _ hes2) c h3

/-- `DN.toString` on an acceptable DN prints the `rdnsText` of a well-formed
`EntPr` structure covering the DN. -/
lemma dnToString_print (A : DnData)
    (hwf : ∀ r ∈ A, ParsedWF r)
    (hvals : ∀ r ∈ A, ∀ p ∈ r, strValOK p.2 = true) :
    ∃ ess : List (List EntPr), dnToString A = some (rdnsText ess) ∧
      (∀ es ∈ ess, es ≠ [] ∧ ∀ e ∈ es, EntOK e) ∧
      A = ess.map (fun es => es.map (fun e => (e.name, Value.str e.v))) ∧
      (∀ c ∈ rdnsText ess, c ≤ 0x7f) := by
  obtain ⟨ess, hmm, hok, hcov, hascii⟩ := dnPieces_print A hwf hvals
  refine ⟨ess, ?_, hok, hcov, rdnsText_ascii ess hascii⟩
  unfold dnToString
  rw [hmm]
  show some (List.intercalate [0x2c] (ess.map entsText)) = some (rdnsText ess)
  rw [rdnsText_intercalate]

/-! ## Claim C1, part 6: assembling the round trip -/

/-- Each `+`-joined tail entry occupies at least one character. -/
lemma flatPlus_count :
    ∀ (rest : List EntPr),
      rest.length ≤ (rest.flatMap (fun x => 0x2b :: entText x)).length := by
  intro rest
  induction rest with
  | nil => simp
  | cons e rest2 ih =>
    simp only [List.flatMap_cons, List.length_cons, List.length_append]
    omega

/-- One RDN's text has at least one character per entry. -/
lemma entsText_count (es : List EntPr) : es.length ≤ (entsText es).length := by
  cases es with
  | nil => simp [entsText]
  | cons e rest =>
    have h1 := flatPlus_count rest
    have h2 : 1 ≤ (entText e).length := by
      simp only [entText, List.length_append, List.length_cons]
      omega
    simp only [entsText, List.length_append, List.length_cons]
    omega

/-- Each `,`-joined tail RDN occupies at least one character per entry. -/
lemma flatComma_count :
    ∀ (ess : List (List EntPr)),
      (ess.map List.length).sum ≤ (ess.flatMap (fun x => 0x2c :: entsText x)).length := by
  intro ess
  induction ess with
  | nil => simp
  | cons es rest ih =>
    have h1 := entsText_count es
    simp only [List.flatMap_cons, List.map_cons, List.sum_cons, List.length_cons,
      List.length_append]
    omega

/-- The DN text has at least one character per printed entry. -/
lemma rdnsText_count (es : List EntPr) (ess : List (List EntPr)) :
    es.length + (ess.map List.length).sum ≤ (rdnsText (es :: ess)).length := by
  have h1 := entsText_count es
  have h2 := flatComma_count ess
  simp only [rdnsText, List.length_append]
  omega

/-- Rebuilding an RDN from its printed entries by `mapSet` restores it. -/
lemma entsRdn_restore (es : List EntPr)
    (hnd : ((es.map (fun e => (e.name, Value.str e.v))).map Prod.fst).Nodup) :
    entsRdn [] es = es.map (fun e => (e.name, Value.str e.v)) := by
  have h2 : entsRdn [] es =
      (es.map (fun e => (e.name, Value.str e.v))).foldl
        (fun m p => mapSet m p.1 p.2) [] := by
    rw [List.foldl_map]
    rfl
  rw [h2, foldl_mapSet_append _ [] (by simpa using hnd)]
  rfl

/-- C1 as stated is refuted by hex-encoded (`BerReader`) values: parsing
`cn=#04` yields a DN holding a `BerReader`; its serialization re-parses to a
structure holding a *different* `BerReader` object, and `DN.equals` compares
`BerReader` values by reference (`===`), so the round-tripped DN does not
equal the original. -/
theorem claimC1_counterexample :
    dnFromString 0 (strLit "cn=#04") =
      DOut.ok [[(strLit "cn", Value.ber (0, 4) [0x04])]] ∧
    dnToString [[(strLit "cn", Value.ber (0, 4) [0x04])]] = some (strLit "cn=#04") ∧
    dnFromString 1 (strLit "cn=#04") =
      DOut.ok [[(strLit "cn", Value.ber (1, 4) [0x04])]] ∧
    dnEquals [[(strLit "cn", Value.ber (0, 4) [0x04])]]
      [[(strLit "cn", Value.ber (1, 4) [0x04])]] = false := by
  refine ⟨by rfl, by rfl, by rfl, by rfl⟩

/-- C1 amended: for every DN string accepted by the parser whose attribute
values are all plain string values that neither look hex-encoded (`#` + hex
pairs) nor contain a backslash, serializing the parsed DN and re-parsing the
result restores the DN exactly: `parse(parse(s).toString())` is structurally
identical to `parse(s)` (hence `equals` holds), for any allocation seeds. -/
theorem claimC1_amended (seed1 seed2 : Nat) (s : JSStr) (A : DnData)
    (hparse : dnFromString seed1 s = DOut.ok A)
    (hvals : ∀ r ∈ A, ∀ p ∈ r, strValOK p.2 = true) :
    ∃ t, dnToString A = some t ∧ dnFromString seed2 t = DOut.ok A := by
  unfold dnFromString at hparse
  cases hps : parseString seed1 s with
  | err e =>
    rw [hps] at hparse
    cases hparse
  | hang =>
    rw [hps] at hparse
    cases hparse
  | ok rdns =>
    rw [hps] at hparse
    dsimp only [] at hparse
    cases hmk : mkDn rdns with
    | error e =>
      rw [hmk] at hparse
      cases hparse
    | ok dn =>
      rw [hmk] at hparse
      cases hparse
      have hwf : ∀ r ∈ rdns, ParsedWF r := parseString_wf seed1 s rdns hps
      obtain ⟨hAeq, _⟩ := mkDn_id rdns A (fun r hr => (hwf r hr).1) hmk
      subst hAeq
      obtain ⟨ess, ht, hessok, hcov, hascii⟩ := dnToString_print A hwf hvals
      refine ⟨rdnsText ess, ht, ?_⟩
      have hrebuild : ∀ es ∈ ess, entsRdn [] es =
          es.map (fun e => (e.name, Value.str e.v)) := by
        intro es hes
        refine entsRdn_restore es ?_
        have hmem : es.map (fun e => (e.name, Value.str e.v)) ∈ A := by
          rw [hcov]
          exact List.mem_map.mpr ⟨es, hes, rfl⟩
        exact (hwf _ hmem).1
      cases hess : ess with
      | nil =>
        rw [hess] at hcov
        rw [show (([] : List (List EntPr)).map
          (fun es => es.map (fun e => (e.name, Value.str e.v)))) = [] from rfl] at hcov
        rw [hcov]
        rfl
      | cons es1 ess' =>
        have hess1 := hessok es1 (hess ▸ List.mem_cons_self _ _)
        have htne : (rdnsText (es1 :: ess')).length ≠ 0 := by
          have h1 := rdnsText_count es1 ess'
          have h2 : 1 ≤ es1.length := by
            cases hes1 : es1 with
            | nil => exact absurd hes1 hess1.1
            | cons _ _ => simp
          omega
        unfold dnFromString parseString
        rw [if_neg htne]
        dsimp only []
        rw [utf16ToUtf8_ascii _ (by
          rw [hess] at hascii
          exact hascii)]
        rw [show parseLoopGo seed2 (rdnsText (es1 :: ess')) ((rdnsText (es1 :: ess')).length + 2)
            0 [] [] =
          parseLoopGo seed2 (([] : List Nat) ++ rdnsText (es1 :: ess'))
            ((rdnsText (es1 :: ess')).length + 2) ([] : List Nat).length [] [] from rfl]
        rw [parseLoopGo_print seed2 _ es1 ess' [] [] [] hess1.2
          (fun x hx => hessok x (hess ▸ List.mem_cons_of_mem _ hx)) hess1.1
          (by
            have h1 := rdnsText_count es1 ess'
            omega)]
        have hres : entsRdn [] es1 :: ess'.map (entsRdn []) = A := by
          rw [hcov, hess]
          rw [List.map_cons]
          rw [hrebuild es1 (hess ▸ List.mem_cons_self _ _)]
          rw [List.map_congr_left (fun es hes2 =>
            hrebuild es (hess ▸ List.mem_cons_of_mem _ hes2))]
        rw [show ([] : List RdnData) ++ entsRdn [] es1 :: ess'.map (entsRdn []) =
          entsRdn [] es1 :: ess'.map (entsRdn []) from List.nil_append _]
        rw [hres]
        dsimp only []
        rw [hmk]

/-- Concrete C1 round trip: `cn=foo,dc=example` parses (seed 0), and its
serialization re-parses (seed 1) to the identical structure. -/
theorem claimC1_witness :
    ∃ t, dnToString [[(strLit "cn", Value.str (strLit "foo"))],
        [(strLit "dc", Value.str (strLit "example"))]] = some t ∧
      dnFromString 1 t = DOut.ok [[(strLit "cn", Value.str (strLit "foo"))],
        [(strLit "dc", Value.str (strLit "example"))]] :=
  claimC1_amended 0 1 (strLit "cn=foo,dc=example") _ (by rfl) (by decide)

end LdapDn
